import Mathlib

/-!
Dense matrix engine of SocNetV (`src/src/matrix.cpp`)

A shallow embedding of the `Matrix` class and of the operations on it, and
theorems about them.  Cells are rationals: the arithmetic of the C++ `float`
cells is taken exact.  Storage is modelled as the C++ code uses it: a matrix
owns an array of rows, a row owns an array of cells, and both are addressed
by plain indices.
-/

/-- Square matrices over the rationals, in the sense of the mathematical library. -/
abbrev QMat (n : Nat) : Type := Matrix (Fin n) (Fin n) ℚ

namespace SocNetV

/-! ## Loops -/

/-- Runs `body i` for `i = i0, i0 + 1, ...`, `k` times. -/
def loopFrom {σ : Type} (body : Nat → σ → σ) : Nat → Nat → σ → σ
  | 0, _, s => s
  | k + 1, i, s => loopFrom body k (i + 1) (body i s)

/-- The loop `for (i = lo; i < hi; i++) s = body i s`. -/
def forLoop {σ : Type} (lo hi : Nat) (body : Nat → σ → σ) (s : σ) : σ :=
  loopFrom body (hi - lo) lo s

/-- The loop `for (i = hi - 1; i >= lo; i--) s = body i s`. -/
def forLoopDown {σ : Type} (lo : Nat) (body : Nat → σ → σ) : Nat → σ → σ
  | 0, s => s
  | hi + 1, s => if lo ≤ hi then forLoopDown lo body hi (body hi s) else s

/-! ## Data model -/

/-- Modelled from the spec: the class `Row` of `matrix.h` (not among the sources),
a vector of cells with a logical size `m_cols`; a cell is read and written by
its index. -/
structure Row where
  /-- Logical size of the row. -/
  m_cols : Nat
  /-- Cell storage. -/
  cell : Nat → ℚ

namespace Row

/-- Modelled from the spec: `Row::column(c)` of `matrix.h`, the read of cell `c`. -/
def column (r : Row) (c : Nat) : ℚ := r.cell c

/-- Modelled from the spec: `Row::setColumn(index, elem)` of `matrix.h`, the write of
one cell. -/
def setColumn (r : Row) (index : Nat) (elem : ℚ) : Row :=
  { r with cell := fun c => if c = index then elem else r.cell c }

/-- Modelled from the spec: `Row::clearColumn(index)` of `matrix.h`, which zeroes one
cell. -/
def clearColumn (r : Row) (index : Nat) : Row := r.setColumn index 0

/-- Modelled from the spec: `Row::resize(cols)` of `matrix.h`, which leaves a fresh row
of `cols` zero cells. -/
def resize (_r : Row) (cols : Nat) : Row := { m_cols := cols, cell := fun _ => 0 }

/-- Modelled from the spec: `Row::setSize(cols)` of `matrix.h`, which changes the
logical size only. -/
def setSize (r : Row) (cols : Nat) : Row := { r with m_cols := cols }

/-- Modelled from the spec: a default-constructed `Row` of `matrix.h`, of size zero. -/
def empty : Row := { m_cols := 0, cell := fun _ => 0 }

/-- Modelled from the spec: `Row::operator=` of `matrix.h`; assignment duplicates the
row storage of its argument. -/
def assign (_r a : Row) : Row := a

end Row

/-- The class `Matrix`: dimensions and an array of rows. -/
structure Matrix where
  /-- Number of rows. -/
  m_rows : Nat
  /-- Number of columns. -/
  m_cols : Nat
  /-- Row storage (`Row *row`). -/
  row : Nat → Row

namespace Matrix

/-- Modelled from the spec: the accessor `rows()` of `matrix.h`. -/
def rows (M : Matrix) : Nat := M.m_rows

/-- Modelled from the spec: the accessor `cols()` of `matrix.h`. -/
def cols (M : Matrix) : Nat := M.m_cols

/-- Constructor `Matrix::Matrix(rowDim, colDim)`: `rowDim` rows resized to `colDim`. -/
def mk0 (rowDim colDim : Nat) : Matrix :=
  { m_rows := rowDim, m_cols := colDim, row := fun _ => Row.empty.resize colDim }

/-- Reads `Matrix::item(r, c)`. -/
def item (M : Matrix) (r c : Nat) : ℚ := (M.row r).column c

/-- Writes `Matrix::setItem(r, c, elem)`. -/
def setItem (M : Matrix) (r c : Nat) (elem : ℚ) : Matrix :=
  { M with row := fun r0 => if r0 = r then (M.row r).setColumn c elem else M.row r0 }

/-- Clears `Matrix::clearItem(r, c)`. -/
def clearItem (M : Matrix) (r c : Nat) : Matrix :=
  { M with row := fun r0 => if r0 = r then (M.row r).clearColumn c else M.row r0 }

/-- Releases `Matrix::clear()`: a non-empty matrix loses its rows. -/
def clear (M : Matrix) : Matrix :=
  if M.m_rows > 0 then { m_rows := 0, m_cols := 0, row := fun _ => Row.empty } else M

/-- Allocates `row = new Row[m_rows]`: default-constructed rows. -/
def newRows (M : Matrix) : Matrix := { M with row := fun _ => Row.empty }

/-- Resizes row `i` in place (`row[i].resize(cols)`). -/
def resizeRow (M : Matrix) (i cols : Nat) : Matrix :=
  { M with row := fun r0 => if r0 = i then (M.row i).resize cols else M.row r0 }

/-- Resets `Matrix::resize(m, n)`: old rows are dropped, `m` fresh rows of `n` zero cells. -/
def resize (M : Matrix) (m n : Nat) : Matrix :=
  let M := M.clear
  let M : Matrix := { M with m_rows := m }
  let M : Matrix := { M with m_cols := n }
  let M := M.newRows
  forLoop 0 M.m_rows (fun i M => M.resizeRow i M.m_cols) M

/-- Resets `Matrix::identityMatrix(dim)`: fresh rows, ones on the diagonal. -/
def identityMatrix (M : Matrix) (dim : Nat) : Matrix :=
  let M := M.clear
  let M : Matrix := { M with m_rows := dim }
  let M : Matrix := { M with m_cols := dim }
  let M := M.newRows
  forLoop 0 M.m_rows (fun i M => (M.resizeRow i M.m_rows).setItem i i 1) M

/-- Resets `Matrix::zeroMatrix(m, n)`: fresh rows, the diagonal cleared.  The call
`setItem(i, i, 0)` addresses the column `i` of a row of `n` cells: for `n ≤ i < m` it
lies beyond the row, where the C++ write is undefined, and what this definition leaves
stands for the source only when `m ≤ n` (`zeroMatrixAccesses` records the calls). -/
def zeroMatrix (M : Matrix) (m n : Nat) : Matrix :=
  let M := M.clear
  let M : Matrix := { M with m_rows := m }
  let M : Matrix := { M with m_cols := n }
  let M := M.newRows
  forLoop 0 M.m_rows (fun i M => (M.resizeRow i M.m_cols).setItem i i 0) M

/-- Deletes with `Matrix::deleteRowColumn(erased)`.  `RAND_MAX` is the macro of
`<cstdlib>`, taken as a parameter.  The decrement `--m_rows` and the comparisons
are those of the C++ `int`; the stored dimensions are truncated at zero. -/
def deleteRowColumn (M : Matrix) (erased : Int) (RAND_MAX : ℚ) : Matrix :=
  let m_rows : Int := (M.m_rows : Int) - 1
  let M : Matrix := { M with m_rows := m_rows.toNat }
  let M : Matrix := { M with m_cols := m_rows.toNat }
  forLoop 0 (m_rows + 1).toNat (fun i M =>
    let M := forLoop 0 (m_rows + 1).toNat (fun j M =>
      if (i : Int) ≥ m_rows ∨ (j : Int) ≥ m_rows then M.setItem i j RAND_MAX
      else if (i : Int) < erased ∧ (j : Int) < erased then M
      else if (i : Int) < erased ∧ (j : Int) ≥ erased then M.setItem i j (M.item i (j + 1))
      else if (i : Int) ≥ erased ∧ (j : Int) < erased then M.setItem i j (M.item (i + 1) j)
      else if (i : Int) ≥ erased ∧ (j : Int) ≥ erased then
        M.setItem i j (M.item (i + 1) (j + 1))
      else M) M
    { M with row := fun r0 => if r0 = i then (M.row i).setSize M.m_cols else M.row r0 }) M

/-- Exchanges with `Matrix::swapRows(rowA, rowB)`; the column loop runs to `rows()`. -/
def swapRows (M : Matrix) (rowA rowB : Nat) : Matrix :=
  (forLoop 0 M.rows (fun j (s : Matrix × (Nat → ℚ)) =>
    let tempRow := Function.update s.2 j (s.1.item rowB j)
    let M := s.1.setItem rowB j (s.1.item rowA j)
    let M := M.setItem rowA j (tempRow j)
    (M, tempRow)) (M, fun _ => 0)).1

/-- Scales with `Matrix::multiplyRow(row, value)`; the column loop runs to `rows()`. -/
def multiplyRow (M : Matrix) (row : Nat) (value : ℚ) : Matrix :=
  forLoop 0 M.rows (fun j M => M.setItem row j (value * M.item row j)) M

/-- Computes `Matrix::product(a, b, symmetry)` into the receiver `P`. -/
def product (P a b : Matrix) (symmetry : Bool) : Matrix :=
  forLoop 0 P.rows (fun i P =>
    forLoop 0 P.cols (fun j P =>
      let P := P.setItem i j 0
      if symmetry && decide (i > j) then P
      else
        let P := forLoop 0 P.m_rows
          (fun k P => P.setItem i j (P.item i j + a.item i k * b.item k j)) P
        if symmetry then P.setItem j i (P.item i j) else P) P) P

/-- Assigns with `Matrix::operator=` from another object `a` (the branch guarded by
`this != &a`): storage is reallocated when the row counts differ, then every row is
copied. -/
def assign (M a : Matrix) : Matrix :=
  let M :=
    if a.m_rows ≠ M.m_rows then
      let M := M.clear
      let M : Matrix := { M with m_rows := a.m_rows }
      let M : Matrix := { M with m_cols := a.m_cols }
      let M := M.newRows
      forLoop 0 M.m_rows (fun i M => M.resizeRow i M.m_cols) M
    else M
  forLoop 0 M.m_rows (fun i M =>
    ({ M with row := fun r0 => if r0 = i then (M.row i).assign (a.row i) else M.row r0 }
      : Matrix)) M

/-- Recursion `Matrix::expBySquaring2(Y, X, n, symmetry)` on the receiver `M`.
The recursive calls pass three arguments, so they run with the default value of
`symmetry` declared in `matrix.h` (not among the sources): the parameter
`symmetryDefault`.  The recursion is bounded by `fuel`; `none` is a recursion
that has not returned. -/
def expBySquaring2 (symmetryDefault : Bool) (M : Matrix) :
    Nat → Matrix → Matrix → Int → Bool → Option Matrix
  | 0, _, _, _, _ => none
  | fuel + 1, Y, X, n, symmetry =>
    if n = 1 then
      let PM := (mk0 0 0).zeroMatrix M.rows M.cols
      let PM := PM.product X Y symmetry
      some PM
    else if Int.tmod n 2 = 0 then
      let PM := (mk0 0 0).zeroMatrix M.rows M.cols
      let PM := PM.product X X symmetry
      expBySquaring2 symmetryDefault M fuel Y PM (Int.tdiv n 2) symmetryDefault
    else
      let PM := (mk0 0 0).zeroMatrix M.rows M.cols
      let PM2 := (mk0 0 0).zeroMatrix M.rows M.cols
      let PM := PM.product X Y symmetry
      let PM2 := PM2.product X X symmetry
      expBySquaring2 symmetryDefault M fuel PM PM2 (Int.tdiv (n - 1) 2) symmetryDefault

/-- Power `Matrix::pow(n, symmetry)`: the returned matrix. -/
def pow (symmetryDefault : Bool) (fuel : Nat) (M : Matrix) (n : Int) (symmetry : Bool) :
    Option Matrix :=
  if M.rows ≠ M.cols then some M
  else
    let X := (mk0 0 0).assign M
    let Y := (mk0 0 0).identityMatrix M.rows
    expBySquaring2 symmetryDefault M fuel Y X n symmetry

/-- The pivot search of `inverseByGaussJordanElimination` at column `j`: the loop over
the rows `l = j + 1, ..., n - 1`; the result is the pair of `m_pivotLine` and `m_pivot`. -/
def gjPivotSearch (A : Matrix) (n j : Nat) : Int × ℚ :=
  let l := j + 1
  let m_pivotLine : Int := -1
  let m_pivot := A.item j j
  forLoop l n (fun i (p : Int × ℚ) =>
    let temp_pivot := A.item i j
    if |temp_pivot| > |p.2| then ((i : Int), temp_pivot) else p) (m_pivotLine, m_pivot)

/-- The scaling loop of `inverseByGaussJordanElimination`: row `j` of `A` and of the
receiver is multiplied by `1 / m_pivot`.  A state is the pair of the receiver and `A`. -/
def gjScaleRow (j : Nat) (m_pivot : ℚ) (s : Matrix × Matrix) : Matrix × Matrix :=
  forLoop 0 s.1.rows (fun k (s : Matrix × Matrix) =>
    let A := s.2.setItem j k ((1 / m_pivot) * s.2.item j k)
    let R := s.1.setItem j k ((1 / m_pivot) * s.1.item j k)
    (R, A)) s

/-- The elimination loop of `inverseByGaussJordanElimination`: column `j` is cleared in
every row other than `j`, in `A` and in the receiver. -/
def gjEliminate (j : Nat) (s : Matrix × Matrix) : Matrix × Matrix :=
  forLoop 0 s.1.rows (fun i (s : Matrix × Matrix) =>
    if s.2.item i j = 0 then s
    else if i = j then s
    else
      let elim_coef := s.2.item i j
      forLoop 0 s.1.cols (fun k (s : Matrix × Matrix) =>
        let A := s.2.setItem i k (s.2.item i k - elim_coef * s.2.item j k)
        let R := s.1.setItem i k (s.1.item i k - elim_coef * s.1.item j k)
        (R, A)) s) s

/-- One pass of the column loop of `inverseByGaussJordanElimination`, at column `j`. -/
def gjColumn (n j : Nat) (s : Matrix × Matrix) : Matrix × Matrix :=
  let p := gjPivotSearch s.2 n j
  let m_pivotLine := p.1
  let m_pivot := p.2
  let A := if m_pivotLine ≠ -1 then s.2.swapRows m_pivotLine.toNat j else s.2
  let R := if m_pivotLine ≠ -1 then s.1.swapRows m_pivotLine.toNat j else s.1
  gjEliminate j (gjScaleRow j m_pivot (R, A))

/-- Inverts with `Matrix::inverseByGaussJordanElimination(A)`: the pair of the receiver
and of the argument `A` after the call. -/
def inverseByGaussJordanElimination (R A : Matrix) : Matrix × Matrix :=
  let n := A.cols
  let R := R.identityMatrix n
  forLoop 0 n (gjColumn n) (R, A)

/-- The constant `TINY` of `matrix.cpp`. -/
def TINY : ℚ := 1 / 10 ^ 20

/-- Working state of `Matrix::ludcmp`: the matrix, the permutation record, the parity
and the row scalings. -/
structure LUState where
  /-- The matrix being decomposed. -/
  a : Matrix
  /-- The array `indx`. -/
  indx : Nat → Nat
  /-- The parity `d`. -/
  d : ℚ
  /-- The array `vv`. -/
  vv : Nat → ℚ

/-- The first loop of `Matrix::ludcmp`: the implicit scaling of each row; `none` is the
`return false` on a row without a nonzero element. -/
def ludcmpScaling (a : Matrix) (n : Nat) (vv : Nat → ℚ) : Option (Nat → ℚ) :=
  forLoop 0 n (fun i (s : Option (Nat → ℚ)) =>
    match s with
    | none => none
    | some vv =>
      let big := forLoop 0 n (fun j (big : ℚ) =>
        let temp := |a.item i j|
        if temp > big then temp else big) 0
      if big = 0 then none else some (Function.update vv i (1 / big))) (some vv)

/-- The pivot search of `Matrix::ludcmp` at column `j`: the pair of `big` and `imax`. -/
def ludcmpPivotSearch (a : Matrix) (vv : Nat → ℚ) (n j : Nat) : ℚ × Nat :=
  forLoop j n (fun i (p : ℚ × Nat) =>
    let temp := vv i * |a.item i j|
    if temp > p.1 then (temp, i) else p) ((0 : ℚ), j)

/-- The row interchange of `Matrix::ludcmp`: rows `imax` and `j` of `a`, cell by cell. -/
def ludcmpInterchange (a : Matrix) (n imax j : Nat) : Matrix :=
  forLoop 0 n (fun k (a : Matrix) =>
    let temp := a.item imax k
    let a := a.setItem imax k (a.item j k)
    a.setItem j k temp) a

/-- The reduction of `Matrix::ludcmp` at column `j`: every row below `j` is divided by
the pivot in column `j` and reduced in the columns after `j`. -/
def ludcmpReduce (a : Matrix) (n j : Nat) : Matrix :=
  forLoop (j + 1) n (fun i (a : Matrix) =>
    let a := a.setItem i j (a.item i j / a.item j j)
    let temp := a.item i j
    forLoop (j + 1) n (fun k (a : Matrix) =>
      a.setItem i k (a.item i k - temp * a.item j k)) a) a

/-- One pass of the loop over columns of `Matrix::ludcmp`, at column `j`. -/
def ludcmpColumn (n j : Nat) (s : LUState) : LUState :=
  let p := ludcmpPivotSearch s.a s.vv n j
  let imax := p.2
  let s : LUState :=
    if j ≠ imax then
      { s with a := ludcmpInterchange s.a n imax j, d := -s.d,
               vv := Function.update s.vv imax (s.vv j) }
    else s
  let s : LUState := { s with indx := Function.update s.indx j imax }
  let s : LUState := if s.a.item j j = 0 then { s with a := s.a.setItem j j TINY } else s
  { s with a := ludcmpReduce s.a n j }

/-- The loop over columns of `Matrix::ludcmp`. -/
def ludcmpColumns (n : Nat) (s : LUState) : LUState :=
  forLoop 0 n (ludcmpColumn n) s

/-- Decomposes with `Matrix::ludcmp(a, n, indx, d)`: the returned flag and the state of
`a`, `indx` and `d` after the call.  The scratch array `vv` starts as zeros. -/
def ludcmp (a : Matrix) (n : Nat) (indx : Nat → Nat) (_d : ℚ) : Bool × LUState :=
  let d : ℚ := 1
  match ludcmpScaling a n (fun _ => 0) with
  | none => (false, { a := a, indx := indx, d := d, vv := fun _ => 0 })
  | some vv => (true, ludcmpColumns n { a := a, indx := indx, d := d, vv := vv })

/-- The forward substitution loop of `Matrix::lubksb`: the vector `b` and the index `ii`. -/
def lubksbForward (a : Matrix) (n : Nat) (indx : Nat → Nat) (b : Nat → ℚ) :
    (Nat → ℚ) × Nat :=
  forLoop 0 n (fun i (s : (Nat → ℚ) × Nat) =>
    let b := s.1
    let ii := s.2
    let ip := indx i
    let sum := b ip
    let b := Function.update b ip (b i)
    let sum := if ii ≠ 0 then forLoop (ii - 1) i (fun j sum => sum - a.item i j * b j) sum
      else sum
    let ii := if ii ≠ 0 then ii else if sum ≠ 0 then i + 1 else ii
    (Function.update b i sum, ii)) (b, 0)

/-- The back substitution loop of `Matrix::lubksb`. -/
def lubksbBackward (a : Matrix) (n : Nat) (b : Nat → ℚ) : Nat → ℚ :=
  forLoopDown 0 (fun i (b : Nat → ℚ) =>
    let sum := b i
    let sum := forLoop (i + 1) n (fun j sum => sum - a.item i j * b j) sum
    Function.update b i (sum / a.item i i)) n b

/-- Solves with `Matrix::lubksb(a, n, indx, b)`: the vector `b` after the call. -/
def lubksb (a : Matrix) (n : Nat) (indx : Nat → Nat) (b : Nat → ℚ) : Nat → ℚ :=
  lubksbBackward a n (lubksbForward a n indx b).1

/-- Inverts with `Matrix::inverse(a)`: the pair of the receiver and of the argument
`a` after the call.  The local arrays `col` and `indx` start as zeros. -/
def inverse (R a : Matrix) : Matrix × Matrix :=
  let n := a.rows
  if n = 0 then (R, a)
  else
    let r := ludcmp a n (fun _ => 0) 0
    if !r.1 then (R, r.2.a)
    else
      let a := r.2.a
      let s := forLoop 0 n (fun j (s : Matrix × (Nat → ℚ)) =>
        let col := forLoop 0 n (fun i (col : Nat → ℚ) => Function.update col i 0) s.2
        let col := Function.update col j 1
        let col := lubksb a n r.2.indx col
        (forLoop 0 n (fun i (R : Matrix) => R.setItem i j (col i)) s.1, col)) (R, fun _ => 0)
      (s.1, a)

/-! ## Reading a matrix as a mathematical object -/

/-- Builds a matrix from the list of its rows. -/
def ofRows (l : List (List ℚ)) : Matrix :=
  { m_rows := l.length, m_cols := (l.headD []).length,
    row := fun r => { m_cols := (l.getD r []).length, cell := fun c => (l.getD r []).getD c 0 } }

/-- The leading `n × n` block of the cells, as a mathematical matrix. -/
def toQ (n : Nat) (M : Matrix) : QMat n := fun i j => M.item i j

/-- Renumbering after the removal of index `k`: position `i` of the result is position
`i` of the original before `k`, and position `i + 1` from `k` on. -/
def shiftIndex (k i : Nat) : Nat := if k ≤ i then i + 1 else i

/-- The matrix whose column `j` holds `u r` in every row `r ≠ j`, and zeros elsewhere:
subtracting it from the identity gives the elimination of column `j`. -/
def elimMatrix (n j : Nat) (u : Nat → ℚ) : QMat n :=
  fun r m => if (m : Nat) = j ∧ (r : Nat) ≠ j then u r else 0

/-- The lower factor read from `a` when the columns before `j` are reduced: unit
diagonal, the multipliers of `a` below the diagonal in the columns before `j`. -/
def luLower (n j : Nat) (a : Matrix) : QMat n :=
  fun r m => if r = m then 1 else if (m : Nat) < (r : Nat) ∧ (m : Nat) < j then a.item r m else 0

/-- The upper part read from `a` when the columns before `j` are reduced: the rows
before `j` from their diagonal on, and the block of the rows and columns from `j` on. -/
def luUpper (n j : Nat) (a : Matrix) : QMat n :=
  fun r m => if ((r : Nat) < j ∧ (r : Nat) ≤ (m : Nat)) ∨ (j ≤ (r : Nat) ∧ j ≤ (m : Nat))
    then a.item r m else 0

/-- The row permutation recorded in `indx` by the first `j` columns: the interchange of
`0` and `indx 0`, then of `1` and `indx 1`, and so on; position `i` of the permuted
rows holds the original row `luPerm indx j i`. -/
def luPerm (indx : Nat → Nat) : Nat → Equiv.Perm Nat
  | 0 => 1
  | j + 1 => luPerm indx j * Equiv.swap j (indx j)

/-- Invariant of the loop over columns of `ludcmp` on the input `M0`, when the columns
before `j` are reduced: positive scalings, recorded interchanges within `[t, n)`,
nonzero pivots, and the factors read from `a` multiply to the rows of `M0` permuted as
recorded. -/
def LUInv (n : Nat) (M0 : Matrix) (j : Nat) (s : LUState) : Prop :=
  (∀ i, i < n → 0 < s.vv i) ∧
  (∀ t, t < j → t ≤ s.indx t ∧ s.indx t < n) ∧
  (∀ t, t < j → s.a.item t t ≠ 0) ∧
  ∃ π : Equiv.Perm (Fin n), (∀ r : Fin n, ((π r : Fin n) : Nat) = luPerm s.indx j r) ∧
    luLower n j s.a * luUpper n j s.a = (toQ n M0).submatrix π id

/-- The body of the innermost loop of `Matrix::productSym` at the cell `(i, j)`: the
step of index `k`. -/
def productSymInner (a b : Matrix) (i j k : Nat) (P : Matrix) : Matrix :=
  if k > j then
    if a.item i k ≠ 0 ∧ b.item j k ≠ 0 then
      P.setItem i j (P.item i j + a.item i k * b.item j k)
    else P
  else if i > k then
    if a.item k i ≠ 0 ∧ b.item k j ≠ 0 then
      P.setItem i j (P.item i j + a.item k i * b.item k j)
    else P
  else
    if a.item i k ≠ 0 ∧ b.item k j ≠ 0 then
      P.setItem i j (P.item i j + a.item i k * b.item k j)
    else P

/-- Computes `Matrix::productSym(a, b)` into the receiver `P`. -/
def productSym (P a b : Matrix) : Matrix :=
  forLoop 0 P.rows (fun i P =>
    forLoop 0 P.cols (fun j P =>
      let P := P.setItem i j 0
      if i ≥ j then P
      else forLoop 0 P.m_rows (productSymInner a b i j) P) P) P

/-- Adds with `Matrix::sum(a, b)` into the receiver `P`. -/
def sum (P a b : Matrix) : Matrix :=
  forLoop 0 P.rows (fun i P =>
    forLoop 0 P.cols (fun j P => P.setItem i j (a.item i j + b.item i j)) P) P

/-- Copy constructor `Matrix::Matrix(const Matrix &b)`. -/
def copyOf (b : Matrix) : Matrix :=
  let M : Matrix := { m_rows := b.m_rows, m_cols := b.m_cols, row := fun _ => Row.empty }
  let M := forLoop 0 M.m_rows (fun i M => M.resizeRow i M.m_cols) M
  forLoop 0 M.m_rows (fun i M =>
    ({ M with row := fun r0 => if r0 = i then (M.row i).assign (b.row i) else M.row r0 }
      : Matrix)) M

/-- The interchange of the positions `a` and `b` of a sequence. -/
def interchange {α : Type} (f : Nat → α) (a b : Nat) : Nat → α :=
  fun i => if i = a then f b else if i = b then f a else f i

/-- The sequence obtained by applying, for `t = 0, ..., j - 1` in order, the interchange
of the positions `t` and `indx t`. -/
def applyInterchanges {α : Type} (indx : Nat → Nat) : Nat → (Nat → α) → (Nat → α)
  | 0, f => f
  | j + 1, f => interchange (applyInterchanges indx j f) j (indx j)

/-- The factor `L` read from `a`: the entries below the diagonal, a unit diagonal, zeros
above. -/
def unitLower (n : Nat) (a : Matrix) : QMat n :=
  fun r m => if (m : Nat) < (r : Nat) then a.item r m else if r = m then 1 else 0

/-- The factor `U` read from `a`: the entries on and above the diagonal, zeros below. -/
def upperPart (n : Nat) (a : Matrix) : QMat n :=
  fun r m => if (r : Nat) ≤ (m : Nat) then a.item r m else 0

/-! ## Scans, sums and the text renderer -/

/-- The function `fmod(x, y)` of `<cmath>`: what is left of `x` after taking away `y`
times the quotient `x / y` truncated toward zero. -/
def fmod (x y : ℚ) : ℚ := x - y * ((Int.tdiv (x / y).num (x / y).den : Int) : ℚ)

/-- The three reference parameters of `Matrix::findMinMaxValues` after the call. -/
structure MinMax where
  /-- The parameter `min`. -/
  min : ℚ
  /-- The parameter `max`. -/
  max : ℚ
  /-- The parameter `hasRealNumbers`. -/
  hasRealNumbers : Bool

/-- Scans with `Matrix::findMinMaxValues(min, max, hasRealNumbers)`.  `RAND_MAX` is the
macro of `<cstdlib>`, taken as a parameter. -/
def findMinMaxValues (M : Matrix) (RAND_MAX : ℚ) : MinMax :=
  let s : MinMax := { min := RAND_MAX, max := 0, hasRealNumbers := false }
  forLoop 0 M.rows (fun r (s : MinMax) =>
    forLoop 0 M.cols (fun c (s : MinMax) =>
      let s : MinMax := if fmod (M.item r c) 1 ≠ 0 then { s with hasRealNumbers := true } else s
      let s : MinMax := if M.item r c > s.max then { s with max := M.item r c } else s
      if M.item r c < s.min then { s with min := M.item r c } else s) s) s

/-- The six reference parameters of `Matrix::NeighboursNearestFarthest` after the call. -/
structure Neighbours where
  /-- The parameter `min`. -/
  min : ℚ
  /-- The parameter `max`. -/
  max : ℚ
  /-- The parameter `imin`. -/
  imin : Int
  /-- The parameter `jmin`. -/
  jmin : Int
  /-- The parameter `imax`. -/
  imax : Int
  /-- The parameter `jmax`. -/
  jmax : Int

/-- Scans with `Matrix::NeighboursNearestFarthest(min, max, imin, jmin, imax, jmax)`; the
four coordinates come in with the values the caller's variables hold.  `RAND_MAX` is the
macro of `<cstdlib>`, taken as a parameter. -/
def NeighboursNearestFarthest (M : Matrix) (RAND_MAX : ℚ) (imin jmin imax jmax : Int) :
    Neighbours :=
  let s : Neighbours :=
    { min := RAND_MAX, max := 0, imin := imin, jmin := jmin, imax := imax, jmax := jmax }
  forLoop 0 M.rows (fun r (s : Neighbours) =>
    forLoop 0 M.cols (fun c (s : Neighbours) =>
      if r = c then s
      else
        let s : Neighbours :=
          if M.item r c > s.max then { s with max := M.item r c, imax := r, jmax := c } else s
        if M.item r c < s.min then { s with min := M.item r c, imin := r, jmin := c } else s)
      s) s

/-- Transforms with `Matrix::subtractFromI()`. -/
def subtractFromI (M : Matrix) : Matrix :=
  forLoop 0 M.rows (fun i M =>
    forLoop 0 M.cols (fun j M =>
      if i = j then M.setItem i j (1 - M.item i j)
      else M.setItem i j (M.item i j)) M) M

/-- Adds with `Matrix::operator +=` (`M += b`, with `b` another object): the receiver
after the call. -/
def plusAssign (M b : Matrix) : Matrix :=
  forLoop 0 M.rows (fun i M =>
    forLoop 0 M.cols (fun j M => M.setItem i j (M.item i j + b.item i j)) M) M

/-- Adds with `Matrix::operator +` (`M + b`): the triple of the returned matrix `S`, of
the receiver and of `b` after the call.  `S` is built by `zeroMatrix(rows(), cols())`,
whose diagonal writes leave the rows when `rows() > cols()`: what this definition returns
stands for the source only when `rows() ≤ cols()` (`plusAccesses` records the calls). -/
def plus (M b : Matrix) : Matrix × Matrix × Matrix :=
  let S := mk0 0 0
  let S := S.zeroMatrix M.rows M.cols
  let S := forLoop 0 M.rows (fun i S =>
    forLoop 0 M.cols (fun j S => S.setItem i j (M.item i j + b.item i j)) S) S
  (S, M, b)

/-- What `operator <<` sends to the text stream: one entry for each operand of `<<`. -/
inductive StreamItem where
  /-- The manipulator `qSetFieldWidth(w)`. -/
  | qSetFieldWidth (w : Int)
  /-- The manipulator `qSetRealNumberPrecision(p)`. -/
  | qSetRealNumberPrecision (p : Int)
  /-- The manipulator `endl`. -/
  | endl
  /-- The manipulator `fixed`. -/
  | fixed
  /-- The manipulator `right`. -/
  | right
  /-- A string literal. -/
  | text (s : String)
  /-- The variable `infinity` (declared in `matrix.h`). -/
  | infinity
  /-- The macro `INFINITY` of `<cmath>`. -/
  | INFINITY
  /-- An `int` value. -/
  | int (n : Int)
  /-- A `float` value. -/
  | real (x : ℚ)
  deriving DecidableEq

/-- The field width selection shared by the cells and their row: `w - 3`, `w - 2`,
`w - 1` or `w` as the value exceeds `999`, `99`, `9` or none of them. -/
def streamWidth (os : List StreamItem) (v : ℚ) (w3 w2 w1 w0 : Int) : List StreamItem :=
  if v > 999 then os ++ [StreamItem.qSetFieldWidth w3]
  else if v > 99 then os ++ [StreamItem.qSetFieldWidth w2]
  else if v > 9 then os ++ [StreamItem.qSetFieldWidth w1]
  else os ++ [StreamItem.qSetFieldWidth w0]

/-- The body of the loop over the columns in `operator <<`: what is sent for one cell
`element = m(r, c)`. -/
def streamCell (RAND_MAX : ℚ) (fieldWidth : Int) (element : ℚ) (os : List StreamItem) :
    List StreamItem :=
  let os := os ++ [StreamItem.qSetFieldWidth fieldWidth, StreamItem.fixed, StreamItem.right]
  if element = -1 ∨ element = RAND_MAX then
    os ++ [StreamItem.fixed, StreamItem.right, StreamItem.qSetFieldWidth fieldWidth,
      StreamItem.INFINITY]
  else
    let os := streamWidth os element (fieldWidth - 3) (fieldWidth - 2) (fieldWidth - 1) fieldWidth
    os ++ [StreamItem.real element]

/-- The loop over the rows in `operator <<`: the row number, then the cells. -/
def streamRows (RAND_MAX : ℚ) (fieldWidth : Int) (m : Matrix) (os : List StreamItem) :
    List StreamItem :=
  forLoop 0 m.rows (fun r (os : List StreamItem) =>
    let actorNumber : Int := r + 1
    let os := streamWidth os actorNumber 4 5 6 7
    let os := os ++ [StreamItem.fixed, StreamItem.int actorNumber,
      StreamItem.qSetFieldWidth 3, StreamItem.text ""]
    let os := forLoop 0 m.cols (fun c (os : List StreamItem) =>
      streamCell RAND_MAX fieldWidth (m.item r c) os) os
    os ++ [StreamItem.qSetFieldWidth 0, StreamItem.endl]) os

/-- The text renderer `operator << (os, m)`: the stream after the call.  `RAND_MAX` is
the macro of `<cstdlib>`, taken as a parameter; `m(r, c)` reads the cell `(r, c)`. -/
def streamOut (RAND_MAX : ℚ) (os : List StreamItem) (m : Matrix) : List StreamItem :=
  let s := m.findMinMaxValues RAND_MAX
  let minVal := s.min
  let maxVal := s.max
  let hasRealNumbers := s.hasRealNumbers
  let maxAbsVal := if |minVal| > |maxVal| then |minVal| else |maxVal|
  let os := os ++ [StreamItem.qSetFieldWidth 0, StreamItem.endl]
  let os := os ++ [StreamItem.text "- Values:        ",
    StreamItem.text (if hasRealNumbers then "real numbers (printed decimals 3)"
      else "integers only"), StreamItem.endl]
  let os := os ++ [StreamItem.text "- Max value:  "]
  let os :=
    if maxVal = -1 ∨ maxVal = RAND_MAX then
      os ++ [StreamItem.infinity, StreamItem.text " (=not connected nodes, in distance matrix)"]
    else os ++ [StreamItem.real maxVal]
  let os := os ++ [StreamItem.qSetFieldWidth 0, StreamItem.endl]
  let os := os ++ [StreamItem.text "- Min value:   "]
  let os :=
    if minVal = -1 ∨ minVal = RAND_MAX then os ++ [StreamItem.infinity]
    else os ++ [StreamItem.real minVal]
  let os := os ++ [StreamItem.qSetFieldWidth 0, StreamItem.endl, StreamItem.endl]
  let os := os ++ [StreamItem.qSetFieldWidth 7, StreamItem.fixed, StreamItem.right,
    StreamItem.text "v", StreamItem.qSetFieldWidth 3, StreamItem.text ""]
  let os := os ++ [if hasRealNumbers then StreamItem.qSetRealNumberPrecision 3
    else StreamItem.qSetRealNumberPrecision 0]
  let fieldWidth : Int :=
    if maxAbsVal > 999 then 13
    else if maxAbsVal > 99 then 10
    else if maxAbsVal > 9 then 9
    else 8
  let os := forLoop 0 m.cols (fun r (os : List StreamItem) =>
    let actorNumber : Int := r + 1
    let os := streamWidth os actorNumber (fieldWidth - 3) (fieldWidth - 2) (fieldWidth - 1)
      fieldWidth
    os ++ [StreamItem.fixed, StreamItem.int actorNumber]) os
  let os := os ++ [StreamItem.qSetFieldWidth 0, StreamItem.endl]
  let os := os ++ [StreamItem.qSetFieldWidth 7, StreamItem.endl]
  streamRows RAND_MAX fieldWidth m os

/-- Tells whether an entry of the stream stands for the value of a cell. -/
def isCellValue : StreamItem → Bool
  | StreamItem.INFINITY => true
  | StreamItem.real _ => true
  | _ => false

/-! ## Runs of the power, pivoting phases, the full forward substitution, cell accesses -/

/-- A run of `Matrix::expBySquaring2` or of `Matrix::pow`: the matrix returned, the
receiver after the call, and the number of calls of `product` made. -/
structure PowRun where
  /-- The matrix returned. -/
  result : Matrix
  /-- The receiver `*this` after the call. -/
  receiver : Matrix
  /-- The number of calls of `product`. -/
  products : Nat

/-- Recursion `Matrix::expBySquaring2(Y, X, n, symmetry)` on the receiver `M`, as a run:
every branch builds its products in fresh matrices, counted here, and hands the receiver
on to the recursive call.  The recursion is bounded by the fuel; `none` is a recursion
that has not returned. -/
def expBySquaring2Run (symmetryDefault : Bool) :
    Nat → Matrix → Matrix → Matrix → Int → Bool → Option PowRun
  | 0, _, _, _, _, _ => none
  | fuel + 1, M, Y, X, n, symmetry =>
    if n = 1 then
      let PM := (mk0 0 0).zeroMatrix M.rows M.cols
      let PM := PM.product X Y symmetry
      some { result := PM, receiver := M, products := 1 }
    else if Int.tmod n 2 = 0 then
      let PM := (mk0 0 0).zeroMatrix M.rows M.cols
      let PM := PM.product X X symmetry
      match expBySquaring2Run symmetryDefault fuel M Y PM (Int.tdiv n 2) symmetryDefault with
      | none => none
      | some r => some { r with products := r.products + 1 }
    else
      let PM := (mk0 0 0).zeroMatrix M.rows M.cols
      let PM2 := (mk0 0 0).zeroMatrix M.rows M.cols
      let PM := PM.product X Y symmetry
      let PM2 := PM2.product X X symmetry
      match expBySquaring2Run symmetryDefault fuel M PM PM2 (Int.tdiv (n - 1) 2)
          symmetryDefault with
      | none => none
      | some r => some { r with products := r.products + 2 }

/-- Power `Matrix::pow(n, symmetry)`, as a run. -/
def powRun (symmetryDefault : Bool) (fuel : Nat) (M : Matrix) (n : Int) (symmetry : Bool) :
    Option PowRun :=
  if M.rows ≠ M.cols then some { result := M, receiver := M, products := 0 }
  else
    let X := (mk0 0 0).assign M
    let Y := (mk0 0 0).identityMatrix M.rows
    expBySquaring2Run symmetryDefault fuel M Y X n symmetry

/-- The exponent that `expBySquaring2` passes to its recursive call: `n / 2` when
`n % 2 == 0` and `(n - 1) / 2` otherwise, with the truncating division and remainder of
C++. -/
def nextExponent (n : Int) : Int :=
  if Int.tmod n 2 = 0 then Int.tdiv n 2 else Int.tdiv (n - 1) 2

/-- The count of products that the recursion is said to make: `1` for `n = 1`,
`1 + count (n / 2)` for even `n`, `2 + count ((n - 1) / 2)` for odd `n`. -/
def productCount (n : Nat) : Nat :=
  if n ≤ 1 then 1
  else if n % 2 = 0 then 1 + productCount (n / 2)
  else 2 + productCount ((n - 1) / 2)
termination_by n
decreasing_by
  all_goals omega

/-- The state of `A` and of the receiver in `inverseByGaussJordanElimination` at column
`j` after the pivot search and the interchange, before the scaling. -/
def gjPlacePivot (n j : Nat) (s : Matrix × Matrix) : Matrix × Matrix :=
  let p := gjPivotSearch s.2 n j
  let m_pivotLine := p.1
  let A := if m_pivotLine ≠ -1 then s.2.swapRows m_pivotLine.toNat j else s.2
  let R := if m_pivotLine ≠ -1 then s.1.swapRows m_pivotLine.toNat j else s.1
  (R, A)

/-- The value of `big` that the scaling pass of `Matrix::ludcmp` finds for row `i`. -/
def ludcmpRowMax (a : Matrix) (n i : Nat) : ℚ :=
  forLoop 0 n (fun j (big : ℚ) =>
    let temp := |a.item i j|
    if temp > big then temp else big) 0

/-- The state of `Matrix::ludcmp` when the pass on column `j` begins: the scaling pass is
done and the columns before `j` are reduced (the state at the `return false` when the
scaling pass fails). -/
def ludcmpAtColumn (a : Matrix) (n : Nat) (indx : Nat → Nat) (j : Nat) : LUState :=
  match ludcmpScaling a n (fun _ => 0) with
  | none => { a := a, indx := indx, d := 1, vv := fun _ => 0 }
  | some vv => forLoop 0 j (ludcmpColumn n) { a := a, indx := indx, d := 1, vv := vv }

/-- The forward substitution of `lubksb` with the sum always taken over all `j` in
`[0, i)`: the routine without the index `ii`. -/
def lubksbForwardFull (a : Matrix) (n : Nat) (indx : Nat → Nat) (b : Nat → ℚ) : Nat → ℚ :=
  forLoop 0 n (fun i (b : Nat → ℚ) =>
    let ip := indx i
    let sum := b ip
    let b := Function.update b ip (b i)
    let sum := forLoop 0 i (fun j sum => sum - a.item i j * b j) sum
    Function.update b i sum) b

/-- The routine `lubksb` with the forward sums always taken over all `j` in `[0, i)`. -/
def lubksbFull (a : Matrix) (n : Nat) (indx : Nat → Nat) (b : Nat → ℚ) : Nat → ℚ :=
  lubksbBackward a n (lubksbForwardFull a n indx b)

/-- Resets `Matrix::zeroMatrix(m, n)`, recording each `setItem(i, i, 0)`: the matrix left,
and for every call the row addressed, the column addressed and the size of that row. -/
def zeroMatrixAccesses (M : Matrix) (m n : Nat) : Matrix × List (Nat × Nat × Nat) :=
  let M := M.clear
  let M : Matrix := { M with m_rows := m }
  let M : Matrix := { M with m_cols := n }
  let M := M.newRows
  forLoop 0 M.m_rows (fun i (s : Matrix × List (Nat × Nat × Nat)) =>
    let M := s.1.resizeRow i s.1.m_cols
    (M.setItem i i 0, s.2 ++ [(i, i, (M.row i).m_cols)])) (M, [])

/-- Adds with `Matrix::operator +` (`M + b`), recording the calls `setItem(i, i, 0)` made
by its `zeroMatrix(rows(), cols())`: the result of `operator +`, and for every such call
the row addressed, the column addressed and the size of that row.  (The later calls
`setItem(i, j, ...)` have `i < rows()` and `j < cols()`.) -/
def plusAccesses (M b : Matrix) : (Matrix × Matrix × Matrix) × List (Nat × Nat × Nat) :=
  let S := mk0 0 0
  let z := S.zeroMatrixAccesses M.rows M.cols
  let S := z.1
  let S := forLoop 0 M.rows (fun i S =>
    forLoop 0 M.cols (fun j S => S.setItem i j (M.item i j + b.item i j)) S) S
  ((S, M, b), z.2)

end Matrix

/-! ## Loop rules -/

theorem loopFrom_succ {σ : Type} (body : Nat → σ → σ) (k i : Nat) (s : σ) :
    loopFrom body (k + 1) i s = body (i + k) (loopFrom body k i s) := by
  induction k generalizing i s with
  | zero => simp [loopFrom]
  | succ k ih =>
    rw [loopFrom, ih (i + 1) (body i s)]
    have h : i + 1 + k = i + (k + 1) := by omega
    rw [h]
    rfl

theorem forLoop_empty {σ : Type} (lo hi : Nat) (body : Nat → σ → σ) (s : σ) (h : hi ≤ lo) :
    forLoop lo hi body s = s := by
  have h0 : hi - lo = 0 := by omega
  simp [forLoop, h0, loopFrom]

theorem forLoop_succ {σ : Type} (lo hi : Nat) (body : Nat → σ → σ) (s : σ) (h : lo ≤ hi) :
    forLoop lo (hi + 1) body s = body hi (forLoop lo hi body s) := by
  have h0 : hi + 1 - lo = (hi - lo) + 1 := by omega
  have h1 : lo + (hi - lo) = hi := by omega
  simp only [forLoop, h0, loopFrom_succ, h1]

/-- Invariant rule for the ascending loop. -/
theorem forLoop_inv {σ : Type} (I : Nat → σ → Prop) (lo hi : Nat) (body : Nat → σ → σ)
    (s : σ) (hle : lo ≤ hi) (h0 : I lo s)
    (hstep : ∀ i t, lo ≤ i → i < hi → I i t → I (i + 1) (body i t)) :
    I hi (forLoop lo hi body s) := by
  induction hi with
  | zero =>
    have : lo = 0 := by omega
    subst this
    simpa [forLoop, loopFrom] using h0
  | succ hi ih =>
    rcases Nat.lt_or_ge hi lo with hlt | hge
    · have : lo = hi + 1 := by omega
      subst this
      rw [forLoop_empty _ _ _ _ (le_refl _)]
      exact h0
    · rw [forLoop_succ _ _ _ _ hge]
      exact hstep hi _ hge (Nat.lt_succ_self hi)
        (ih hge (fun i t h1 h2 h3 => hstep i t h1 (Nat.lt_succ_of_lt h2) h3))

/-- Invariant rule for the descending loop: `I k` holds when the rows `k, k+1, ...` are done. -/
theorem forLoopDown_inv {σ : Type} (I : Nat → σ → Prop) (body : Nat → σ → σ) (hi : Nat)
    (s : σ) (h0 : I hi s) (hstep : ∀ i t, i < hi → I (i + 1) t → I i (body i t)) :
    I 0 (forLoopDown 0 body hi s) := by
  induction hi generalizing s with
  | zero => simpa [forLoopDown] using h0
  | succ hi ih =>
    simp only [forLoopDown, Nat.zero_le, if_true]
    exact ih _ (hstep hi s (Nat.lt_succ_self hi) h0)
      (fun i t h1 h2 => hstep i t (Nat.lt_succ_of_lt h1) h2)

namespace Matrix

/-! ## Cells and dimensions under a write -/

@[simp] theorem item_setItem (M : Matrix) (r c : Nat) (v : ℚ) (r0 c0 : Nat) :
    (M.setItem r c v).item r0 c0 = if r0 = r ∧ c0 = c then v else M.item r0 c0 := by
  unfold setItem item Row.column Row.setColumn
  by_cases hr : r0 = r
  · by_cases hc : c0 = c
    · simp [hr, hc]
    · simp [hr, hc]
  · simp [hr]

@[simp] theorem m_rows_setItem (M : Matrix) (r c : Nat) (v : ℚ) :
    (M.setItem r c v).m_rows = M.m_rows := rfl

@[simp] theorem m_cols_setItem (M : Matrix) (r c : Nat) (v : ℚ) :
    (M.setItem r c v).m_cols = M.m_cols := rfl

@[simp] theorem rows_setItem (M : Matrix) (r c : Nat) (v : ℚ) :
    (M.setItem r c v).rows = M.rows := rfl

@[simp] theorem cols_setItem (M : Matrix) (r c : Nat) (v : ℚ) :
    (M.setItem r c v).cols = M.cols := rfl

@[simp] theorem toQ_apply (n : Nat) (M : Matrix) (i j : Fin n) :
    toQ n M i j = M.item i j := rfl

/-! ## The plain product -/

/-- Effect of the innermost loop of `product`: cell `(i, j)` accumulates the dot product. -/
theorem product_inner (P a b : Matrix) (i j n : Nat) :
    (forLoop 0 n (fun k P => P.setItem i j (P.item i j + a.item i k * b.item k j)) P).m_rows
        = P.m_rows ∧
    (forLoop 0 n (fun k P => P.setItem i j (P.item i j + a.item i k * b.item k j)) P).m_cols
        = P.m_cols ∧
    ∀ r c, (forLoop 0 n
        (fun k P => P.setItem i j (P.item i j + a.item i k * b.item k j)) P).item r c
      = if r = i ∧ c = j then
          P.item i j + ∑ k in Finset.range n, a.item i k * b.item k j
        else P.item r c := by
  refine forLoop_inv (fun m Q => Q.m_rows = P.m_rows ∧ Q.m_cols = P.m_cols ∧
      ∀ r c, Q.item r c = if r = i ∧ c = j then
          P.item i j + ∑ k in Finset.range m, a.item i k * b.item k j
        else P.item r c) 0 n _ P (Nat.zero_le _) ?_ ?_
  · refine ⟨rfl, rfl, fun r c => ?_⟩
    by_cases h : r = i ∧ c = j
    · obtain ⟨rfl, rfl⟩ := h
      simp
    · simp [h]
  · rintro m Q - - ⟨h1, h2, h3⟩
    refine ⟨by simpa using h1, by simpa using h2, ?_⟩
    intro r c
    rw [item_setItem]
    by_cases h : r = i ∧ c = j
    · rw [if_pos h, if_pos h, h3 i j, if_pos ⟨rfl, rfl⟩, Finset.sum_range_succ]
      ring
    · rw [if_neg h, if_neg h, h3 r c, if_neg h]

/-- Effect of `product` without the symmetry shortcut: every in-range cell is the dot
product of a row of `a` with a column of `b`; other cells and the dimensions are kept. -/
theorem product_false_spec (P a b : Matrix) :
    (P.product a b false).m_rows = P.m_rows ∧ (P.product a b false).m_cols = P.m_cols ∧
    ∀ r c, (P.product a b false).item r c
      = if r < P.m_rows ∧ c < P.m_cols then
          ∑ k in Finset.range P.m_rows, a.item r k * b.item k c
        else P.item r c := by
  unfold product
  refine forLoop_inv (fun i Q => Q.m_rows = P.m_rows ∧ Q.m_cols = P.m_cols ∧
      ∀ r c, Q.item r c = if r < i ∧ c < P.m_cols then
          ∑ k in Finset.range P.m_rows, a.item r k * b.item k c
        else P.item r c) 0 P.rows _ P (Nat.zero_le _) ?_ ?_
  · simp
  · rintro i Q - - ⟨h1, h2, h3⟩
    have hc : Q.cols = P.m_cols := h2
    rw [hc]
    generalize hL : forLoop 0 P.m_cols _ Q = L
    have key : L.m_rows = P.m_rows ∧ L.m_cols = P.m_cols ∧
      ∀ r c, L.item r c = if (r < i ∧ c < P.m_cols) ∨ (r = i ∧ c < P.m_cols) then
          ∑ k in Finset.range P.m_rows, a.item r k * b.item k c
        else P.item r c := by
      rw [← hL]
      refine forLoop_inv (fun j Q0 => Q0.m_rows = P.m_rows ∧ Q0.m_cols = P.m_cols ∧
        ∀ r c, Q0.item r c = if (r < i ∧ c < P.m_cols) ∨ (r = i ∧ c < j) then
            ∑ k in Finset.range P.m_rows, a.item r k * b.item k c
          else P.item r c) 0 P.m_cols _ Q (Nat.zero_le _) ?_ ?_
      · refine ⟨h1, h2, fun r c => ?_⟩
        rw [h3 r c]
        simp
      · rintro j Q0 - hj ⟨g1, g2, g3⟩
        simp only [Bool.false_and, Bool.false_eq_true, if_false]
        obtain ⟨e1, e2, e3⟩ := product_inner (Q0.setItem i j 0) a b i j (Q0.setItem i j 0).m_rows
        refine ⟨by rw [e1]; simpa using g1, by rw [e2]; simpa using g2, fun r c => ?_⟩
        rw [e3 r c]
        have hrows : (Q0.setItem i j 0).m_rows = P.m_rows := by simpa using g1
        rw [hrows]
        by_cases h : r = i ∧ c = j
        · obtain ⟨rfl, rfl⟩ := h
          simp [hj]
        · rw [if_neg h, item_setItem, if_neg h, g3 r c]
          have : ((r < i ∧ c < P.m_cols) ∨ (r = i ∧ c < j + 1))
              ↔ ((r < i ∧ c < P.m_cols) ∨ (r = i ∧ c < j)) := by
            constructor
            · rintro (h0 | ⟨h0, h0c⟩)
              · exact Or.inl h0
              · refine Or.inr ⟨h0, ?_⟩
                rcases Nat.lt_or_ge c j with hlt | hge
                · exact hlt
                · exact absurd ⟨h0, by omega⟩ h
            · rintro (h0 | ⟨h0, h0c⟩)
              · exact Or.inl h0
              · exact Or.inr ⟨h0, by omega⟩
          simp only [this]
    obtain ⟨g1, g2, g3⟩ := key
    refine ⟨g1, g2, fun r c => ?_⟩
    rw [g3 r c]
    have : ((r < i ∧ c < P.m_cols) ∨ (r = i ∧ c < P.m_cols)) ↔ (r < i + 1 ∧ c < P.m_cols) := by
      constructor
      · rintro (⟨h0, h0c⟩ | ⟨h0, h0c⟩)
        · exact ⟨by omega, h0c⟩
        · exact ⟨by omega, h0c⟩
      · rintro ⟨h0, h0c⟩
        rcases Nat.lt_or_ge r i with hlt | hge
        · exact Or.inl ⟨hlt, h0c⟩
        · exact Or.inr ⟨by omega, h0c⟩
    simp only [this]

/-! ## Fresh storage: `identityMatrix`, `zeroMatrix`, `operator=` -/

@[simp] theorem item_resizeRow (M : Matrix) (i cols r c : Nat) :
    (M.resizeRow i cols).item r c = if r = i then 0 else M.item r c := by
  unfold resizeRow item Row.column Row.resize
  by_cases h : r = i <;> simp [h]

@[simp] theorem m_rows_resizeRow (M : Matrix) (i cols : Nat) :
    (M.resizeRow i cols).m_rows = M.m_rows := rfl

@[simp] theorem m_cols_resizeRow (M : Matrix) (i cols : Nat) :
    (M.resizeRow i cols).m_cols = M.m_cols := rfl

/-- After `identityMatrix(dim)` the matrix is `dim × dim`, with ones on the diagonal of
its rows and zeros in every other cell. -/
theorem identityMatrix_spec (M : Matrix) (dim : Nat) :
    (M.identityMatrix dim).m_rows = dim ∧ (M.identityMatrix dim).m_cols = dim ∧
    ∀ r c, (M.identityMatrix dim).item r c = if r = c ∧ r < dim then 1 else 0 := by
  unfold identityMatrix
  simp only []
  refine forLoop_inv (fun i (Q : Matrix) => Q.m_rows = dim ∧ Q.m_cols = dim ∧
      ∀ r c, Q.item r c = if r = c ∧ r < i then 1 else 0) 0 dim _ _ (Nat.zero_le _) ?_ ?_
  · refine ⟨rfl, rfl, fun r c => ?_⟩
    simp [newRows, item, Row.column, Row.empty]
  · rintro i Q - - ⟨h1, h2, h3⟩
    refine ⟨by simpa using h1, by simpa using h2, fun r c => ?_⟩
    rw [item_setItem, item_resizeRow, h3 r c]
    by_cases hr : r = i
    · subst hr
      by_cases hc : c = r
      · subst hc
        simp
      · have hc2 : ¬ r = c := fun h => hc h.symm
        simp [hc, hc2]
    · have : (r < i + 1) ↔ (r < i) := by omega
      simp [hr, this]

/-- After `zeroMatrix(m, n)` the matrix is `m × n` and every cell is zero. -/
theorem zeroMatrix_spec (M : Matrix) (m n : Nat) :
    (M.zeroMatrix m n).m_rows = m ∧ (M.zeroMatrix m n).m_cols = n ∧
    ∀ r c, (M.zeroMatrix m n).item r c = 0 := by
  unfold zeroMatrix
  simp only []
  refine forLoop_inv (fun _ (Q : Matrix) => Q.m_rows = m ∧ Q.m_cols = n ∧
      ∀ r c, Q.item r c = 0) 0 m _ _ (Nat.zero_le _) ?_ ?_
  · refine ⟨rfl, rfl, fun r c => ?_⟩
    simp [newRows, item, Row.column, Row.empty]
  · rintro i Q - - ⟨h1, h2, h3⟩
    refine ⟨by simpa using h1, by simpa using h2, fun r c => ?_⟩
    rw [item_setItem, item_resizeRow, h3 r c]
    simp

/-- The product without the symmetry shortcut, read as a product of mathematical matrices. -/
theorem toQ_product_false (n : Nat) (P a b : Matrix) (hr : P.m_rows = n) (hc : P.m_cols = n) :
    toQ n (P.product a b false) = toQ n a * toQ n b := by
  ext i j
  rw [toQ_apply, (product_false_spec P a b).2.2, hr, hc, if_pos ⟨i.2, j.2⟩, Matrix.mul_apply,
    Finset.sum_range]
  rfl

/-- The identity built by `identityMatrix`, read as the mathematical identity. -/
theorem toQ_identityMatrix (n : Nat) (M : Matrix) : toQ n (M.identityMatrix n) = 1 := by
  ext i j
  rw [toQ_apply, (identityMatrix_spec M n).2.2, Matrix.one_apply]
  by_cases h : i = j
  · subst h
    simp
  · have : ¬ (i : Nat) = (j : Nat) := fun h0 => h (Fin.ext h0)
    simp [h, this]

/-! ## Claims on the product -/

/-- C7: for an `n × n` receiver `P` (whatever it holds) and operands `A`, `B`, after
`P.product(A, B, false)` the receiver is still `n × n` and every cell `(i, j)` with
`i, j < n` equals the sum over `k` in `[0, n)` of `A(i,k) * B(k,j)`. -/
theorem product_plain_cells (n : Nat) (P A B : Matrix) (hr : P.m_rows = n) (hc : P.m_cols = n) :
    (P.product A B false).m_rows = n ∧ (P.product A B false).m_cols = n ∧
    ∀ i j, i < n → j < n →
      (P.product A B false).item i j = ∑ k in Finset.range n, A.item i k * B.item k j := by
  obtain ⟨h1, h2, h3⟩ := product_false_spec P A B
  refine ⟨h1.trans hr, h2.trans hc, fun i j hi hj => ?_⟩
  rw [h3 i j, hr, hc, if_pos ⟨hi, hj⟩]

/-- Witness of C7 on a `2 × 2` receiver filled with sevens. -/
theorem product_plain_cells_witness :
    ((ofRows [[7, 7], [7, 7]]).product (ofRows [[1, 2], [3, 4]]) (ofRows [[5, 6], [7, 8]])
      false).item 1 0
      = ∑ k in Finset.range 2,
          (ofRows [[1, 2], [3, 4]]).item 1 k * (ofRows [[5, 6], [7, 8]]).item k 0 :=
  (product_plain_cells 2 (ofRows [[7, 7], [7, 7]]) (ofRows [[1, 2], [3, 4]])
    (ofRows [[5, 6], [7, 8]]) rfl rfl).2.2 1 0 (by decide) (by decide)

/-- C8: with `I` built by `identityMatrix(n)` and an `n × n` receiver `P`, both
`P.product(M, I, false)` and `P.product(I, M, false)` leave in `P` the cells of `M`. -/
theorem product_identity_law (n : Nat) (M P I0 : Matrix) (hr : P.m_rows = n)
    (hc : P.m_cols = n) :
    (∀ i j, i < n → j < n → (P.product M (I0.identityMatrix n) false).item i j = M.item i j) ∧
    (∀ i j, i < n → j < n → (P.product (I0.identityMatrix n) M false).item i j = M.item i j) := by
  constructor
  · intro i j hi hj
    rw [(product_false_spec P M _).2.2 i j, hr, hc, if_pos ⟨hi, hj⟩]
    rw [Finset.sum_eq_single j]
    · rw [(identityMatrix_spec I0 n).2.2 j j]
      simp [hj]
    · intro k _ hkj
      rw [(identityMatrix_spec I0 n).2.2 k j]
      simp [hkj]
    · intro h
      exact absurd (Finset.mem_range.mpr hj) h
  · intro i j hi hj
    rw [(product_false_spec P _ M).2.2 i j, hr, hc, if_pos ⟨hi, hj⟩]
    rw [Finset.sum_eq_single i]
    · rw [(identityMatrix_spec I0 n).2.2 i i]
      simp [hi]
    · intro k _ hki
      rw [(identityMatrix_spec I0 n).2.2 i k]
      have : ¬ i = k := fun h => hki h.symm
      simp [this]
    · intro h
      exact absurd (Finset.mem_range.mpr hi) h

/-- Witness of C8 on a `2 × 2` matrix, at cell `(1, 0)`. -/
theorem product_identity_law_witness :
    ((mk0 2 2).product (ofRows [[1, 2], [3, 4]]) ((mk0 0 0).identityMatrix 2) false).item 1 0
      = (ofRows [[1, 2], [3, 4]]).item 1 0 ∧
    ((mk0 2 2).product ((mk0 0 0).identityMatrix 2) (ofRows [[1, 2], [3, 4]]) false).item 1 0
      = (ofRows [[1, 2], [3, 4]]).item 1 0 :=
  ⟨(product_identity_law 2 (ofRows [[1, 2], [3, 4]]) (mk0 2 2) (mk0 0 0) rfl rfl).1 1 0
      (by decide) (by decide),
   (product_identity_law 2 (ofRows [[1, 2], [3, 4]]) (mk0 2 2) (mk0 0 0) rfl rfl).2 1 0
      (by decide) (by decide)⟩

/-! ## Row and column deletion -/

/-- Changing the logical size of a row changes no cell. -/
theorem item_setSizeRow (M : Matrix) (i cols r c : Nat) :
    ({ M with row := fun r0 => if r0 = i then (M.row i).setSize cols else M.row r0 }
      : Matrix).item r c = M.item r c := by
  unfold item Row.column Row.setSize
  by_cases h : r = i
  · subst h
    simp
  · simp [h]

/-- Effect of `deleteRowColumn(k)` on a matrix of `n ≥ 1` rows, for `0 ≤ k`: the
dimensions drop to `n - 1` and cell `(i, j)` of the result is the original cell with
each index at or after `k` moved one further. -/
theorem deleteRowColumn_spec (M : Matrix) (n k : Nat) (filler : ℚ) (hn : 1 ≤ n)
    (hr : M.m_rows = n) :
    (M.deleteRowColumn (k : Int) filler).m_rows = n - 1 ∧
    (M.deleteRowColumn (k : Int) filler).m_cols = n - 1 ∧
    ∀ i j, i < n - 1 → j < n - 1 →
      (M.deleteRowColumn (k : Int) filler).item i j
        = M.item (shiftIndex k i) (shiftIndex k j) := by
  unfold deleteRowColumn
  simp only []
  have e1 : ((M.m_rows : Int) - 1).toNat = n - 1 := by omega
  have e2 : ((M.m_rows : Int) - 1 + 1).toNat = n := by omega
  have e3 : ((M.m_rows : Int) - 1) = ((n - 1 : Nat) : Int) := by omega
  rw [e1, e2, e3]
  generalize hL : forLoop 0 n _ _ = L
  have key : L.m_rows = n - 1 ∧ L.m_cols = n - 1 ∧
      (∀ r c, n ≤ r → L.item r c = M.item r c) ∧
      (∀ r c, r < n → r < n - 1 → c < n - 1 →
        L.item r c = M.item (shiftIndex k r) (shiftIndex k c)) := by
    rw [← hL]
    refine forLoop_inv (fun i (Q : Matrix) => Q.m_rows = n - 1 ∧ Q.m_cols = n - 1 ∧
      (∀ r c, i ≤ r → Q.item r c = M.item r c) ∧
      (∀ r c, r < i → r < n - 1 → c < n - 1 →
        Q.item r c = M.item (shiftIndex k r) (shiftIndex k c)))
      0 n _ _ (Nat.zero_le _) ?_ ?_
    · exact ⟨rfl, rfl, fun r c _ => rfl, fun r c h => absurd h (Nat.not_lt_zero _)⟩
    · rintro i Q - hi ⟨h1, h2, h3, h4⟩
      generalize hL0 : forLoop 0 n _ Q = L0
      have key0 : L0.m_rows = n - 1 ∧ L0.m_cols = n - 1 ∧
          (∀ r c, r ≠ i → L0.item r c = Q.item r c) ∧
          (∀ c, n ≤ c → L0.item i c = Q.item i c) ∧
          (∀ c, c < n → i < n - 1 → c < n - 1 →
            L0.item i c = M.item (shiftIndex k i) (shiftIndex k c)) := by
        rw [← hL0]
        refine forLoop_inv (fun j (Q0 : Matrix) => Q0.m_rows = n - 1 ∧ Q0.m_cols = n - 1 ∧
          (∀ r c, r ≠ i → Q0.item r c = Q.item r c) ∧
          (∀ c, j ≤ c → Q0.item i c = Q.item i c) ∧
          (∀ c, c < j → i < n - 1 → c < n - 1 →
            Q0.item i c = M.item (shiftIndex k i) (shiftIndex k c)))
          0 n _ _ (Nat.zero_le _) ?_ ?_
        · exact ⟨h1, h2, fun r c _ => rfl, fun c _ => rfl,
            fun c h => absurd h (Nat.not_lt_zero _)⟩
        · rintro j Q0 - hj ⟨g1, g2, g3, g4, g5⟩
          have hrow : ∀ c, Q0.item (i + 1) c = M.item (i + 1) c := fun c => by
            rw [g3 (i + 1) c (by omega), h3 (i + 1) c (by omega)]
          have hcur : ∀ c, j ≤ c → Q0.item i c = M.item i c := fun c hc => by
            rw [g4 c hc, h3 i c (le_refl _)]
          split_ifs with c1 c2 c3 c4 c5
          · refine ⟨g1, g2, fun r c hrc => ?_, fun c hc => ?_, fun c hc hi0 hc0 => ?_⟩
            · rw [item_setItem, if_neg (fun h => hrc h.1), g3 r c hrc]
            · rw [item_setItem, if_neg (fun h => by omega), g4 c (by omega)]
            · rw [item_setItem, if_neg (fun h => by omega), g5 c (by omega) hi0 hc0]
          · refine ⟨g1, g2, g3, fun c hc => g4 c (by omega), fun c hc hi0 hc0 => ?_⟩
            rcases Nat.lt_or_ge c j with hlt | hge
            · exact g5 c hlt hi0 hc0
            · have hcj : c = j := by omega
              subst hcj
              rw [hcur c (le_refl _), shiftIndex, shiftIndex, if_neg (by omega), if_neg (by omega)]
          · refine ⟨g1, g2, fun r c hrc => ?_, fun c hc => ?_, fun c hc hi0 hc0 => ?_⟩
            · rw [item_setItem, if_neg (fun h => hrc h.1), g3 r c hrc]
            · rw [item_setItem, if_neg (fun h => by omega), g4 c (by omega)]
            · rw [item_setItem]
              rcases Nat.lt_or_ge c j with hlt | hge
              · rw [if_neg (fun h => by omega), g5 c hlt hi0 hc0]
              · have hcj : c = j := by omega
                subst hcj
                rw [if_pos ⟨rfl, rfl⟩, hcur (c + 1) (by omega), shiftIndex, shiftIndex,
                  if_neg (by omega), if_pos (by omega)]
          · refine ⟨g1, g2, fun r c hrc => ?_, fun c hc => ?_, fun c hc hi0 hc0 => ?_⟩
            · rw [item_setItem, if_neg (fun h => hrc h.1), g3 r c hrc]
            · rw [item_setItem, if_neg (fun h => by omega), g4 c (by omega)]
            · rw [item_setItem]
              rcases Nat.lt_or_ge c j with hlt | hge
              · rw [if_neg (fun h => by omega), g5 c hlt hi0 hc0]
              · have hcj : c = j := by omega
                subst hcj
                rw [if_pos ⟨rfl, rfl⟩, hrow c, shiftIndex, shiftIndex, if_pos (by omega),
                  if_neg (by omega)]
          · refine ⟨g1, g2, fun r c hrc => ?_, fun c hc => ?_, fun c hc hi0 hc0 => ?_⟩
            · rw [item_setItem, if_neg (fun h => hrc h.1), g3 r c hrc]
            · rw [item_setItem, if_neg (fun h => by omega), g4 c (by omega)]
            · rw [item_setItem]
              rcases Nat.lt_or_ge c j with hlt | hge
              · rw [if_neg (fun h => by omega), g5 c hlt hi0 hc0]
              · have hcj : c = j := by omega
                subst hcj
                rw [if_pos ⟨rfl, rfl⟩, hrow (c + 1), shiftIndex, shiftIndex, if_pos (by omega),
                  if_pos (by omega)]
          · exfalso
            omega
      obtain ⟨g1, g2, g3, g4, g5⟩ := key0
      refine ⟨g1, g2, fun r c hrc => ?_, fun r c hri hr0 hc0 => ?_⟩
      · rw [item_setSizeRow, g3 r c (by omega), h3 r c (by omega)]
      · rw [item_setSizeRow]
        rcases Nat.lt_or_ge r i with hlt | hge
        · rw [g3 r c (by omega), h4 r c hlt hr0 hc0]
        · have hri0 : r = i := by omega
          subst hri0
          exact g5 c (by omega) hr0 hc0
  obtain ⟨g1, g2, -, g4⟩ := key
  exact ⟨g1, g2, fun i j hi hj => g4 i j (by omega) hi hj⟩

/-! ## Claims on row and column deletion -/

/-- C9: for `n ≥ 1`, a matrix of `n` rows and every index `k ≥ 0` (those of `[0, n)`
included), whatever the filler value `RAND_MAX` is, after `deleteRowColumn(k)` the matrix
is `(n-1) × (n-1)` and each cell `(i, j)` with `i, j < n - 1` is the original cell
`(i + [i ≥ k], j + [j ≥ k])`; so no in-range cell holds the filler written during the
shrink. -/
theorem deleteRowColumn_cells (M : Matrix) (n k : Nat) (RAND_MAX : ℚ) (hn : 1 ≤ n)
    (hr : M.m_rows = n) :
    (M.deleteRowColumn (k : Int) RAND_MAX).m_rows = n - 1 ∧
    (M.deleteRowColumn (k : Int) RAND_MAX).m_cols = n - 1 ∧
    ∀ i j, i < n - 1 → j < n - 1 →
      (M.deleteRowColumn (k : Int) RAND_MAX).item i j
        = M.item (if k ≤ i then i + 1 else i) (if k ≤ j then j + 1 else j) :=
  deleteRowColumn_spec M n k RAND_MAX hn hr

/-- Witness of C9: a `4 × 4` matrix with distinct cells, index `1` deleted; the new cell
`(1, 1)` is the original cell `(2, 2)`. -/
theorem deleteRowColumn_cells_witness :
    ((ofRows [[1, 2, 3, 4], [5, 6, 7, 8], [9, 10, 11, 12], [13, 14, 15, 16]]).deleteRowColumn
        ((1 : Nat) : Int) 2147483647).item 1 1
      = (ofRows [[1, 2, 3, 4], [5, 6, 7, 8], [9, 10, 11, 12], [13, 14, 15, 16]]).item 2 2 :=
  (deleteRowColumn_cells (ofRows [[1, 2, 3, 4], [5, 6, 7, 8], [9, 10, 11, 12], [13, 14, 15, 16]])
    4 1 2147483647 (by decide) rfl).2.2 1 1 (by decide) (by decide)

/-! ## Exponentiation by squaring -/

/-- Rows copied by `operator=` into a default-constructed matrix. -/
theorem assign_mk0_spec (a : Matrix) :
    ((mk0 0 0).assign a).m_rows = a.m_rows ∧
    (a.m_rows ≠ 0 → ((mk0 0 0).assign a).m_cols = a.m_cols) ∧
    ∀ r c, r < a.m_rows → ((mk0 0 0).assign a).item r c = a.item r c := by
  unfold assign
  by_cases h0 : a.m_rows = 0
  · have hne : ¬ (a.m_rows ≠ (mk0 0 0).m_rows) := by
      simp [mk0, h0]
    rw [if_neg hne]
    simp only []
    have hm : (mk0 0 0).m_rows = 0 := rfl
    rw [hm, forLoop_empty _ _ _ _ (le_refl _)]
    exact ⟨h0.symm ▸ rfl, fun h => absurd h0 h, fun r c hr => absurd hr (by omega)⟩
  · have hne : a.m_rows ≠ (mk0 0 0).m_rows := by
      simpa [mk0] using h0
    rw [if_pos hne]
    generalize hL : forLoop 0 _ (fun i (M : Matrix) => M.resizeRow i M.m_cols) _ = L
    have key : L.m_rows = a.m_rows ∧ L.m_cols = a.m_cols := by
      rw [← hL]
      refine forLoop_inv (fun _ (Q : Matrix) => Q.m_rows = a.m_rows ∧ Q.m_cols = a.m_cols)
        0 _ _ _ (Nat.zero_le _) ⟨rfl, rfl⟩ ?_
      rintro i Q - - ⟨h1, h2⟩
      exact ⟨h1, h2⟩
    obtain ⟨k1, k2⟩ := key
    simp only []
    rw [k1]
    refine (forLoop_inv (fun i (Q : Matrix) => Q.m_rows = a.m_rows ∧ Q.m_cols = a.m_cols ∧
        ∀ r c, r < i → Q.item r c = a.item r c) 0 a.m_rows _ L (Nat.zero_le _) ?_ ?_).imp_right
      (fun h => ⟨fun _ => h.1, h.2⟩)
    · exact ⟨k1, k2, fun r c h => absurd h (Nat.not_lt_zero _)⟩
    · rintro i Q - - ⟨h1, h2, h3⟩
      refine ⟨h1, h2, fun r c hr => ?_⟩
      by_cases hri : r = i
      · subst hri
        simp [item, Row.assign]
      · have := h3 r c (by omega)
        simpa [item, hri] using this

/-- The recursion of `expBySquaring2` with every product taken without the symmetry
shortcut: with enough fuel it returns, and the result is `X ^ n * Y`. -/
theorem expBySquaring2_false_spec (d : Nat) (M : Matrix) (hr : M.m_rows = d)
    (hc : M.m_cols = d) (fuel : Nat) :
    ∀ (Y X : Matrix) (n : Int), 1 ≤ n → n.toNat ≤ fuel →
      ∃ R, expBySquaring2 false M fuel Y X n false = some R ∧ R.m_rows = d ∧ R.m_cols = d ∧
        toQ d R = toQ d X ^ n.toNat * toQ d Y := by
  have hz : ∀ Z : Matrix, (Z.zeroMatrix M.rows M.cols).m_rows = d ∧
      (Z.zeroMatrix M.rows M.cols).m_cols = d := fun Z =>
    ⟨(zeroMatrix_spec Z _ _).1.trans hr, (zeroMatrix_spec Z _ _).2.1.trans hc⟩
  induction fuel with
  | zero =>
    intro Y X n hn hf
    omega
  | succ fuel ih =>
    intro Y X n hn hf
    obtain ⟨m, rfl⟩ := Int.eq_ofNat_of_zero_le (by omega : 0 ≤ n)
    rw [expBySquaring2]
    by_cases h1 : (m : Int) = 1
    · rw [if_pos h1]
      have hm : m = 1 := by omega
      subst hm
      refine ⟨_, rfl, ?_, ?_, ?_⟩
      · exact ((product_false_spec _ X Y).1).trans (hz _).1
      · exact ((product_false_spec _ X Y).2.1).trans (hz _).2
      · rw [toQ_product_false d _ X Y (hz _).1 (hz _).2]
        simp
    · rw [if_neg h1]
      by_cases h2 : Int.tmod (m : Int) 2 = 0
      · rw [if_pos h2]
        have h2n : (m : Int) % 2 = 0 := by
          rw [← Int.tmod_eq_emod (by omega) (by decide)]
          exact h2
        have hdiv : Int.tdiv (m : Int) 2 = ((m / 2 : Nat) : Int) := (Int.ofNat_tdiv m 2).symm
        rw [hdiv]
        obtain ⟨R, e1, e2, e3, e4⟩ := ih Y
          (((mk0 0 0).zeroMatrix M.rows M.cols).product X X false) ((m / 2 : Nat) : Int)
          (by omega) (by omega)
        refine ⟨R, e1, e2, e3, ?_⟩
        rw [e4, toQ_product_false d _ X X (hz _).1 (hz _).2]
        have e5 : ((m : Int)).toNat = 2 * (m / 2) := by omega
        have e6 : (((m / 2 : Nat) : Int)).toNat = m / 2 := by omega
        rw [e5, e6, pow_mul, pow_two]
      · rw [if_neg h2]
        have h2n : ¬ ((m : Int) % 2 = 0) := by
          rw [← Int.tmod_eq_emod (by omega) (by decide)]
          exact h2
        have hdiv : Int.tdiv ((m : Int) - 1) 2 = (((m - 1) / 2 : Nat) : Int) := by
          have : ((m : Int) - 1) = ((m - 1 : Nat) : Int) := by omega
          rw [this]
          exact (Int.ofNat_tdiv (m - 1) 2).symm
        rw [hdiv]
        obtain ⟨R, e1, e2, e3, e4⟩ := ih
          (((mk0 0 0).zeroMatrix M.rows M.cols).product X Y false)
          (((mk0 0 0).zeroMatrix M.rows M.cols).product X X false) (((m - 1) / 2 : Nat) : Int)
          (by omega) (by omega)
        refine ⟨R, e1, e2, e3, ?_⟩
        rw [e4, toQ_product_false d _ X X (hz _).1 (hz _).2,
          toQ_product_false d _ X Y (hz _).1 (hz _).2]
        have e5 : ((m : Int)).toNat = 2 * ((m - 1) / 2) + 1 := by omega
        have e6 : ((((m - 1) / 2 : Nat) : Int)).toNat = (m - 1) / 2 := by omega
        rw [e5, e6, pow_succ, pow_mul, pow_two, mul_assoc]

/-- The power computed by `pow` without the symmetry shortcut, default included. -/
theorem pow_false_spec (d : Nat) (M : Matrix) (hr : M.m_rows = d) (hc : M.m_cols = d)
    (n : Int) (hn : 1 ≤ n) (fuel : Nat) (hf : n.toNat ≤ fuel) :
    ∃ R, pow false fuel M n false = some R ∧ R.m_rows = d ∧ R.m_cols = d ∧
      toQ d R = toQ d M ^ n.toNat := by
  unfold pow
  have hsq : ¬ (M.rows ≠ M.cols) := by
    simp [rows, cols, hr, hc]
  rw [if_neg hsq]
  simp only []
  obtain ⟨R, e1, e2, e3, e4⟩ := expBySquaring2_false_spec d M hr hc fuel
    ((mk0 0 0).identityMatrix M.rows) ((mk0 0 0).assign M) n hn hf
  refine ⟨R, e1, e2, e3, ?_⟩
  rw [e4]
  have hX : toQ d ((mk0 0 0).assign M) = toQ d M := by
    ext i j
    rw [toQ_apply, toQ_apply]
    exact (assign_mk0_spec M).2.2 i j (by rw [hr]; exact i.2)
  have hY : toQ d ((mk0 0 0).identityMatrix M.rows) = 1 := by
    have : M.rows = d := hr
    rw [this]
    exact toQ_identityMatrix d _
  rw [hX, hY, mul_one]

/-! ## Claims on exponentiation -/

/-- C4: for a square `d × d` matrix `M` and an exponent `n ≥ 1`, `M.pow(n, false)`
returns (the recursion ends within `n` levels) a `d × d` matrix whose cells are those of
`M ^ n`, the product of `n` copies of `M`.  The recursive calls of `expBySquaring2` run
with the default of `symmetry`, here `false`, the value under which the one-argument
call `M.pow(n)` is the plain power. -/
theorem pow_plain_power (d : Nat) (M : Matrix) (hr : M.m_rows = d) (hc : M.m_cols = d)
    (n : Int) (hn : 1 ≤ n) (fuel : Nat) (hf : n.toNat ≤ fuel) :
    ∃ R, pow false fuel M n false = some R ∧ R.m_rows = d ∧ R.m_cols = d ∧
      toQ d R = toQ d M ^ n.toNat :=
  pow_false_spec d M hr hc n hn fuel hf

/-- Witness of C4: the Fibonacci matrix `[[0,1],[1,1]]` raised to the power `10` is
exactly `[[34,55],[55,89]]`. -/
theorem pow_plain_power_witness :
    ∃ R, pow false 10 (ofRows [[0, 1], [1, 1]]) 10 false = some R ∧
      R.m_rows = 2 ∧ R.m_cols = 2 ∧
      R.item 0 0 = 34 ∧ R.item 0 1 = 55 ∧ R.item 1 0 = 55 ∧ R.item 1 1 = 89 := by
  obtain ⟨R, e1, e2, e3, e4⟩ :=
    pow_plain_power 2 (ofRows [[0, 1], [1, 1]]) rfl rfl 10 (by decide) 10 (by decide)
  have hM : toQ 2 (ofRows [[0, 1], [1, 1]]) = Matrix.of ![![0, 1], ![1, 1]] := by
    ext i j
    fin_cases i <;> fin_cases j <;> simp [toQ, item, ofRows, Row.column]
  have hp : toQ 2 (ofRows [[0, 1], [1, 1]]) ^ (10 : Int).toNat
      = Matrix.of ![![34, 55], ![55, 89]] := by
    rw [hM]
    have : (10 : Int).toNat = 10 := rfl
    rw [this]
    simp [pow_succ, Matrix.mul_fin_two, Matrix.one_fin_two]
    norm_num
  rw [hp] at e4
  refine ⟨R, e1, e2, e3, ?_, ?_, ?_, ?_⟩
  · have := congrFun (congrFun e4 0) 0
    simpa using this
  · have := congrFun (congrFun e4 0) 1
    simpa using this
  · have := congrFun (congrFun e4 1) 0
    simpa using this
  · have := congrFun (congrFun e4 1) 1
    simpa using this

/-- C5, evaluation: on the symmetric matrix `[[0,1],[1,1]]` with `n = 10`, `pow(n, true)`
returns `[[1,31],[0,32]]`, whatever default `symmetry` has in the recursive calls; the
power `M ^ 10` is `[[34,55],[55,89]]`. -/
theorem pow_symmetric_fibonacci (symmetryDefault : Bool) :
    ∃ R, pow symmetryDefault 4 (ofRows [[0, 1], [1, 1]]) 10 true = some R ∧
      R.item 0 0 = 1 ∧ R.item 0 1 = 31 ∧ R.item 1 0 = 0 ∧ R.item 1 1 = 32 := by
  cases symmetryDefault
  · refine ⟨_, rfl, ?_, ?_, ?_, ?_⟩ <;> decide!
  · refine ⟨_, rfl, ?_, ?_, ?_, ?_⟩ <;> decide!

/-- C6, evaluation: `A = [[0,1],[1,0]]` and `B = [[1,0],[0,1]]` are symmetric and so is
their product `[[0,1],[1,0]]`; `product(A, B, true)` leaves `0` in cell `(1, 0)` where
`product(A, B, false)` leaves `1`. -/
theorem product_symmetry_lower_triangle :
    ((mk0 2 2).product (ofRows [[0, 1], [1, 0]]) (ofRows [[1, 0], [0, 1]]) true).item 1 0 = 0 ∧
    ((mk0 2 2).product (ofRows [[0, 1], [1, 0]]) (ofRows [[1, 0], [0, 1]]) false).item 1 0 = 1 ∧
    ((mk0 2 2).product (ofRows [[0, 1], [1, 0]]) (ofRows [[1, 0], [0, 1]]) true).item 0 1 = 1 := by
  refine ⟨?_, ?_, ?_⟩ <;>
    simp [product, forLoop, loopFrom, setItem, item, mk0, ofRows, rows, cols, Row.setColumn,
      Row.column, Row.resize, Row.empty]

/-! ## Row operations -/

/-- A loop on a pair whose body acts on each component by itself is a pair of loops. -/
theorem forLoop_pair {α β : Type} (lo hi : Nat) (f : Nat → α → α) (g : Nat → β → β)
    (a : α) (b : β) :
    forLoop lo hi (fun k (s : α × β) => (f k s.1, g k s.2)) (a, b)
      = (forLoop lo hi f a, forLoop lo hi g b) := by
  rcases Nat.lt_or_ge hi lo with hlt | hge
  · rw [forLoop_empty _ _ _ _ (Nat.le_of_lt hlt), forLoop_empty _ _ _ _ (Nat.le_of_lt hlt),
      forLoop_empty _ _ _ _ (Nat.le_of_lt hlt)]
  · induction hi with
    | zero =>
      have : lo = 0 := by omega
      subst this
      simp [forLoop, loopFrom]
    | succ hi ih =>
      rcases Nat.lt_or_ge hi lo with hlt | hge0
      · have : lo = hi + 1 := by omega
        subst this
        rw [forLoop_empty _ _ _ _ (le_refl _), forLoop_empty _ _ _ _ (le_refl _),
          forLoop_empty _ _ _ _ (le_refl _)]
      · rw [forLoop_succ _ _ _ _ hge0, forLoop_succ _ _ _ _ hge0, forLoop_succ _ _ _ _ hge0,
          ih hge0]

/-- Effect of `swapRows(rowA, rowB)`: in the columns before `rows()` the two rows are
exchanged; nothing else changes. -/
theorem swapRows_spec (M : Matrix) (rowA rowB : Nat) :
    (M.swapRows rowA rowB).m_rows = M.m_rows ∧ (M.swapRows rowA rowB).m_cols = M.m_cols ∧
    ∀ r c, (M.swapRows rowA rowB).item r c
      = if c < M.m_rows then
          (if r = rowA then M.item rowB c else if r = rowB then M.item rowA c else M.item r c)
        else M.item r c := by
  unfold swapRows
  refine forLoop_inv (fun j (s : Matrix × (Nat → ℚ)) =>
      s.1.m_rows = M.m_rows ∧ s.1.m_cols = M.m_cols ∧
      ∀ r c, s.1.item r c
        = if c < j then
            (if r = rowA then M.item rowB c else if r = rowB then M.item rowA c else M.item r c)
          else M.item r c) 0 M.rows _ _ (Nat.zero_le _) ?_ ?_
  · exact ⟨rfl, rfl, fun r c => by simp⟩
  · rintro j s - - ⟨h1, h2, h3⟩
    refine ⟨h1, h2, fun r c => ?_⟩
    simp only [Function.update_same, item_setItem]
    have hA : s.1.item rowA j = M.item rowA j := by rw [h3]; simp
    have hB : s.1.item rowB j = M.item rowB j := by rw [h3]; simp
    by_cases hc : c = j
    · subst hc
      by_cases hra : r = rowA
      · subst hra
        simp [hB]
      · by_cases hrb : r = rowB
        · subst hrb
          simp [hra, hA]
        · simp [hra, hrb, h3 r c]
    · have hlt : (c < j + 1) ↔ (c < j) := by omega
      simp only [hc, and_false, if_false, hlt]
      exact h3 r c

/-- Effect of scaling row `j` cell by cell over the columns `[0, n)`. -/
theorem scaleRowLoop_spec (M : Matrix) (n j : Nat) (v : ℚ) :
    (forLoop 0 n (fun k (M : Matrix) => M.setItem j k (v * M.item j k)) M).m_rows = M.m_rows ∧
    (forLoop 0 n (fun k (M : Matrix) => M.setItem j k (v * M.item j k)) M).m_cols = M.m_cols ∧
    ∀ r c, (forLoop 0 n (fun k (M : Matrix) => M.setItem j k (v * M.item j k)) M).item r c
      = if r = j ∧ c < n then v * M.item j c else M.item r c := by
  refine forLoop_inv (fun m (Q : Matrix) => Q.m_rows = M.m_rows ∧ Q.m_cols = M.m_cols ∧
      ∀ r c, Q.item r c = if r = j ∧ c < m then v * M.item j c else M.item r c)
      0 n _ _ (Nat.zero_le _) ?_ ?_
  · exact ⟨rfl, rfl, fun r c => by simp⟩
  · rintro m Q - - ⟨h1, h2, h3⟩
    refine ⟨h1, h2, fun r c => ?_⟩
    rw [item_setItem]
    by_cases h : r = j ∧ c = m
    · obtain ⟨rfl, rfl⟩ := h
      simp [h3 r c]
    · rw [if_neg h, h3 r c]
      have : (r = j ∧ c < m + 1) ↔ (r = j ∧ c < m) := by
        constructor
        · rintro ⟨e1, e2⟩
          refine ⟨e1, ?_⟩
          rcases Nat.lt_or_ge c m with hlt | hge
          · exact hlt
          · exact absurd ⟨e1, by omega⟩ h
        · rintro ⟨e1, e2⟩
          exact ⟨e1, by omega⟩
      simp only [this]

/-- Effect of subtracting `e` times row `j` of `B` from row `i` of `M`, cell by cell over
the columns `[0, n)`, when row `j` of `B` is row `j` of `M` and `i ≠ j`. -/
theorem axpyRowLoop_spec (M : Matrix) (n i j : Nat) (e : ℚ) (hij : i ≠ j) :
    (forLoop 0 n (fun k (M : Matrix) => M.setItem i k (M.item i k - e * M.item j k)) M).m_rows
      = M.m_rows ∧
    (forLoop 0 n (fun k (M : Matrix) => M.setItem i k (M.item i k - e * M.item j k)) M).m_cols
      = M.m_cols ∧
    ∀ r c, (forLoop 0 n
        (fun k (M : Matrix) => M.setItem i k (M.item i k - e * M.item j k)) M).item r c
      = if r = i ∧ c < n then M.item i c - e * M.item j c else M.item r c := by
  refine forLoop_inv (fun m (Q : Matrix) => Q.m_rows = M.m_rows ∧ Q.m_cols = M.m_cols ∧
      ∀ r c, Q.item r c = if r = i ∧ c < m then M.item i c - e * M.item j c else M.item r c)
      0 n _ _ (Nat.zero_le _) ?_ ?_
  · exact ⟨rfl, rfl, fun r c => by simp⟩
  · rintro m Q - - ⟨h1, h2, h3⟩
    refine ⟨h1, h2, fun r c => ?_⟩
    rw [item_setItem]
    by_cases h : r = i ∧ c = m
    · obtain ⟨rfl, rfl⟩ := h
      have hj : Q.item j c = M.item j c := by
        rw [h3 j c, if_neg (fun h0 => hij h0.1.symm)]
      simp [h3 r c, hj]
    · rw [if_neg h, h3 r c]
      have : (r = i ∧ c < m + 1) ↔ (r = i ∧ c < m) := by
        constructor
        · rintro ⟨e1, e2⟩
          refine ⟨e1, ?_⟩
          rcases Nat.lt_or_ge c m with hlt | hge
          · exact hlt
          · exact absurd ⟨e1, by omega⟩ h
        · rintro ⟨e1, e2⟩
          exact ⟨e1, by omega⟩
      simp only [this]

/-! ## Gauss-Jordan: the phases of one column -/

/-- The scaling loop of Gauss-Jordan as two independent row scalings. -/
theorem gjScaleRow_eq (j : Nat) (v : ℚ) (s : Matrix × Matrix) :
    gjScaleRow j v s
      = (forLoop 0 s.1.rows (fun k (M : Matrix) => M.setItem j k ((1 / v) * M.item j k)) s.1,
         forLoop 0 s.1.rows (fun k (M : Matrix) => M.setItem j k ((1 / v) * M.item j k)) s.2) := by
  unfold gjScaleRow
  exact forLoop_pair 0 s.1.rows
    (fun k (M : Matrix) => M.setItem j k ((1 / v) * M.item j k))
    (fun k (M : Matrix) => M.setItem j k ((1 / v) * M.item j k)) s.1 s.2

/-- Result of the pivot search at column `j`: the pivot is the entry of a row `q` in
`[j, n)`, it has the largest absolute value among the rows `[j, n)`, and the recorded
line is `-1` exactly when row `j` itself was kept. -/
theorem gjPivotSearch_spec (A : Matrix) (n j : Nat) (hj : j < n) :
    ∃ q, j ≤ q ∧ q < n ∧ (gjPivotSearch A n j).2 = A.item q j ∧
      ((gjPivotSearch A n j).1 = -1 ∧ q = j ∨ (gjPivotSearch A n j).1 = (q : Int) ∧ j < q) ∧
      (∀ r, j ≤ r → r < n → |A.item r j| ≤ |(gjPivotSearch A n j).2|) ∧
      (∀ r, j ≤ r → r < q → |A.item r j| < |(gjPivotSearch A n j).2|) := by
  unfold gjPivotSearch
  simp only []
  refine forLoop_inv (fun i (p : Int × ℚ) =>
      ∃ q, j ≤ q ∧ q < i ∧ p.2 = A.item q j ∧
        (p.1 = -1 ∧ q = j ∨ p.1 = (q : Int) ∧ j < q) ∧
        (∀ r, j ≤ r → r < i → |A.item r j| ≤ |p.2|) ∧
        (∀ r, j ≤ r → r < q → |A.item r j| < |p.2|)) (j + 1) n _ _ (by omega) ?_ ?_
  · refine ⟨j, le_refl _, Nat.lt_succ_self _, rfl, Or.inl ⟨rfl, rfl⟩, fun r h1 h2 => ?_,
      fun r h1 h2 => absurd h2 (by omega)⟩
    have : r = j := by omega
    subst this
    exact le_refl _
  · rintro i p hi1 hi2 ⟨q, h1, h2, h3, h4, h5, h6⟩
    by_cases hgt : |A.item i j| > |p.2|
    · simp only [hgt, if_true]
      refine ⟨i, by omega, Nat.lt_succ_self _, rfl, Or.inr ⟨rfl, by omega⟩, fun r hr1 hr2 => ?_,
        fun r hr1 hr2 => ?_⟩
      · rcases Nat.lt_or_ge r i with hlt | hge
        · exact le_trans (h5 r hr1 hlt) (le_of_lt hgt)
        · have : r = i := by omega
          subst this
          exact le_refl _
      · exact lt_of_le_of_lt (h5 r hr1 hr2) hgt
    · simp only [hgt, if_false]
      refine ⟨q, h1, by omega, h3, h4, fun r hr1 hr2 => ?_, h6⟩
      rcases Nat.lt_or_ge r i with hlt | hge
      · exact h5 r hr1 hlt
      · have : r = i := by omega
        subst this
        exact not_lt.mp hgt

/-- Effect of the elimination loop at column `j` on a pair of matrices with `n` rows and
columns in the receiver: every row `r ≠ j` below `n` loses `A(r, j)` times row `j`, in
both matrices. -/
theorem gjEliminate_spec (n j : Nat) (R A : Matrix) (hr : R.m_rows = n) (hc : R.m_cols = n) :
    (gjEliminate j (R, A)).1.m_rows = n ∧ (gjEliminate j (R, A)).1.m_cols = n ∧
    (gjEliminate j (R, A)).2.m_rows = A.m_rows ∧ (gjEliminate j (R, A)).2.m_cols = A.m_cols ∧
    (∀ r c, (gjEliminate j (R, A)).2.item r c
      = if r < n ∧ r ≠ j ∧ c < n then A.item r c - A.item r j * A.item j c else A.item r c) ∧
    (∀ r c, (gjEliminate j (R, A)).1.item r c
      = if r < n ∧ r ≠ j ∧ c < n then R.item r c - A.item r j * R.item j c else R.item r c) := by
  unfold gjEliminate
  have hrows : (R, A).1.rows = n := hr
  rw [hrows]
  refine forLoop_inv (fun i (s : Matrix × Matrix) =>
      s.1.m_rows = n ∧ s.1.m_cols = n ∧ s.2.m_rows = A.m_rows ∧ s.2.m_cols = A.m_cols ∧
      (∀ r c, s.2.item r c
        = if r < i ∧ r ≠ j ∧ c < n then A.item r c - A.item r j * A.item j c else A.item r c) ∧
      (∀ r c, s.1.item r c
        = if r < i ∧ r ≠ j ∧ c < n then R.item r c - A.item r j * R.item j c else R.item r c))
      0 n _ _ (Nat.zero_le _) ?_ ?_
  · exact ⟨hr, hc, rfl, rfl, fun r c => by simp, fun r c => by simp⟩
  · rintro i ⟨R1, A1⟩ - hi ⟨h1, h2, h3, h4, h5, h6⟩
    simp only at h1 h2 h3 h4 h5 h6 ⊢
    have hcur : ∀ c, A1.item i c = A.item i c := fun c => by
      rw [h5 i c, if_neg (fun h => absurd h.1 (lt_irrefl _))]
    have hcurR : ∀ c, R1.item i c = R.item i c := fun c => by
      rw [h6 i c, if_neg (fun h => absurd h.1 (lt_irrefl _))]
    have hrowj : ∀ c, A1.item j c = A.item j c := fun c => by
      rw [h5 j c, if_neg (fun h => h.2.1 rfl)]
    have hrowjR : ∀ c, R1.item j c = R.item j c := fun c => by
      rw [h6 j c, if_neg (fun h => h.2.1 rfl)]
    have hiff : ∀ r c : Nat, ¬ r = i →
        ((r < i + 1 ∧ r ≠ j ∧ c < n) ↔ (r < i ∧ r ≠ j ∧ c < n)) := fun r c hri => by
      constructor
      · rintro ⟨e1, e2⟩
        exact ⟨by omega, e2⟩
      · rintro ⟨e1, e2⟩
        exact ⟨by omega, e2⟩
    by_cases hz : A1.item i j = 0
    · rw [if_pos hz]
      have hz0 : A.item i j = 0 := by rw [← hcur]; exact hz
      refine ⟨h1, h2, h3, h4, fun r c => ?_, fun r c => ?_⟩
      · by_cases hri : r = i
        · subst hri
          rw [hcur c, hz0]
          simp
        · rw [h5 r c]
          simp only [hiff r c hri]
      · by_cases hri : r = i
        · subst hri
          rw [hcurR c, hz0]
          simp
        · rw [h6 r c]
          simp only [hiff r c hri]
    · rw [if_neg hz]
      by_cases hij : i = j
      · rw [if_pos hij]
        subst hij
        refine ⟨h1, h2, h3, h4, fun r c => ?_, fun r c => ?_⟩
        · by_cases hri : r = i
          · subst hri
            rw [hcur c]
            simp
          · rw [h5 r c]
            simp only [hiff r c hri]
        · by_cases hri : r = i
          · subst hri
            rw [hcurR c]
            simp
          · rw [h6 r c]
            simp only [hiff r c hri]
      · rw [if_neg hij]
        have hcols : (R1, A1).1.cols = n := h2
        rw [hcols]
        have hpair := forLoop_pair 0 n
          (fun k (M : Matrix) => M.setItem i k (M.item i k - A1.item i j * M.item j k))
          (fun k (M : Matrix) => M.setItem i k (M.item i k - A1.item i j * M.item j k)) R1 A1
        have hswap : (forLoop 0 n (fun k (s : Matrix × Matrix) =>
            (s.1.setItem i k (s.1.item i k - A1.item i j * s.1.item j k),
             s.2.setItem i k (s.2.item i k - A1.item i j * s.2.item j k))) (R1, A1))
            = (forLoop 0 n (fun k (M : Matrix) =>
                  M.setItem i k (M.item i k - A1.item i j * M.item j k)) R1,
               forLoop 0 n (fun k (M : Matrix) =>
                  M.setItem i k (M.item i k - A1.item i j * M.item j k)) A1) := hpair
        rw [hswap]
        obtain ⟨a1, a2, a3⟩ := axpyRowLoop_spec A1 n i j (A1.item i j) hij
        obtain ⟨r1, r2, r3⟩ := axpyRowLoop_spec R1 n i j (A1.item i j) hij
        refine ⟨r1.trans h1, r2.trans h2, a1.trans h3, a2.trans h4, fun r c => ?_, fun r c => ?_⟩
        · simp only []
          rw [a3 r c]
          by_cases hri : r = i
          · subst hri
            by_cases hcn : c < n
            · rw [if_pos ⟨rfl, hcn⟩, if_pos ⟨by omega, hij, hcn⟩, hcur c, hcur j, hrowj c]
            · rw [if_neg (fun h => hcn h.2), if_neg (fun h => hcn h.2.2), hcur c]
          · rw [if_neg (fun h => hri h.1), h5 r c]
            simp only [hiff r c hri]
        · simp only []
          rw [r3 r c]
          by_cases hri : r = i
          · subst hri
            by_cases hcn : c < n
            · rw [if_pos ⟨rfl, hcn⟩, if_pos ⟨by omega, hij, hcn⟩, hcurR c, hcur j, hrowjR c]
            · rw [if_neg (fun h => hcn h.2), if_neg (fun h => hcn h.2.2), hcurR c]
          · rw [if_neg (fun h => hri h.1), h6 r c]
            simp only [hiff r c hri]

/-! ## Elementary row operations on the mathematical side -/

/-- A square matrix with a block of zeros in the rows `[j, n)` and the columns `[0, j]` is
singular. -/
theorem det_eq_zero_of_zero_block {n : Nat} (W : QMat n) (j : Nat)
    (h : ∀ i k : Fin n, j ≤ (i : Nat) → (k : Nat) ≤ j → W i k = 0) (hj : j < n) :
    W.det = 0 := by
  rw [Matrix.det_apply]
  refine Finset.sum_eq_zero (fun σ _ => ?_)
  have hex : ∃ k : Fin n, (k : Nat) ≤ j ∧ j ≤ ((σ k : Fin n) : Nat) := by
    by_contra hne
    push_neg at hne
    let f : Fin (j + 1) → Fin j := fun k =>
      ⟨((σ ⟨k, by omega⟩ : Fin n) : Nat), hne ⟨k, by omega⟩ (by
        show (k : Nat) ≤ j
        omega)⟩
    have hf : Function.Injective f := by
      intro x y hxy
      have h1 : ((σ ⟨x, by omega⟩ : Fin n) : Nat) = ((σ ⟨y, by omega⟩ : Fin n) : Nat) :=
        congrArg (fun t : Fin j => (t : Nat)) hxy
      have h2 : (⟨x, by omega⟩ : Fin n) = ⟨y, by omega⟩ := σ.injective (Fin.ext h1)
      exact Fin.ext (congrArg (fun t : Fin n => (t : Nat)) h2)
    have := Fintype.card_le_of_injective f hf
    simp at this
  obtain ⟨k, hk1, hk2⟩ := hex
  have hz : ∏ i, W (σ i) i = 0 :=
    Finset.prod_eq_zero (Finset.mem_univ k) (h (σ k) k hk2 hk1)
  rw [hz, smul_zero]

/-- Exchanging two rows is a multiplication on the left by a permuted identity. -/
theorem toQ_rowSwap (n : Nat) (X Y : Matrix) (a b : Fin n)
    (h : ∀ r c, r < n → c < n → Y.item r c
      = if r = (a : Nat) then X.item b c else if r = (b : Nat) then X.item a c else X.item r c) :
    toQ n Y = (1 : QMat n).submatrix (Equiv.swap a b) id * toQ n X := by
  ext r c
  rw [toQ_apply, h r c r.2 c.2, Matrix.mul_apply]
  simp only [Matrix.submatrix_apply, id, Matrix.one_apply]
  rw [Finset.sum_eq_single (Equiv.swap a b r)]
  · simp only [if_true, one_mul, toQ_apply]
    by_cases hra : r = a
    · subst hra
      simp
    · by_cases hrb : r = b
      · subst hrb
        have : ¬ ((r : Nat) = (a : Nat)) := fun h0 => hra (Fin.ext h0)
        simp [this]
      · have h1 : ¬ ((r : Nat) = (a : Nat)) := fun h0 => hra (Fin.ext h0)
        have h2 : ¬ ((r : Nat) = (b : Nat)) := fun h0 => hrb (Fin.ext h0)
        rw [Equiv.swap_apply_of_ne_of_ne hra hrb]
        simp [h1, h2]
  · intro m _ hm
    rw [if_neg (fun h0 => hm h0.symm), zero_mul]
  · intro h0
    exact absurd (Finset.mem_univ _) h0

/-- A permuted identity is non-singular. -/
theorem det_swapMatrix_ne_zero (n : Nat) (a b : Fin n) :
    ((1 : QMat n).submatrix (Equiv.swap a b) id).det ≠ 0 := by
  rw [Matrix.det_permute, Matrix.det_one, mul_one]
  rcases Int.units_eq_one_or (Equiv.Perm.sign (Equiv.swap a b)) with h | h
  · rw [h]
    simp
  · rw [h]
    simp

/-- Scaling one row is a multiplication on the left by a diagonal matrix. -/
theorem toQ_rowScale (n : Nat) (X Y : Matrix) (j : Nat) (v : ℚ)
    (h : ∀ r c, r < n → c < n → Y.item r c = if r = j then v * X.item j c else X.item r c) :
    toQ n Y = Matrix.diagonal (fun r : Fin n => if (r : Nat) = j then v else 1) * toQ n X := by
  ext r c
  rw [toQ_apply, h r c r.2 c.2, Matrix.diagonal_mul, toQ_apply]
  by_cases hr : (r : Nat) = j
  · simp [hr]
  · simp [hr]

/-- The diagonal matrix of a scaling by a nonzero factor is non-singular. -/
theorem det_scaleMatrix_ne_zero (n j : Nat) (v : ℚ) (hv : v ≠ 0) :
    (Matrix.diagonal (fun r : Fin n => if (r : Nat) = j then v else 1)).det ≠ 0 := by
  rw [Matrix.det_diagonal]
  refine Finset.prod_ne_zero_iff.mpr (fun r _ => ?_)
  by_cases hr : (r : Nat) = j
  · simpa [hr] using hv
  · simp [hr]

/-- Clearing column `j` with the multipliers `u` is a multiplication on the left by the
identity minus the elimination matrix. -/
theorem toQ_rowElim (n : Nat) (X Y : Matrix) (j : Nat) (hj : j < n) (u : Nat → ℚ)
    (h : ∀ r c, r < n → c < n → Y.item r c
      = if r ≠ j then X.item r c - u r * X.item j c else X.item r c) :
    toQ n Y = (1 - elimMatrix n j u) * toQ n X := by
  ext r c
  rw [toQ_apply, h r c r.2 c.2, Matrix.sub_mul, Matrix.one_mul, Matrix.sub_apply,
    Matrix.mul_apply, toQ_apply]
  rw [Finset.sum_eq_single (⟨j, hj⟩ : Fin n)]
  · by_cases hr : (r : Nat) = j
    · simp [elimMatrix, hr]
    · simp [elimMatrix, hr]
  · intro m _ hm
    have : ¬ ((m : Nat) = j) := fun h0 => hm (Fin.ext h0)
    simp [elimMatrix, this]
  · intro h0
    exact absurd (Finset.mem_univ _) h0

/-- The elimination matrix squares to zero. -/
theorem elimMatrix_mul_self (n j : Nat) (u w : Nat → ℚ) :
    elimMatrix n j u * elimMatrix n j w = 0 := by
  ext r c
  rw [Matrix.mul_apply]
  refine Finset.sum_eq_zero (fun m _ => ?_)
  by_cases hm : (m : Nat) = j
  · simp [elimMatrix, hm]
  · simp [elimMatrix, hm]

/-- The identity minus an elimination matrix is non-singular. -/
theorem det_elimMatrix_ne_zero (n j : Nat) (u : Nat → ℚ) :
    (1 - elimMatrix n j u).det ≠ 0 := by
  rcases Nat.eq_zero_or_pos n with h0 | hpos
  · subst h0
    simp
  · haveI : Nonempty (Fin n) := ⟨⟨0, hpos⟩⟩
    refine Matrix.det_ne_zero_of_left_inverse (B := 1 + elimMatrix n j u) ?_
    simp only [Matrix.add_mul, Matrix.mul_sub, Matrix.one_mul, Matrix.mul_one,
      elimMatrix_mul_self]
    abel

/-! ## Gauss-Jordan: one column, then all columns -/

/-- The interchange of Gauss-Jordan, by the recorded pivot line: rows `q` and `j` are
exchanged on the leading block, where `q` is the row of the pivot. -/
theorem gjInterchange_spec (n j q : Nat) (line : Int) (X : Matrix) (hX : X.m_rows = n)
    (hline : line = -1 ∧ q = j ∨ line = (q : Int) ∧ j < q) :
    (if line ≠ -1 then X.swapRows line.toNat j else X).m_rows = n ∧
    (if line ≠ -1 then X.swapRows line.toNat j else X).m_cols = X.m_cols ∧
    ∀ r c, r < n → c < n → (if line ≠ -1 then X.swapRows line.toNat j else X).item r c
      = if r = q then X.item j c else if r = j then X.item q c else X.item r c := by
  rcases hline with ⟨h1, h2⟩ | ⟨h1, h2⟩
  · have : ¬ (line ≠ -1) := fun h => h h1
    rw [if_neg this]
    refine ⟨hX, rfl, fun r c _ _ => ?_⟩
    subst h2
    by_cases hr : r = q
    · simp [hr]
    · simp [hr]
  · have hne : line ≠ -1 := by omega
    have hq : line.toNat = q := by omega
    rw [if_pos hne, hq]
    obtain ⟨s1, s2, s3⟩ := swapRows_spec X q j
    refine ⟨s1.trans hX, s2, fun r c _ hc => ?_⟩
    rw [s3 r c, hX, if_pos hc]

/-- The pivot found on a non-singular matrix whose first `j` columns are those of the
identity is not zero. -/
theorem gjPivot_ne_zero (n j : Nat) (hj : j < n) (A : Matrix) (p : ℚ)
    (hcol : ∀ r c, r < n → c < j → A.item r c = if r = c then 1 else 0)
    (hdet : (toQ n A).det ≠ 0)
    (hmax : ∀ r, j ≤ r → r < n → |A.item r j| ≤ |p|) : p ≠ 0 := by
  intro h0
  apply hdet
  refine det_eq_zero_of_zero_block (toQ n A) j (fun i k hi hk => ?_) hj
  rw [toQ_apply]
  rcases Nat.lt_or_ge (k : Nat) j with hlt | hge
  · have hik : ¬ ((i : Nat) = (k : Nat)) := by omega
    rw [hcol i k i.2 hlt, if_neg hik]
  · have hkj : (k : Nat) = j := by omega
    rw [hkj]
    have := hmax i hi i.2
    rw [h0, abs_zero] at this
    exact abs_eq_zero.mp (le_antisymm this (abs_nonneg _))

/-- The columns after interchange, scaling and elimination at column `j`. -/
theorem gjColumn_cells (n j q : Nat) (p : ℚ) (A A1 A2 A3 : Matrix) (hj : j < n)
    (hq1 : j ≤ q) (hq2 : q < n) (hp : p = A.item q j) (hp0 : p ≠ 0)
    (hcol : ∀ r c, r < n → c < j → A.item r c = if r = c then 1 else 0)
    (a3 : ∀ r c, r < n → c < n → A1.item r c
      = if r = q then A.item j c else if r = j then A.item q c else A.item r c)
    (b3 : ∀ r c, A2.item r c = if r = j ∧ c < n then 1 / p * A1.item j c else A1.item r c)
    (e5 : ∀ r c, A3.item r c
      = if r < n ∧ r ≠ j ∧ c < n then A2.item r c - A2.item r j * A2.item j c
        else A2.item r c) :
    ∀ r c, r < n → c < j + 1 → A3.item r c = if r = c then 1 else 0 := by
  have hA1col : ∀ r c, r < n → c < j → A1.item r c = if r = c then 1 else 0 := by
    intro r c hr hc
    have hcn : c < n := by omega
    rw [a3 r c hr hcn]
    by_cases hrq : r = q
    · have h1 : ¬ j = c := by omega
      have h2 : ¬ r = c := by omega
      rw [if_pos hrq, hcol j c hj hc, if_neg h1, if_neg h2]
    · rw [if_neg hrq]
      by_cases hrj : r = j
      · have h1 : ¬ q = c := by omega
        have h2 : ¬ r = c := by omega
        rw [if_pos hrj, hcol q c hq2 hc, if_neg h1, if_neg h2]
      · rw [if_neg hrj, hcol r c hr hc]
  have hA1jj : A1.item j j = p := by
    rw [a3 j j hj hj, hp]
    by_cases hjq : j = q
    · rw [if_pos hjq]
      subst hjq
      rfl
    · rw [if_neg hjq, if_pos rfl]
  have hA2j : ∀ c, c < j + 1 → A2.item j c = if j = c then 1 else 0 := by
    intro c hc
    have hcn : c < n := by omega
    rw [b3 j c, if_pos ⟨rfl, hcn⟩]
    rcases Nat.lt_or_ge c j with hlt | hge
    · have h1 : ¬ j = c := by omega
      rw [hA1col j c hj hlt, if_neg h1, mul_zero]
    · have hcj : c = j := by omega
      subst hcj
      rw [hA1jj, if_pos rfl]
      field_simp
  intro r c hr hc
  have hcn : c < n := by omega
  rw [e5 r c]
  by_cases hrj : r = j
  · subst hrj
    rw [if_neg (fun h => h.2.1 rfl)]
    exact hA2j c hc
  · rw [if_pos ⟨hr, hrj, hcn⟩, hA2j c hc]
    have hA2r : ∀ c0, A2.item r c0 = A1.item r c0 := fun c0 => by
      rw [b3 r c0, if_neg (fun h => hrj h.1)]
    rcases Nat.lt_or_ge c j with hlt | hge
    · have h1 : ¬ j = c := by omega
      rw [if_neg h1, mul_zero, sub_zero, hA2r c, hA1col r c hr hlt]
    · have hcj : c = j := by omega
      subst hcj
      rw [if_pos rfl, mul_one, sub_self, if_neg hrj]

/-- Interchange, scaling and elimination at column `j` multiply the leading block on the
left by a non-singular matrix that depends on the pivot row, the pivot and the
multipliers only. -/
theorem gjColumn_rowop (n j q : Nat) (p : ℚ) (u : Nat → ℚ) (X X1 X2 X3 : Matrix)
    (hj : j < n) (hq2 : q < n)
    (a3 : ∀ r c, r < n → c < n → X1.item r c
      = if r = q then X.item j c else if r = j then X.item q c else X.item r c)
    (b3 : ∀ r c, X2.item r c = if r = j ∧ c < n then 1 / p * X1.item j c else X1.item r c)
    (e5 : ∀ r c, X3.item r c
      = if r < n ∧ r ≠ j ∧ c < n then X2.item r c - u r * X2.item j c else X2.item r c) :
    toQ n X3 = (1 - elimMatrix n j u)
        * (Matrix.diagonal (fun r : Fin n => if (r : Nat) = j then 1 / p else 1)
          * (1 : QMat n).submatrix (Equiv.swap (⟨q, hq2⟩ : Fin n) ⟨j, hj⟩) id) * toQ n X := by
  have hS := toQ_rowSwap n X X1 ⟨q, hq2⟩ ⟨j, hj⟩ (fun r c hr hc => a3 r c hr hc)
  have hD := toQ_rowScale n X1 X2 j (1 / p) (fun r c hr hc => by
    rw [b3 r c]
    by_cases hrj : r = j
    · rw [if_pos ⟨hrj, hc⟩, if_pos hrj]
    · rw [if_neg (fun h => hrj h.1), if_neg hrj])
  have hE := toQ_rowElim n X2 X3 j hj u (fun r c hr hc => by
    rw [e5 r c]
    by_cases hrj : r = j
    · rw [if_neg (fun h => h.2.1 hrj), if_neg (fun h => h hrj)]
    · rw [if_pos ⟨hr, hrj, hc⟩, if_pos hrj])
  rw [hE, hD, hS, Matrix.mul_assoc, Matrix.mul_assoc]

/-- The matrix of one Gauss-Jordan column is non-singular when the pivot is not zero. -/
theorem gjColumn_det (n j : Nat) (p : ℚ) (u : Nat → ℚ) (a b : Fin n) (hp0 : p ≠ 0) :
    ((1 - elimMatrix n j u)
        * (Matrix.diagonal (fun r : Fin n => if (r : Nat) = j then 1 / p else 1)
          * (1 : QMat n).submatrix (Equiv.swap a b) id)).det ≠ 0 := by
  rw [Matrix.det_mul, Matrix.det_mul]
  exact mul_ne_zero (det_elimMatrix_ne_zero n j _)
    (mul_ne_zero (det_scaleMatrix_ne_zero n j (1 / p) (one_div_ne_zero hp0))
      (det_swapMatrix_ne_zero n _ _))

/-- The column pass of Gauss-Jordan, unfolded into its three phases. -/
theorem gjColumn_eq (n j : Nat) (R A : Matrix) (hRr : R.m_rows = n)
    (hline : (gjPivotSearch A n j).1 = -1 ∨ (gjPivotSearch A n j).1 ≠ -1) :
    gjColumn n j (R, A)
      = gjEliminate j
        (forLoop 0 n (fun k (M : Matrix) =>
            M.setItem j k ((1 / (gjPivotSearch A n j).2) * M.item j k))
          (if (gjPivotSearch A n j).1 ≠ -1 then
            R.swapRows (gjPivotSearch A n j).1.toNat j else R),
         forLoop 0 n (fun k (M : Matrix) =>
            M.setItem j k ((1 / (gjPivotSearch A n j).2) * M.item j k))
          (if (gjPivotSearch A n j).1 ≠ -1 then
            A.swapRows (gjPivotSearch A n j).1.toNat j else A)) := by
  unfold gjColumn
  simp only []
  rw [gjScaleRow_eq]
  have hrows : (if (gjPivotSearch A n j).1 ≠ -1 then
      R.swapRows (gjPivotSearch A n j).1.toNat j else R).rows = n := by
    rcases hline with h | h
    · rw [if_neg (fun h0 => h0 h)]
      exact hRr
    · rw [if_pos h]
      exact (swapRows_spec R _ j).1.trans hRr
  simp only [hrows]

/-- One pass of the column loop of Gauss-Jordan, at column `j`, on a non-singular `A`
whose columns before `j` are already those of the identity: the columns up to `j` become
those of the identity, and `A` and the receiver are both multiplied on the left by one
non-singular matrix. -/
theorem gjColumn_spec (n j : Nat) (hj : j < n) (R A : Matrix) (hRr : R.m_rows = n)
    (hRc : R.m_cols = n) (hAr : A.m_rows = n)
    (hcol : ∀ r c, r < n → c < j → A.item r c = if r = c then 1 else 0)
    (hdet : (toQ n A).det ≠ 0) :
    (gjColumn n j (R, A)).1.m_rows = n ∧ (gjColumn n j (R, A)).1.m_cols = n ∧
    (gjColumn n j (R, A)).2.m_rows = n ∧ (gjColumn n j (R, A)).2.m_cols = A.m_cols ∧
    (∀ r c, r < n → c < j + 1 → (gjColumn n j (R, A)).2.item r c = if r = c then 1 else 0) ∧
    ∃ E : QMat n, E.det ≠ 0 ∧ toQ n (gjColumn n j (R, A)).1 = E * toQ n R ∧
      toQ n (gjColumn n j (R, A)).2 = E * toQ n A := by
  obtain ⟨q, hq1, hq2, hp, hline, hmax, -⟩ := gjPivotSearch_spec A n j hj
  have hp0 := gjPivot_ne_zero n j hj A _ hcol hdet hmax
  obtain ⟨a1, a2, a3⟩ := gjInterchange_spec n j q _ A hAr hline
  obtain ⟨r1, r2, r3⟩ := gjInterchange_spec n j q _ R hRr hline
  rw [gjColumn_eq n j R A hRr (em _)]
  obtain ⟨b1, b2, b3⟩ := scaleRowLoop_spec
    (if (gjPivotSearch A n j).1 ≠ -1 then A.swapRows (gjPivotSearch A n j).1.toNat j else A)
    n j (1 / (gjPivotSearch A n j).2)
  obtain ⟨t1, t2, t3⟩ := scaleRowLoop_spec
    (if (gjPivotSearch A n j).1 ≠ -1 then R.swapRows (gjPivotSearch A n j).1.toNat j else R)
    n j (1 / (gjPivotSearch A n j).2)
  obtain ⟨e1, e2, e3, e4, e5, e6⟩ := gjEliminate_spec n j _ _ (t1.trans r1)
    (t2.trans (r2.trans hRc))
  exact ⟨e1, e2, e3.trans (b1.trans a1), e4.trans (b2.trans a2),
    gjColumn_cells n j q _ A _ _ _ hj hq1 hq2 hp hp0 hcol a3 b3 e5,
    _, gjColumn_det n j _ _ ⟨q, hq2⟩ ⟨j, hj⟩ hp0,
    gjColumn_rowop n j q _ _ R _ _ _ hj hq2 r3 t3 e6,
    gjColumn_rowop n j q _ _ A _ _ _ hj hq2 a3 b3 e5⟩

/-- Effect of `inverseByGaussJordanElimination` on a non-singular `n × n` argument: the
argument is reduced to the identity and the receiver, an `n × n` matrix, is its inverse
on both sides. -/
theorem gaussJordan_spec (n : Nat) (R M : Matrix) (hr : M.m_rows = n) (hc : M.m_cols = n)
    (hdet : (toQ n M).det ≠ 0) :
    (R.inverseByGaussJordanElimination M).1.m_rows = n ∧
    (R.inverseByGaussJordanElimination M).1.m_cols = n ∧
    (R.inverseByGaussJordanElimination M).2.m_rows = n ∧
    (R.inverseByGaussJordanElimination M).2.m_cols = n ∧
    (∀ r c, r < n → c < n →
      (R.inverseByGaussJordanElimination M).2.item r c = if r = c then 1 else 0) ∧
    toQ n (R.inverseByGaussJordanElimination M).1 * toQ n M = 1 := by
  unfold inverseByGaussJordanElimination
  have hcols : M.cols = n := hc
  simp only [hcols]
  have key := forLoop_inv (fun j (s : Matrix × Matrix) =>
      s.1.m_rows = n ∧ s.1.m_cols = n ∧ s.2.m_rows = n ∧ s.2.m_cols = n ∧
      (∀ r c, r < n → c < j → s.2.item r c = if r = c then 1 else 0) ∧
      (toQ n s.1).det ≠ 0 ∧ toQ n s.2 = toQ n s.1 * toQ n M) 0 n (gjColumn n)
      (R.identityMatrix n, M) (Nat.zero_le _) ?_ ?_
  · obtain ⟨k1, k2, k3, k4, k5, -, k7⟩ := key
    refine ⟨k1, k2, k3, k4, k5, ?_⟩
    rw [← k7]
    ext r c
    rw [toQ_apply, k5 r c r.2 c.2, Matrix.one_apply]
    by_cases h : r = c
    · subst h
      simp
    · have : ¬ ((r : Nat) = (c : Nat)) := fun h0 => h (Fin.ext h0)
      simp [h, this]
  · refine ⟨(identityMatrix_spec R n).1, (identityMatrix_spec R n).2.1, hr, hc,
      fun r c _ h => absurd h (Nat.not_lt_zero _), ?_, ?_⟩
    · rw [toQ_identityMatrix]
      simp
    · rw [toQ_identityMatrix, Matrix.one_mul]
  · rintro j ⟨R1, A1⟩ - hj ⟨h1, h2, h3, h4, h5, h6, h7⟩
    simp only at h1 h2 h3 h4 h5 h6 h7
    have hdetA : (toQ n A1).det ≠ 0 := by
      rw [h7, Matrix.det_mul]
      exact mul_ne_zero h6 hdet
    obtain ⟨g1, g2, g3, g4, g5, E, hE, g6, g7⟩ := gjColumn_spec n j hj R1 A1 h1 h2 h3 h5 hdetA
    refine ⟨g1, g2, g3, g4.trans h4, g5, ?_, ?_⟩
    · rw [g6, Matrix.det_mul]
      exact mul_ne_zero hE h6
    · rw [g7, g6, h7, Matrix.mul_assoc]

/-! ## Claims on the Gauss-Jordan inversion -/

/-- C1: for a non-singular `n × n` matrix `M` (exact arithmetic) and any receiver `R`,
after `R.inverseByGaussJordanElimination(A)` with `A` equal to `M` the receiver is an
`n × n` matrix with `M × R = I` and `R × M = I`. -/
theorem gaussJordan_round_trip (n : Nat) (R M : Matrix) (hr : M.m_rows = n)
    (hc : M.m_cols = n) (hdet : (toQ n M).det ≠ 0) :
    (R.inverseByGaussJordanElimination M).1.m_rows = n ∧
    (R.inverseByGaussJordanElimination M).1.m_cols = n ∧
    toQ n M * toQ n (R.inverseByGaussJordanElimination M).1 = 1 ∧
    toQ n (R.inverseByGaussJordanElimination M).1 * toQ n M = 1 := by
  obtain ⟨h1, h2, -, -, -, h6⟩ := gaussJordan_spec n R M hr hc hdet
  exact ⟨h1, h2, Matrix.mul_eq_one_comm.mp h6, h6⟩

/-- The matrix `[[4,7,2],[3,6,1],[2,5,3]]` is non-singular: its determinant is `9`. -/
theorem det_scenario_ne_zero :
    (toQ 3 (ofRows [[4, 7, 2], [3, 6, 1], [2, 5, 3]])).det ≠ 0 := by
  rw [Matrix.det_fin_three]
  simp [toQ, item, ofRows, Row.column]
  norm_num

/-- Witness of C1 on `M = [[4,7,2],[3,6,1],[2,5,3]]`. -/
theorem gaussJordan_round_trip_witness :
    toQ 3 (ofRows [[4, 7, 2], [3, 6, 1], [2, 5, 3]])
        * toQ 3 ((mk0 0 0).inverseByGaussJordanElimination
            (ofRows [[4, 7, 2], [3, 6, 1], [2, 5, 3]])).1 = 1 ∧
    toQ 3 ((mk0 0 0).inverseByGaussJordanElimination
            (ofRows [[4, 7, 2], [3, 6, 1], [2, 5, 3]])).1
        * toQ 3 (ofRows [[4, 7, 2], [3, 6, 1], [2, 5, 3]]) = 1 :=
  (gaussJordan_round_trip 3 (mk0 0 0) (ofRows [[4, 7, 2], [3, 6, 1], [2, 5, 3]]) rfl rfl
    det_scenario_ne_zero).2.2

/-- C10: for a non-singular `n × n` matrix `A` (exact arithmetic), after
`R.inverseByGaussJordanElimination(A)` the argument `A` is still `n × n` and holds the
identity: ones on the diagonal, zeros elsewhere. -/
theorem gaussJordan_argument_identity (n : Nat) (R A : Matrix) (hr : A.m_rows = n)
    (hc : A.m_cols = n) (hdet : (toQ n A).det ≠ 0) :
    (R.inverseByGaussJordanElimination A).2.m_rows = n ∧
    (R.inverseByGaussJordanElimination A).2.m_cols = n ∧
    ∀ i j, i < n → j < n →
      (R.inverseByGaussJordanElimination A).2.item i j = if i = j then 1 else 0 := by
  obtain ⟨-, -, h3, h4, h5, -⟩ := gaussJordan_spec n R A hr hc hdet
  exact ⟨h3, h4, h5⟩

/-- Witness of C10 on `A = [[4,7,2],[3,6,1],[2,5,3]]`, at the cells `(1, 1)` and `(1, 2)`. -/
theorem gaussJordan_argument_identity_witness :
    ((mk0 0 0).inverseByGaussJordanElimination
        (ofRows [[4, 7, 2], [3, 6, 1], [2, 5, 3]])).2.item 1 1 = 1 ∧
    ((mk0 0 0).inverseByGaussJordanElimination
        (ofRows [[4, 7, 2], [3, 6, 1], [2, 5, 3]])).2.item 1 2 = 0 :=
  ⟨(gaussJordan_argument_identity 3 (mk0 0 0) (ofRows [[4, 7, 2], [3, 6, 1], [2, 5, 3]]) rfl rfl
      det_scenario_ne_zero).2.2 1 1 (by decide) (by decide),
   (gaussJordan_argument_identity 3 (mk0 0 0) (ofRows [[4, 7, 2], [3, 6, 1], [2, 5, 3]]) rfl rfl
      det_scenario_ne_zero).2.2 1 2 (by decide) (by decide)⟩

/-! ## LU decomposition: the phases of one column -/

/-- A loop that subtracts one term per index subtracts the sum of the terms. -/
theorem forLoop_sub_sum (lo hi : Nat) (f : Nat → ℚ) (s : ℚ) (h : lo ≤ hi) :
    forLoop lo hi (fun j sum => sum - f j) s = s - ∑ m in Finset.Ico lo hi, f m := by
  refine forLoop_inv (fun i (t : ℚ) => t = s - ∑ m in Finset.Ico lo i, f m) lo hi _ s h ?_ ?_
  · simp
  · intro i t h1 _ h3
    rw [h3, Finset.sum_Ico_succ_top h1]
    ring

/-- Effect of subtracting `e` times row `j` from row `i ≠ j`, cell by cell over the
columns `[lo, n)`. -/
theorem axpyRowLoopFrom_spec (M : Matrix) (lo n i j : Nat) (e : ℚ) (hij : i ≠ j)
    (hlo : lo ≤ n) :
    ∀ r c, (forLoop lo n
        (fun k (M : Matrix) => M.setItem i k (M.item i k - e * M.item j k)) M).item r c
      = if r = i ∧ lo ≤ c ∧ c < n then M.item i c - e * M.item j c else M.item r c := by
  refine forLoop_inv (fun m (Q : Matrix) =>
      ∀ r c, Q.item r c
        = if r = i ∧ lo ≤ c ∧ c < m then M.item i c - e * M.item j c else M.item r c)
      lo n _ _ hlo ?_ ?_
  · intro r c
    rw [if_neg (fun h => by omega)]
  · rintro m Q hm1 - h3 r c
    rw [item_setItem]
    by_cases h : r = i ∧ c = m
    · obtain ⟨rfl, rfl⟩ := h
      have hj : Q.item j c = M.item j c := by
        rw [h3 j c, if_neg (fun h0 => hij h0.1.symm)]
      have hi : Q.item r c = M.item r c := by
        rw [h3 r c, if_neg (fun h0 => by omega)]
      rw [if_pos ⟨rfl, rfl⟩, if_pos ⟨rfl, hm1, Nat.lt_succ_self _⟩, hj, hi]
    · rw [if_neg h, h3 r c]
      have : (r = i ∧ lo ≤ c ∧ c < m + 1) ↔ (r = i ∧ lo ≤ c ∧ c < m) := by
        constructor
        · rintro ⟨e1, e2, e3⟩
          refine ⟨e1, e2, ?_⟩
          rcases Nat.lt_or_ge c m with hlt | hge
          · exact hlt
          · exact absurd ⟨e1, by omega⟩ h
        · rintro ⟨e1, e2, e3⟩
          exact ⟨e1, e2, by omega⟩
      simp only [this]

/-- Result of the pivot search of `ludcmp` at column `j` with positive scalings: the row
`imax` lies in `[j, n)`, and its entry in column `j` is not zero as soon as some row of
`[j, n)` has a nonzero entry there. -/
theorem ludcmpPivotSearch_spec (a : Matrix) (vv : Nat → ℚ) (n j : Nat) (hj : j < n)
    (hvv : ∀ i, i < n → 0 < vv i) :
    j ≤ (ludcmpPivotSearch a vv n j).2 ∧ (ludcmpPivotSearch a vv n j).2 < n ∧
    ((∃ r, j ≤ r ∧ r < n ∧ a.item r j ≠ 0) → a.item (ludcmpPivotSearch a vv n j).2 j ≠ 0) := by
  have key : j ≤ (ludcmpPivotSearch a vv n j).2 ∧
      ((ludcmpPivotSearch a vv n j).2 < n ∨ (ludcmpPivotSearch a vv n j).2 = j) ∧
      ((ludcmpPivotSearch a vv n j).1 = 0 ∨ (ludcmpPivotSearch a vv n j).1
        = vv (ludcmpPivotSearch a vv n j).2 * |a.item (ludcmpPivotSearch a vv n j).2 j|) ∧
      ∀ r, j ≤ r → r < n → vv r * |a.item r j| ≤ (ludcmpPivotSearch a vv n j).1 := by
    unfold ludcmpPivotSearch
    refine forLoop_inv (fun i (p : ℚ × Nat) =>
      j ≤ p.2 ∧ (p.2 < i ∨ p.2 = j) ∧
      (p.1 = 0 ∨ p.1 = vv p.2 * |a.item p.2 j|) ∧
      ∀ r, j ≤ r → r < i → vv r * |a.item r j| ≤ p.1) j n _ _ (Nat.le_of_lt hj) ?_ ?_
    · exact ⟨le_refl _, Or.inr rfl, Or.inl rfl, fun r h1 h2 => absurd h2 (by omega)⟩
    · rintro i p hi1 hi2 ⟨h1, h2, h3, h4⟩
      by_cases hgt : vv i * |a.item i j| > p.1
      · rw [if_pos hgt]
        refine ⟨hi1, Or.inl (Nat.lt_succ_self _), Or.inr rfl, fun r hr1 hr2 => ?_⟩
        rcases Nat.lt_or_ge r i with hlt | hge
        · exact le_trans (h4 r hr1 hlt) (le_of_lt hgt)
        · have : r = i := by omega
          subst this
          exact le_refl _
      · rw [if_neg hgt]
        refine ⟨h1, by omega, h3, fun r hr1 hr2 => ?_⟩
        rcases Nat.lt_or_ge r i with hlt | hge
        · exact h4 r hr1 hlt
        · have : r = i := by omega
          subst this
          exact not_lt.mp hgt
  obtain ⟨k1, k2, k3, k4⟩ := key
  refine ⟨k1, by omega, ?_⟩
  rintro ⟨r, hr1, hr2, hr3⟩ hz
  have hbig : (ludcmpPivotSearch a vv n j).1 = 0 := by
    rcases k3 with h | h
    · exact h
    · rw [h, hz, abs_zero, mul_zero]
  have h1 := k4 r hr1 hr2
  rw [hbig] at h1
  have h2 : 0 < vv r * |a.item r j| := mul_pos (hvv r hr2) (abs_pos.mpr hr3)
  exact absurd h1 (not_le.mpr h2)

/-- Effect of the row interchange of `ludcmp`: rows `imax` and `j` are exchanged in the
columns `[0, n)`. -/
theorem ludcmpInterchange_spec (a : Matrix) (n imax j : Nat) :
    ∀ r c, (ludcmpInterchange a n imax j).item r c
      = if c < n then
          (if r = j then a.item imax c else if r = imax then a.item j c else a.item r c)
        else a.item r c := by
  unfold ludcmpInterchange
  refine forLoop_inv (fun k (Q : Matrix) =>
      ∀ r c, Q.item r c
        = if c < k then
            (if r = j then a.item imax c else if r = imax then a.item j c else a.item r c)
          else a.item r c) 0 n _ _ (Nat.zero_le _) ?_ ?_
  · intro r c
    simp
  · rintro k Q - - h3 r c
    simp only [item_setItem]
    have hA : Q.item imax k = a.item imax k := by rw [h3]; simp
    have hB : Q.item j k = a.item j k := by rw [h3]; simp
    by_cases hc : c = k
    · subst hc
      by_cases hrj : r = j
      · subst hrj
        simp [hA]
      · by_cases hri : r = imax
        · subst hri
          simp [hrj, hB]
        · simp [hrj, hri, h3 r c]
    · have hlt : (c < k + 1) ↔ (c < k) := by omega
      simp only [hc, and_false, if_false, hlt]
      exact h3 r c

/-- Effect of the reduction of `ludcmp` at column `j`: every row `r` of `(j, n)` gets
its multiplier `a(r,j) / a(j,j)` in column `j` and loses the multiplier times row `j` in
the columns `(j, n)`; nothing else changes. -/
theorem ludcmpReduce_spec (a : Matrix) (n j : Nat) :
    ∀ r c, (ludcmpReduce a n j).item r c
      = if j < r ∧ r < n then
          (if c = j then a.item r j / a.item j j
           else if j < c ∧ c < n then a.item r c - a.item r j / a.item j j * a.item j c
           else a.item r c)
        else a.item r c := by
  unfold ludcmpReduce
  rcases Nat.lt_or_ge n (j + 1) with hlt | hge
  · rw [forLoop_empty _ _ _ _ (Nat.le_of_lt hlt)]
    intro r c
    rw [if_neg (fun h => by omega)]
  refine forLoop_inv (fun i (Q : Matrix) =>
      ∀ r c, Q.item r c
        = if j < r ∧ r < i then
            (if c = j then a.item r j / a.item j j
             else if j < c ∧ c < n then a.item r c - a.item r j / a.item j j * a.item j c
             else a.item r c)
          else a.item r c) (j + 1) n _ _ hge ?_ ?_
  · intro r c
    rw [if_neg (fun h => by omega)]
  · rintro i Q hi1 hi2 h3 r c
    have hij : i ≠ j := by omega
    have hji : ¬ j = i := fun h => hij h.symm
    have hQi : ∀ c0, Q.item i c0 = a.item i c0 := fun c0 => by
      rw [h3 i c0, if_neg (fun h => by omega)]
    have hQj : ∀ c0, Q.item j c0 = a.item j c0 := fun c0 => by
      rw [h3 j c0, if_neg (fun h => by omega)]
    simp only []
    rw [axpyRowLoopFrom_spec _ (j + 1) n i j _ hij hge r c]
    simp only [item_setItem]
    by_cases hri : r = i
    · rw [hri]
      have h1 : j < i ∧ i < i + 1 := ⟨by omega, by omega⟩
      by_cases hcj : c = j
      · rw [hcj]
        have h2 : ¬ (j + 1 ≤ j ∧ j < n) := fun h => by omega
        simp only [h1, h2, and_false, and_self, if_true, if_false, hQi, hQj]
      · by_cases hc2 : j + 1 ≤ c ∧ c < n
        · have h3 : j < c ∧ c < n := ⟨by omega, hc2.2⟩
          simp only [h1, hc2, h3, hcj, hji, and_false, false_and, and_self, if_true, if_false,
            hQi, hQj]
        · have h3 : ¬ (j < c ∧ c < n) := fun h => hc2 ⟨by omega, h.2⟩
          simp only [h1, hc2, h3, hcj, and_false, and_self, if_true, if_false, hQi]
    · rw [if_neg (fun h => hri h.1), if_neg (fun h => hri h.1), h3 r c]
      have : (j < r ∧ r < i + 1) ↔ (j < r ∧ r < i) := by
        constructor
        · rintro ⟨e1, e2⟩
          exact ⟨e1, by omega⟩
        · rintro ⟨e1, e2⟩
          exact ⟨e1, by omega⟩
      simp only [this]

/-! ## LU decomposition: the factors under one column pass -/

/-- Clearing column `j` of a mathematical matrix with the multipliers `u`. -/
theorem rowElim_eq (n j : Nat) (hj : j < n) (u : Nat → ℚ) (X Y : QMat n)
    (h : ∀ r c : Fin n, Y r c
      = if (r : Nat) ≠ j then X r c - u r * X ⟨j, hj⟩ c else X r c) :
    Y = (1 - elimMatrix n j u) * X := by
  ext r c
  rw [h r c, Matrix.sub_mul, Matrix.one_mul, Matrix.sub_apply, Matrix.mul_apply]
  rw [Finset.sum_eq_single (⟨j, hj⟩ : Fin n)]
  · by_cases hr : (r : Nat) = j
    · simp [elimMatrix, hr]
    · simp [elimMatrix, hr]
  · intro m _ hm
    have : ¬ ((m : Nat) = j) := fun h0 => hm (Fin.ext h0)
    simp [elimMatrix, this]
  · intro h0
    exact absurd (Finset.mem_univ _) h0

/-- Adding to column `j` of a mathematical matrix the combination of the other columns
with the coefficients `u`. -/
theorem colElim_eq (n j : Nat) (u : Nat → ℚ) (X Y : QMat n)
    (h : ∀ r m : Fin n, Y r m
      = X r m + if (m : Nat) = j then
          ∑ t : Fin n, X r t * (if (t : Nat) ≠ j then u t else 0) else 0) :
    Y = X * (1 + elimMatrix n j u) := by
  ext r m
  rw [h r m, Matrix.mul_add, Matrix.mul_one, Matrix.add_apply, Matrix.mul_apply]
  congr 1
  by_cases hm : (m : Nat) = j
  · rw [if_pos hm]
    refine Finset.sum_congr rfl (fun t _ => ?_)
    by_cases ht : (t : Nat) = j
    · simp [elimMatrix, hm, ht]
    · simp [elimMatrix, hm, ht]
  · rw [if_neg hm]
    symm
    refine Finset.sum_eq_zero (fun t _ => ?_)
    simp [elimMatrix, hm]

/-- A permutation that fixes every index before `j` keeps the indices from `j` on. -/
theorem perm_ge_of_fix_lt {n : Nat} (σ : Equiv.Perm (Fin n)) (j : Nat)
    (hfix : ∀ x : Fin n, (x : Nat) < j → σ x = x) (r : Fin n) (hr : j ≤ (r : Nat)) :
    j ≤ ((σ r : Fin n) : Nat) := by
  by_contra hlt
  have h1 : σ (σ r) = σ r := hfix (σ r) (by omega)
  have h2 : σ r = r := σ.injective h1
  rw [h2] at hlt
  exact hlt hr

/-- Under a permutation of the rows from `j` on, the lower factor is permuted in rows
and columns. -/
theorem luLower_perm (n j : Nat) (a a1 : Matrix) (σ : Equiv.Perm (Fin n))
    (hfix : ∀ x : Fin n, (x : Nat) < j → σ x = x)
    (h : ∀ r c : Fin n, a1.item r c = a.item (σ r) c) :
    luLower n j a1 = (luLower n j a).submatrix σ σ := by
  ext r m
  simp only [luLower, Matrix.submatrix_apply]
  by_cases hm : (m : Nat) < j
  · have hσm : σ m = m := hfix m hm
    rw [hσm]
    by_cases hrm : r = m
    · rw [if_pos hrm, if_pos (by rw [hrm]; exact hσm)]
    · have hne : ¬ (σ r = m) := fun h0 => hrm (σ.injective (h0.trans hσm.symm))
      rw [if_neg hrm, if_neg hne, h r m]
      have hiff : ((m : Nat) < (r : Nat) ∧ (m : Nat) < j)
          ↔ ((m : Nat) < ((σ r : Fin n) : Nat) ∧ (m : Nat) < j) := by
        rcases Nat.lt_or_ge (r : Nat) j with hlt | hge
        · rw [hfix r hlt]
        · have := perm_ge_of_fix_lt σ j hfix r hge
          constructor
          · rintro ⟨-, e2⟩
            exact ⟨by omega, e2⟩
          · rintro ⟨-, e2⟩
            exact ⟨by omega, e2⟩
      simp only [hiff]
  · have hσm : j ≤ ((σ m : Fin n) : Nat) := perm_ge_of_fix_lt σ j hfix m (by omega)
    have h1 : ¬ ((m : Nat) < (r : Nat) ∧ (m : Nat) < j) := fun h0 => hm h0.2
    have h2 : ¬ (((σ m : Fin n) : Nat) < ((σ r : Fin n) : Nat) ∧ ((σ m : Fin n) : Nat) < j) :=
      fun h0 => by omega
    rw [if_neg h1, if_neg h2]
    by_cases hrm : r = m
    · rw [if_pos hrm, if_pos (by rw [hrm])]
    · rw [if_neg hrm, if_neg (fun h0 => hrm (σ.injective h0))]

/-- Under a permutation of the rows from `j` on, the upper part is permuted in rows. -/
theorem luUpper_perm (n j : Nat) (a a1 : Matrix) (σ : Equiv.Perm (Fin n))
    (hfix : ∀ x : Fin n, (x : Nat) < j → σ x = x)
    (h : ∀ r c : Fin n, a1.item r c = a.item (σ r) c) :
    luUpper n j a1 = (luUpper n j a).submatrix σ id := by
  ext r m
  simp only [luUpper, Matrix.submatrix_apply, id]
  rw [h r m]
  rcases Nat.lt_or_ge (r : Nat) j with hlt | hge
  · rw [hfix r hlt]
  · have := perm_ge_of_fix_lt σ j hfix r hge
    have hiff : (((r : Nat) < j ∧ (r : Nat) ≤ (m : Nat)) ∨ (j ≤ (r : Nat) ∧ j ≤ (m : Nat)))
        ↔ ((((σ r : Fin n) : Nat) < j ∧ ((σ r : Fin n) : Nat) ≤ (m : Nat))
          ∨ (j ≤ ((σ r : Fin n) : Nat) ∧ j ≤ (m : Nat))) := by
      constructor
      · rintro (⟨e1, -⟩ | ⟨-, e2⟩)
        · omega
        · exact Or.inr ⟨this, e2⟩
      · rintro (⟨e1, -⟩ | ⟨-, e2⟩)
        · omega
        · exact Or.inr ⟨hge, e2⟩
    simp only [hiff]

/-- After the reduction at column `j`, the upper part is the former one with column `j`
cleared below the diagonal. -/
theorem luUpper_reduce (n j : Nat) (hj : j < n) (a1 a2 : Matrix) (hp : a1.item j j ≠ 0)
    (h : ∀ r c, a2.item r c
      = if j < r ∧ r < n then
          (if c = j then a1.item r j / a1.item j j
           else if j < c ∧ c < n then a1.item r c - a1.item r j / a1.item j j * a1.item j c
           else a1.item r c)
        else a1.item r c) :
    luUpper n (j + 1) a2
      = (1 - elimMatrix n j (fun r => if j < r then a1.item r j / a1.item j j else 0))
        * luUpper n j a1 := by
  refine rowElim_eq n j hj _ _ _ (fun r c => ?_)
  simp only [luUpper]
  have hr := r.2
  have hc := c.2
  rw [h r c]
  rcases Nat.lt_trichotomy (r : Nat) j with hlt | heq | hgt
  · have h1 : ¬ (j < (r : Nat) ∧ (r : Nat) < n) := fun h0 => by omega
    have h2 : ¬ (j < (r : Nat)) := by omega
    have h3 : (r : Nat) ≠ j := by omega
    have hiff : (((r : Nat) < j + 1 ∧ (r : Nat) ≤ (c : Nat)) ∨ (j + 1 ≤ (r : Nat) ∧ j + 1 ≤ (c : Nat)))
        ↔ (((r : Nat) < j ∧ (r : Nat) ≤ (c : Nat)) ∨ (j ≤ (r : Nat) ∧ j ≤ (c : Nat))) := by
      constructor
      · rintro (⟨-, e2⟩ | ⟨e1, -⟩)
        · exact Or.inl ⟨hlt, e2⟩
        · omega
      · rintro (⟨-, e2⟩ | ⟨e1, -⟩)
        · exact Or.inl ⟨by omega, e2⟩
        · omega
    simp only [h1, h2, h3, hiff, if_false, if_true, ne_eq, not_false_eq_true, zero_mul, sub_zero,
      false_and]
  · have h1 : ¬ (j < (r : Nat) ∧ (r : Nat) < n) := fun h0 => by omega
    have h3 : ¬ ((r : Nat) ≠ j) := fun h0 => h0 heq
    have hiff : (((r : Nat) < j + 1 ∧ (r : Nat) ≤ (c : Nat)) ∨ (j + 1 ≤ (r : Nat) ∧ j + 1 ≤ (c : Nat)))
        ↔ (((r : Nat) < j ∧ (r : Nat) ≤ (c : Nat)) ∨ (j ≤ (r : Nat) ∧ j ≤ (c : Nat))) := by
      constructor
      · rintro (⟨-, e2⟩ | ⟨e1, -⟩)
        · exact Or.inr ⟨by omega, by omega⟩
        · omega
      · rintro (⟨e1, -⟩ | ⟨-, e2⟩)
        · omega
        · exact Or.inl ⟨by omega, by omega⟩
    simp only [h1, h3, hiff, if_false]
  · have h1 : j < (r : Nat) ∧ (r : Nat) < n := ⟨hgt, hr⟩
    have h3 : (r : Nat) ≠ j := by omega
    have h4 : ¬ ((r : Nat) < j) := by omega
    have h5 : ¬ ((r : Nat) < j + 1) := by omega
    have h6 : j + 1 ≤ (r : Nat) := by omega
    have h7 : j ≤ (r : Nat) := by omega
    simp only [h1, h3, h4, h5, h6, h7, hgt, if_true, ne_eq, not_false_eq_true, false_and,
      true_and, false_or, lt_irrefl, le_refl]
    rcases Nat.lt_trichotomy (c : Nat) j with hclt | hceq | hcgt
    · have g1 : ¬ (j + 1 ≤ (c : Nat)) := by omega
      have g2 : ¬ (j ≤ (c : Nat)) := by omega
      simp only [g1, g2, if_false, mul_zero, sub_zero]
    · have g1 : ¬ (j + 1 ≤ (c : Nat)) := by omega
      have g2 : j ≤ (c : Nat) := by omega
      simp only [g1, g2, if_false, if_true, hceq]
      field_simp
    · have g1 : j + 1 ≤ (c : Nat) := by omega
      have g2 : j ≤ (c : Nat) := by omega
      have g3 : ¬ ((c : Nat) = j) := by omega
      have g4 : j < (c : Nat) ∧ (c : Nat) < n := ⟨hcgt, hc⟩
      simp only [g1, g2, g3, g4, if_false, if_true, and_self, true_and]

/-- After the reduction at column `j`, the lower factor is the former one with the
multipliers of column `j` added. -/
theorem luLower_reduce (n j : Nat) (a1 a2 : Matrix)
    (h : ∀ r c, a2.item r c
      = if j < r ∧ r < n then
          (if c = j then a1.item r j / a1.item j j
           else if j < c ∧ c < n then a1.item r c - a1.item r j / a1.item j j * a1.item j c
           else a1.item r c)
        else a1.item r c) :
    luLower n (j + 1) a2
      = luLower n j a1
        * (1 + elimMatrix n j (fun r => if j < r then a1.item r j / a1.item j j else 0)) := by
  refine colElim_eq n j _ _ _ (fun r m => ?_)
  have hr := r.2
  have hm := m.2
  have hsum : ∑ t : Fin n, luLower n j a1 r t
      * (if (t : Nat) ≠ j then (if j < (t : Nat) then a1.item t j / a1.item j j else 0) else 0)
      = if j < (r : Nat) then a1.item r j / a1.item j j else 0 := by
    rw [Finset.sum_eq_single r]
    · by_cases hrj : j < (r : Nat)
      · have : (r : Nat) ≠ j := by omega
        simp [luLower, hrj, this]
      · simp [luLower, hrj]
    · intro t _ htr
      by_cases htj : j < (t : Nat)
      · have h1 : ¬ (r = t) := fun h0 => htr h0.symm
        have h2 : ¬ ((t : Nat) < (r : Nat) ∧ (t : Nat) < j) := fun h0 => by omega
        simp only [luLower, h1, h2, if_false, zero_mul]
      · simp only [htj, if_false, ite_self, mul_zero]
    · intro h0
      exact absurd (Finset.mem_univ _) h0
  rw [hsum]
  simp only [luLower]
  by_cases hrm : r = m
  · rw [if_pos hrm, if_pos hrm]
    have : ¬ ((m : Nat) = j ∧ j < (r : Nat)) := fun h0 => by
      rw [hrm] at h0
      omega
    by_cases hmj : (m : Nat) = j
    · have : ¬ (j < (r : Nat)) := fun h0 => this ⟨hmj, h0⟩
      simp only [hmj, this, if_true, if_false, add_zero]
    · simp only [hmj, if_false, add_zero]
  · rw [if_neg hrm, if_neg hrm, h r m]
    rcases Nat.lt_trichotomy (m : Nat) j with hlt | heq | hgt
    · have g1 : ¬ ((m : Nat) = j) := by omega
      have g2 : (m : Nat) < j + 1 := by omega
      have g3 : ¬ (j < (m : Nat) ∧ (m : Nat) < n) := fun h0 => by omega
      simp only [g1, g2, g3, hlt, and_true, if_false, add_zero, ite_self]
    · have g2 : (m : Nat) < j + 1 := by omega
      have g3 : ¬ ((m : Nat) < j) := by omega
      by_cases hjr : j < (r : Nat)
      · have g4 : (m : Nat) < (r : Nat) := by omega
        have g5 : j < (r : Nat) ∧ (r : Nat) < n := ⟨hjr, hr⟩
        simp only [heq, g2, g3, g4, g5, hjr, and_true, and_false, and_self, if_true, if_false,
          zero_add, lt_irrefl, Nat.lt_succ_self]
      · have g4 : ¬ ((m : Nat) < (r : Nat)) := by omega
        simp only [heq, g4, hjr, false_and, and_false, if_true, if_false, add_zero]
    · have g1 : ¬ ((m : Nat) = j) := by omega
      have g2 : ¬ ((m : Nat) < j + 1) := by omega
      have g3 : ¬ ((m : Nat) < j) := by omega
      simp only [g1, g2, g3, and_false, if_false, add_zero]

/-- One column pass keeps the product of the factors up to the interchange of rows. -/
theorem luFactors_column (n j : Nat) (hj : j < n) (a a1 a2 : Matrix)
    (σ : Equiv.Perm (Fin n)) (hfix : ∀ x : Fin n, (x : Nat) < j → σ x = x)
    (h1 : ∀ r c : Fin n, a1.item r c = a.item (σ r) c) (hp : a1.item j j ≠ 0)
    (h2 : ∀ r c, a2.item r c
      = if j < r ∧ r < n then
          (if c = j then a1.item r j / a1.item j j
           else if j < c ∧ c < n then a1.item r c - a1.item r j / a1.item j j * a1.item j c
           else a1.item r c)
        else a1.item r c) :
    luLower n (j + 1) a2 * luUpper n (j + 1) a2
      = (luLower n j a * luUpper n j a).submatrix σ id := by
  rw [luLower_reduce n j a1 a2 h2, luUpper_reduce n j hj a1 a2 hp h2,
    luLower_perm n j a a1 σ hfix h1, luUpper_perm n j a a1 σ hfix h1,
    ← Matrix.submatrix_mul_equiv (luLower n j a) (luUpper n j a) σ σ id]
  have hN : ∀ u : Nat → ℚ, (1 + elimMatrix n j u) * (1 - elimMatrix n j u) = 1 := fun u => by
    simp only [Matrix.add_mul, Matrix.mul_sub, Matrix.one_mul, Matrix.mul_one,
      elimMatrix_mul_self]
    abel
  rw [Matrix.mul_assoc, ← Matrix.mul_assoc (1 + elimMatrix n j _), hN, Matrix.one_mul]

/-! ## LU decomposition: the loop over columns -/

/-- The recorded permutation depends on the entries of `indx` before `j` only. -/
theorem luPerm_congr (indx indx0 : Nat → Nat) (j : Nat) (h : ∀ t, t < j → indx t = indx0 t) :
    luPerm indx j = luPerm indx0 j := by
  induction j with
  | zero => rfl
  | succ j ih =>
    rw [luPerm, luPerm, ih (fun t ht => h t (Nat.lt_succ_of_lt ht)), h j (Nat.lt_succ_self j)]

/-- An interchange of two indices below `n`, on the indices and on the naturals. -/
theorem fin_swap_val {n : Nat} (a b r : Fin n) :
    ((Equiv.swap a b r : Fin n) : Nat) = Equiv.swap (a : Nat) (b : Nat) (r : Nat) := by
  rw [Equiv.swap_apply_def, Equiv.swap_apply_def]
  by_cases h1 : r = a
  · rw [if_pos h1, if_pos (congrArg (fun t : Fin n => (t : Nat)) h1)]
  · have h1n : ¬ ((r : Nat) = (a : Nat)) := fun h0 => h1 (Fin.ext h0)
    rw [if_neg h1, if_neg h1n]
    by_cases h2 : r = b
    · rw [if_pos h2, if_pos (congrArg (fun t : Fin n => (t : Nat)) h2)]
    · have h2n : ¬ ((r : Nat) = (b : Nat)) := fun h0 => h2 (Fin.ext h0)
      rw [if_neg h2, if_neg h2n]

/-- A matrix of permuted rows of a non-singular matrix is non-singular. -/
theorem det_submatrix_perm_ne_zero {n : Nat} (X : QMat n) (π : Equiv.Perm (Fin n))
    (h : X.det ≠ 0) : (X.submatrix π id).det ≠ 0 := by
  rw [Matrix.det_permute]
  refine mul_ne_zero ?_ h
  rcases Int.units_eq_one_or (Equiv.Perm.sign π) with h1 | h1
  · rw [h1]
    simp
  · rw [h1]
    simp

/-- When the factors multiply to a non-singular matrix, the column `j` has a nonzero
entry in the rows `[j, n)`. -/
theorem luUpper_column_ne_zero (n j : Nat) (hj : j < n) (a : Matrix)
    (h : (luLower n j a * luUpper n j a).det ≠ 0) :
    ∃ r, j ≤ r ∧ r < n ∧ a.item r j ≠ 0 := by
  by_contra hne
  push_neg at hne
  apply h
  rw [Matrix.det_mul]
  have : (luUpper n j a).det = 0 := by
    refine det_eq_zero_of_zero_block _ j (fun i k hi hk => ?_) hj
    simp only [luUpper]
    rcases Nat.lt_or_ge (k : Nat) j with hlt | hge
    · rw [if_neg (fun h0 => by omega)]
    · have hkj : (k : Nat) = j := by omega
      rw [hkj, hne i hi i.2]
      simp
  rw [this, mul_zero]

/-- The column pass of `ludcmp`, unfolded, when the pivot brought to the diagonal is not
zero. -/
theorem ludcmpColumn_eq (n j : Nat) (s : LUState)
    (hp : (if j ≠ (ludcmpPivotSearch s.a s.vv n j).2 then
        ludcmpInterchange s.a n (ludcmpPivotSearch s.a s.vv n j).2 j else s.a).item j j ≠ 0) :
    ludcmpColumn n j s
      = { a := ludcmpReduce (if j ≠ (ludcmpPivotSearch s.a s.vv n j).2 then
            ludcmpInterchange s.a n (ludcmpPivotSearch s.a s.vv n j).2 j else s.a) n j,
          indx := Function.update s.indx j (ludcmpPivotSearch s.a s.vv n j).2,
          d := if j ≠ (ludcmpPivotSearch s.a s.vv n j).2 then -s.d else s.d,
          vv := if j ≠ (ludcmpPivotSearch s.a s.vv n j).2 then
            Function.update s.vv (ludcmpPivotSearch s.a s.vv n j).2 (s.vv j) else s.vv } := by
  unfold ludcmpColumn
  by_cases h : j ≠ (ludcmpPivotSearch s.a s.vv n j).2
  · rw [if_pos h] at hp
    simp only [h, if_true, ne_eq, not_false_eq_true]
    rw [if_neg hp]
  · rw [if_neg h] at hp
    simp only [h, if_false]
    rw [if_neg hp]

/-- The interchange of `ludcmp`, done or skipped, as a permutation of the rows: rows `j`
and `imax` are exchanged on the leading block. -/
theorem ludcmpInterchange_perm (n j imax : Nat) (hj : j < n) (hi : imax < n) (a : Matrix)
    (r c : Fin n) :
    (if j ≠ imax then ludcmpInterchange a n imax j else a).item r c
      = a.item ((Equiv.swap (⟨j, hj⟩ : Fin n) ⟨imax, hi⟩ r : Fin n) : Nat) c := by
  rw [fin_swap_val, Equiv.swap_apply_def]
  by_cases h : j ≠ imax
  · rw [if_pos h, ludcmpInterchange_spec a n imax j r c, if_pos c.2]
    by_cases h1 : (r : Nat) = j
    · simp only [h1, if_true]
    · simp only [h1, if_false]
      by_cases h2 : (r : Nat) = imax
      · simp only [h2, if_true]
      · simp only [h2, if_false]
  · have hji : j = imax := not_not.mp h
    rw [if_neg h]
    by_cases h1 : (r : Nat) = j
    · simp only [h1, if_true]
      rw [← hji]
    · simp only [h1, if_false]
      by_cases h2 : (r : Nat) = imax
      · exact absurd (h2.trans hji.symm) h1
      · simp only [h2, if_false]

/-- One pass of the loop over columns of `ludcmp` on a non-singular input keeps the
invariant. -/
theorem ludcmpColumn_spec (n j : Nat) (hj : j < n) (M0 : Matrix)
    (hdet : (toQ n M0).det ≠ 0) (s : LUState) (h : LUInv n M0 j s) :
    LUInv n M0 (j + 1) (ludcmpColumn n j s) := by
  obtain ⟨hvv, hindx, hpiv, π, hπ, hLU⟩ := h
  obtain ⟨p1, p2, p3⟩ := ludcmpPivotSearch_spec s.a s.vv n j hj hvv
  have hne : s.a.item (ludcmpPivotSearch s.a s.vv n j).2 j ≠ 0 := by
    refine p3 (luUpper_column_ne_zero n j hj s.a ?_)
    rw [hLU]
    exact det_submatrix_perm_ne_zero _ π hdet
  have hperm := ludcmpInterchange_perm n j (ludcmpPivotSearch s.a s.vv n j).2 hj p2 s.a
  have hfix : ∀ x : Fin n, (x : Nat) < j →
      Equiv.swap (⟨j, hj⟩ : Fin n) ⟨(ludcmpPivotSearch s.a s.vv n j).2, p2⟩ x = x := by
    intro x hx
    refine Equiv.swap_apply_of_ne_of_ne (fun h0 => ?_) (fun h0 => ?_)
    · have := congrArg (fun t : Fin n => (t : Nat)) h0
      simp only at this
      omega
    · have := congrArg (fun t : Fin n => (t : Nat)) h0
      simp only at this
      omega
  have hjj : (if j ≠ (ludcmpPivotSearch s.a s.vv n j).2 then
      ludcmpInterchange s.a n (ludcmpPivotSearch s.a s.vv n j).2 j else s.a).item j j ≠ 0 := by
    have := hperm ⟨j, hj⟩ ⟨j, hj⟩
    simp only [Equiv.swap_apply_left] at this
    rw [this]
    exact hne
  rw [ludcmpColumn_eq n j s hjj]
  have hred := ludcmpReduce_spec (if j ≠ (ludcmpPivotSearch s.a s.vv n j).2 then
      ludcmpInterchange s.a n (ludcmpPivotSearch s.a s.vv n j).2 j else s.a) n j
  refine ⟨?_, ?_, ?_, π * Equiv.swap (⟨j, hj⟩ : Fin n) ⟨(ludcmpPivotSearch s.a s.vv n j).2, p2⟩,
    ?_, ?_⟩
  · intro i hi
    simp only []
    by_cases h0 : j ≠ (ludcmpPivotSearch s.a s.vv n j).2
    · rw [if_pos h0]
      by_cases h1 : i = (ludcmpPivotSearch s.a s.vv n j).2
      · rw [h1, Function.update_same]
        exact hvv j hj
      · rw [Function.update_noteq h1]
        exact hvv i hi
    · rw [if_neg h0]
      exact hvv i hi
  · intro t ht
    simp only []
    by_cases h0 : t = j
    · rw [h0, Function.update_same]
      exact ⟨p1, p2⟩
    · rw [Function.update_noteq h0]
      exact hindx t (by omega)
  · intro t ht
    simp only []
    rw [hred t t, if_neg (fun h0 => by omega)]
    by_cases h0 : t = j
    · rw [h0]
      exact hjj
    · have htj : t < j := by omega
      have htn : t < n := by omega
      have := hperm ⟨t, htn⟩ ⟨t, htn⟩
      rw [hfix ⟨t, htn⟩ htj] at this
      rw [this]
      exact hpiv t htj
  · intro r
    simp only []
    rw [luPerm, Function.update_same, Equiv.Perm.mul_apply, Equiv.Perm.mul_apply, hπ,
      fin_swap_val,
      luPerm_congr (Function.update s.indx j (ludcmpPivotSearch s.a s.vv n j).2) s.indx j
        (fun t ht => Function.update_noteq (Nat.ne_of_lt ht) _ _)]
  · simp only []
    rw [luFactors_column n j hj s.a _ _ _ hfix hperm hjj hred, hLU]
    rfl

/-- The largest absolute value of row `i`, as the scaling pass of `ludcmp` computes it:
it is not negative and bounds every entry of the row. -/
theorem ludcmpRowMax_spec (a : Matrix) (n i : Nat) :
    0 ≤ forLoop 0 n (fun j (big : ℚ) => if |a.item i j| > big then |a.item i j| else big) 0 ∧
    ∀ c, c < n → |a.item i c|
      ≤ forLoop 0 n (fun j (big : ℚ) => if |a.item i j| > big then |a.item i j| else big) 0 := by
  refine forLoop_inv (fun j (big : ℚ) => 0 ≤ big ∧ ∀ c, c < j → |a.item i c| ≤ big)
    0 n _ _ (Nat.zero_le _) ?_ ?_
  · exact ⟨le_refl _, fun c h => absurd h (Nat.not_lt_zero _)⟩
  · rintro j big - - ⟨h1, h2⟩
    by_cases hgt : |a.item i j| > big
    · rw [if_pos hgt]
      refine ⟨abs_nonneg _, fun c hc => ?_⟩
      rcases Nat.lt_or_ge c j with hlt | hge
      · exact le_trans (h2 c hlt) (le_of_lt hgt)
      · have : c = j := by omega
        rw [this]
    · rw [if_neg hgt]
      refine ⟨h1, fun c hc => ?_⟩
      rcases Nat.lt_or_ge c j with hlt | hge
      · exact h2 c hlt
      · have : c = j := by omega
        rw [this]
        exact not_lt.mp hgt

/-- The scaling pass of `ludcmp` succeeds when every row has a nonzero entry, and the
scalings it leaves are positive. -/
theorem ludcmpScaling_spec (a : Matrix) (n : Nat) (vv0 : Nat → ℚ)
    (hrow : ∀ i, i < n → ∃ c, c < n ∧ a.item i c ≠ 0) :
    ∃ vv, ludcmpScaling a n vv0 = some vv ∧ ∀ i, i < n → 0 < vv i := by
  have key : ∃ vv, ludcmpScaling a n vv0 = some vv ∧ ∀ i, i < n → i < n → 0 < vv i := by
    unfold ludcmpScaling
    refine forLoop_inv (fun k (s : Option (Nat → ℚ)) =>
      ∃ vv, s = some vv ∧ ∀ i, i < k → i < n → 0 < vv i) 0 n _ _ (Nat.zero_le _) ?_ ?_
    · exact ⟨vv0, rfl, fun i h => absurd h (Nat.not_lt_zero _)⟩
    · rintro k s - hk ⟨vv, rfl, h2⟩
      simp only []
      obtain ⟨b1, b2⟩ := ludcmpRowMax_spec a n k
      obtain ⟨c, hc1, hc2⟩ := hrow k hk
      have hpos : 0 < forLoop 0 n
          (fun j (big : ℚ) => if |a.item k j| > big then |a.item k j| else big) 0 :=
        lt_of_lt_of_le (abs_pos.mpr hc2) (b2 c hc1)
      rw [if_neg (ne_of_gt hpos)]
      refine ⟨_, rfl, fun i hi hin => ?_⟩
      by_cases hik : i = k
      · rw [hik, Function.update_same]
        exact one_div_pos.mpr hpos
      · rw [Function.update_noteq hik]
        exact h2 i (by omega) hin
  obtain ⟨vv, h1, h2⟩ := key
  exact ⟨vv, h1, fun i hi => h2 i hi hi⟩

/-- Every row of a non-singular matrix has a nonzero entry. -/
theorem row_ne_zero_of_det (n : Nat) (M0 : Matrix) (hdet : (toQ n M0).det ≠ 0) :
    ∀ i, i < n → ∃ c, c < n ∧ M0.item i c ≠ 0 := by
  intro i hi
  by_contra hne
  push_neg at hne
  apply hdet
  refine Matrix.det_eq_zero_of_row_eq_zero (⟨i, hi⟩ : Fin n) (fun c => ?_)
  rw [toQ_apply]
  exact hne c c.2

/-- Before the first column the factors are the identity and the matrix itself. -/
theorem LUInv_zero (n : Nat) (M0 : Matrix) (indx : Nat → Nat) (d : ℚ) (vv : Nat → ℚ)
    (hvv : ∀ i, i < n → 0 < vv i) :
    LUInv n M0 0 { a := M0, indx := indx, d := d, vv := vv } := by
  refine ⟨hvv, fun t h => absurd h (Nat.not_lt_zero _), fun t h => absurd h (Nat.not_lt_zero _),
    1, fun r => rfl, ?_⟩
  have hL : luLower n 0 M0 = 1 := by
    ext r m
    simp only [luLower, Matrix.one_apply]
    by_cases h : r = m
    · rw [if_pos h, if_pos h]
    · rw [if_neg h, if_neg h, if_neg (fun h0 => absurd h0.2 (Nat.not_lt_zero _))]
  have hU : luUpper n 0 M0 = toQ n M0 := by
    ext r m
    simp only [luUpper, toQ_apply]
    rw [if_pos (Or.inr ⟨Nat.zero_le _, Nat.zero_le _⟩)]
  rw [hL, hU, Matrix.one_mul]
  rfl

/-- On a non-singular `n × n` input, `ludcmp` returns `true` and leaves the factors of
the permuted input, with nonzero pivots. -/
theorem ludcmp_spec (n : Nat) (M0 : Matrix) (indx0 : Nat → Nat) (d0 : ℚ)
    (hdet : (toQ n M0).det ≠ 0) :
    (ludcmp M0 n indx0 d0).1 = true ∧ LUInv n M0 n (ludcmp M0 n indx0 d0).2 := by
  obtain ⟨vv, h1, h2⟩ := ludcmpScaling_spec M0 n (fun _ => 0) (row_ne_zero_of_det n M0 hdet)
  unfold ludcmp
  simp only [h1]
  refine ⟨trivial, ?_⟩
  unfold ludcmpColumns
  exact forLoop_inv (fun j (s : LUState) => LUInv n M0 j s) 0 n (ludcmpColumn n) _
    (Nat.zero_le _) (LUInv_zero n M0 indx0 1 vv h2)
    (fun j s _ hj h => ludcmpColumn_spec n j hj M0 hdet s h)

/-! ## Substitution -/

/-- The permutation recorded by `j + 1` columns sends `r` where the permutation recorded
by `j` columns sends the image of `r` under the interchange of `j` and `indx j`. -/
theorem luPerm_succ_apply (indx : Nat → Nat) (j r : Nat) :
    luPerm indx (j + 1) r = luPerm indx j (Equiv.swap j (indx j) r) := by
  rw [luPerm, Equiv.Perm.mul_apply]

/-- Later interchanges do not move an index that is already passed. -/
theorem luPerm_stable (indx : Nat → Nat) (n i : Nat) (hi : i < n)
    (hindx : ∀ t, t < n → t ≤ indx t) :
    luPerm indx n i = luPerm indx (i + 1) i := by
  have key : ∀ k, i + 1 + k ≤ n → luPerm indx (i + 1 + k) i = luPerm indx (i + 1) i := by
    intro k
    induction k with
    | zero => intro _; rfl
    | succ k ih =>
      intro hk
      have h1 : i + 1 + (k + 1) = (i + 1 + k) + 1 := by omega
      rw [h1, luPerm_succ_apply]
      have h2 := hindx (i + 1 + k) (by omega)
      rw [Equiv.swap_apply_of_ne_of_ne (by omega) (by omega)]
      exact ih (by omega)
  have h3 : n = i + 1 + (n - (i + 1)) := by omega
  rw [h3]
  exact key (n - (i + 1)) (by omega)

/-- Effect of the forward substitution of `lubksb`: the vector left solves the unit
lower triangular system whose right-hand side is the permuted input. -/
theorem lubksbForward_spec (a : Matrix) (n : Nat) (indx : Nat → Nat) (b : Nat → ℚ)
    (hindx : ∀ t, t < n → t ≤ indx t ∧ indx t < n) :
    ∀ r, r < n → (lubksbForward a n indx b).1 r
        + ∑ m in Finset.range r, a.item r m * (lubksbForward a n indx b).1 m
      = b (luPerm indx n r) := by
  have key : (∀ r, r < n → (lubksbForward a n indx b).1 r
        + ∑ m in Finset.range r, a.item r m * (lubksbForward a n indx b).1 m
        = b (luPerm indx n r)) ∧
      (∀ r, n ≤ r → (lubksbForward a n indx b).1 r = b (luPerm indx n r)) ∧
      ((lubksbForward a n indx b).2 = 0 → ∀ r, r < n → (lubksbForward a n indx b).1 r = 0) ∧
      ((lubksbForward a n indx b).2 ≠ 0 → (lubksbForward a n indx b).2 ≤ n ∧
        ∀ r, r + 1 < (lubksbForward a n indx b).2 → (lubksbForward a n indx b).1 r = 0) := by
    unfold lubksbForward
    refine forLoop_inv (fun i (s : (Nat → ℚ) × Nat) =>
      (∀ r, r < i → s.1 r + ∑ m in Finset.range r, a.item r m * s.1 m = b (luPerm indx n r)) ∧
      (∀ r, i ≤ r → s.1 r = b (luPerm indx i r)) ∧
      (s.2 = 0 → ∀ r, r < i → s.1 r = 0) ∧
      (s.2 ≠ 0 → s.2 ≤ i ∧ ∀ r, r + 1 < s.2 → s.1 r = 0)) 0 n _ _ (Nat.zero_le _) ?_ ?_
    · exact ⟨fun r h => absurd h (Nat.not_lt_zero _), fun r _ => rfl,
        fun _ r h => absurd h (Nat.not_lt_zero _), fun h => absurd rfl h⟩
    · rintro i ⟨bc, ii⟩ - hi ⟨h1, h2, h3, h4⟩
      simp only at h1 h2 h3 h4
      obtain ⟨hip1, hip2⟩ := hindx i hi
      -- the value stored at position `i`
      have hupd : ∀ m, m < i → Function.update bc (indx i) (bc i) m = bc m := fun m hm =>
        Function.update_noteq (by omega) _ _
      have hsum : (if ii ≠ 0 then
            forLoop (ii - 1) i (fun j sum =>
              sum - a.item i j * Function.update bc (indx i) (bc i) j) (bc (indx i))
          else bc (indx i))
          = bc (indx i) - ∑ m in Finset.range i, a.item i m * bc m := by
        by_cases hii : ii ≠ 0
        · obtain ⟨g1, g2⟩ := h4 hii
          rw [if_pos hii, forLoop_sub_sum _ _ _ _ (by omega)]
          congr 1
          have hsub : Finset.Ico (ii - 1) i ⊆ Finset.range i := by
            intro m hm
            rw [Finset.mem_Ico] at hm
            exact Finset.mem_range.mpr hm.2
          rw [← Finset.sum_subset hsub (fun m hm hnm => by
            rw [Finset.mem_range] at hm
            rw [Finset.mem_Ico] at hnm
            rw [g2 m (by omega), mul_zero])]
          exact Finset.sum_congr rfl (fun m hm => by
            rw [Finset.mem_Ico] at hm
            rw [hupd m hm.2])
        · rw [if_neg hii]
          have hz : ∑ m in Finset.range i, a.item i m * bc m = 0 :=
            Finset.sum_eq_zero (fun m hm => by
              rw [h3 (not_not.mp hii) m (Finset.mem_range.mp hm), mul_zero])
          rw [hz, sub_zero]
      simp only []
      rw [hsum]
      have hnew : ∀ m, m < i → Function.update (Function.update bc (indx i) (bc i)) i
          (bc (indx i) - ∑ m in Finset.range i, a.item i m * bc m) m = bc m := fun m hm => by
        rw [Function.update_noteq (by omega), hupd m hm]
      refine ⟨fun r hr => ?_, fun r hr => ?_, fun hz r hr => ?_, fun hnz => ?_⟩
      · rcases Nat.lt_or_ge r i with hlt | hge
        · rw [hnew r hlt, ← h1 r hlt]
          congr 1
          exact Finset.sum_congr rfl (fun m hm => by
            rw [hnew m (by have := Finset.mem_range.mp hm; omega)])
        · have hri : r = i := by omega
          rw [hri, Function.update_same]
          have hs : ∑ m in Finset.range i, a.item i m
              * Function.update (Function.update bc (indx i) (bc i)) i
                (bc (indx i) - ∑ m in Finset.range i, a.item i m * bc m) m
              = ∑ m in Finset.range i, a.item i m * bc m :=
            Finset.sum_congr rfl (fun m hm => by rw [hnew m (Finset.mem_range.mp hm)])
          rw [hs, sub_add_cancel, h2 (indx i) hip1,
            luPerm_stable indx n i hi (fun t ht => (hindx t ht).1), luPerm_succ_apply,
            Equiv.swap_apply_left]
      · have hri : r ≠ i := by omega
        rw [Function.update_noteq hri, luPerm_succ_apply]
        by_cases hrp : r = indx i
        · rw [hrp, Function.update_same, Equiv.swap_apply_right]
          exact h2 i (le_refl _)
        · rw [Function.update_noteq hrp, Equiv.swap_apply_of_ne_of_ne hri hrp]
          exact h2 r (by omega)
      · by_cases hii : ii ≠ 0
        · rw [if_pos hii] at hz
          exact absurd hz hii
        · rw [if_neg hii] at hz
          by_cases hs : bc (indx i) - ∑ m in Finset.range i, a.item i m * bc m ≠ 0
          · rw [if_pos hs] at hz
            omega
          · rcases Nat.lt_or_ge r i with hlt | hge
            · rw [hnew r hlt]
              exact h3 (not_not.mp hii) r hlt
            · have hri : r = i := by omega
              rw [hri, Function.update_same]
              exact not_not.mp hs
      · by_cases hii : ii ≠ 0
        · rw [if_pos hii] at hnz ⊢
          obtain ⟨g1, g2⟩ := h4 hii
          refine ⟨by omega, fun r hr => ?_⟩
          rw [hnew r (by omega)]
          exact g2 r hr
        · rw [if_neg hii] at hnz ⊢
          by_cases hs : bc (indx i) - ∑ m in Finset.range i, a.item i m * bc m ≠ 0
          · rw [if_pos hs]
            refine ⟨le_refl _, fun r hr => ?_⟩
            rw [hnew r (by omega)]
            exact h3 (not_not.mp hii) r (by omega)
          · rw [if_neg hs] at hnz
            exact absurd (not_not.mp hii) hnz
  exact key.1

/-- Effect of the back substitution of `lubksb` when the diagonal has no zero: the vector
left solves the upper triangular system. -/
theorem lubksbBackward_spec (a : Matrix) (n : Nat) (y : Nat → ℚ)
    (hdiag : ∀ i, i < n → a.item i i ≠ 0) :
    ∀ r, r < n → ∑ c in Finset.Ico r n, a.item r c * lubksbBackward a n y c = y r := by
  have key : (∀ r, 0 ≤ r → r < n →
        ∑ c in Finset.Ico r n, a.item r c * lubksbBackward a n y c = y r) ∧
      (∀ r, r < 0 → lubksbBackward a n y r = y r) := by
    unfold lubksbBackward
    refine forLoopDown_inv (fun k (bc : Nat → ℚ) =>
      (∀ r, k ≤ r → r < n → ∑ c in Finset.Ico r n, a.item r c * bc c = y r) ∧
      (∀ r, r < k → bc r = y r)) _ n y ?_ ?_
    · exact ⟨fun r h1 h2 => absurd h2 (by omega), fun r _ => rfl⟩
    · rintro i bc hi ⟨h1, h2⟩
      simp only []
      rw [forLoop_sub_sum _ _ _ _ (by omega)]
      refine ⟨fun r hr1 hr2 => ?_, fun r hr => ?_⟩
      · rcases Nat.lt_or_ge i r with hlt | hge
        · rw [← h1 r (by omega) hr2]
          refine Finset.sum_congr rfl (fun c hc => ?_)
          rw [Finset.mem_Ico] at hc
          rw [Function.update_noteq (by omega)]
        · have hri : r = i := by omega
          rw [hri, Finset.sum_eq_sum_Ico_succ_bot hi, Function.update_same]
          have hs : ∑ c in Finset.Ico (i + 1) n, a.item i c
              * Function.update bc i
                ((bc i - ∑ m in Finset.Ico (i + 1) n, a.item i m * bc m) / a.item i i) c
              = ∑ c in Finset.Ico (i + 1) n, a.item i c * bc c :=
            Finset.sum_congr rfl (fun c hc => by
              rw [Finset.mem_Ico] at hc
              rw [Function.update_noteq (by omega)])
          rw [hs, mul_div_cancel₀ _ (hdiag i hi), sub_add_cancel]
          exact h2 i (Nat.lt_succ_self _)
      · rw [Function.update_noteq (by omega)]
        exact h2 r (by omega)
  exact fun r hr => key.1 r (Nat.zero_le _) hr

/-- A sum over `[0, n)` of the terms from `r` on. -/
theorem sum_range_ite_ge (n r : Nat) (f : Nat → ℚ) :
    ∑ c in Finset.range n, (if r ≤ c then f c else 0) = ∑ c in Finset.Ico r n, f c := by
  have hsub : Finset.Ico r n ⊆ Finset.range n := by
    intro m hm
    rw [Finset.mem_Ico] at hm
    exact Finset.mem_range.mpr hm.2
  rw [← Finset.sum_subset hsub (fun m hm hnm => by
    rw [Finset.mem_range] at hm
    rw [Finset.mem_Ico] at hnm
    rw [if_neg (fun h => hnm ⟨h, hm⟩)])]
  exact Finset.sum_congr rfl (fun m hm => by
    rw [Finset.mem_Ico] at hm
    rw [if_pos hm.1])

/-- A sum over `[0, n)` of the terms before `r ≤ n`. -/
theorem sum_range_ite_lt (n r : Nat) (hr : r ≤ n) (f : Nat → ℚ) :
    ∑ c in Finset.range n, (if c < r then f c else 0) = ∑ c in Finset.range r, f c := by
  have hsub : Finset.range r ⊆ Finset.range n := by
    intro m hm
    rw [Finset.mem_range] at hm ⊢
    omega
  rw [← Finset.sum_subset hsub (fun m hm hnm => by
    rw [Finset.mem_range] at hnm
    rw [if_neg hnm])]
  exact Finset.sum_congr rfl (fun m hm => by
    rw [Finset.mem_range] at hm
    rw [if_pos hm])

/-- The upper factor applied to a vector, as a sum from the diagonal on. -/
theorem luUpper_mulVec (n : Nat) (a : Matrix) (x : Nat → ℚ) (r : Fin n) :
    (luUpper n n a).mulVec (fun c : Fin n => x c) r
      = ∑ c in Finset.Ico (r : Nat) n, a.item r c * x c := by
  rw [← sum_range_ite_ge, Matrix.mulVec, Matrix.dotProduct,
    ← Fin.sum_univ_eq_sum_range (fun c => if (r : Nat) ≤ c then a.item r c * x c else 0) n]
  refine Finset.sum_congr rfl (fun c _ => ?_)
  simp only [luUpper]
  by_cases h : (r : Nat) ≤ (c : Nat)
  · rw [if_pos (Or.inl ⟨r.2, h⟩), if_pos h]
  · rw [if_neg (fun h0 => by
      rcases h0 with ⟨-, h1⟩ | ⟨h1, -⟩
      · exact h h1
      · exact absurd r.2 (by omega)), if_neg h, zero_mul]

/-- The lower factor applied to a vector, as the entry plus a sum before the diagonal. -/
theorem luLower_mulVec (n : Nat) (a : Matrix) (y : Nat → ℚ) (r : Fin n) :
    (luLower n n a).mulVec (fun c : Fin n => y c) r
      = y r + ∑ m in Finset.range (r : Nat), a.item r m * y m := by
  rw [← sum_range_ite_lt n r (Nat.le_of_lt r.2), Matrix.mulVec, Matrix.dotProduct]
  have h1 : ∀ m : Fin n, luLower n n a r m * y m
      = (if m = r then y m else 0) + (if (m : Nat) < (r : Nat) then a.item r m * y m else 0) := by
    intro m
    simp only [luLower]
    by_cases hrm : r = m
    · rw [if_pos hrm, if_pos hrm.symm, if_neg (by rw [hrm]; exact lt_irrefl _), one_mul, add_zero]
    · rw [if_neg hrm, if_neg (fun h0 : m = r => hrm h0.symm), zero_add]
      by_cases hlt : (m : Nat) < (r : Nat)
      · rw [if_pos ⟨hlt, m.2⟩, if_pos hlt]
      · rw [if_neg (fun h0 => hlt h0.1), if_neg hlt, zero_mul]
  rw [Finset.sum_congr rfl (fun m _ => h1 m), Finset.sum_add_distrib,
    Finset.sum_ite_eq' Finset.univ r (fun m : Fin n => y m), if_pos (Finset.mem_univ _),
    Fin.sum_univ_eq_sum_range (fun m => if m < (r : Nat) then a.item r m * y m else 0) n]

/-- With the factors and the permutation left by `ludcmp` on a non-singular `M0`,
`lubksb` solves `M0 · x = b`. -/
theorem lubksb_solves (n : Nat) (M0 : Matrix) (s : LUState) (h : LUInv n M0 n s)
    (b : Nat → ℚ) :
    ∀ i, i < n →
      ∑ c in Finset.range n, M0.item i c * lubksb s.a n s.indx b c = b i := by
  obtain ⟨-, hindx, hpiv, π, hπ, hLU⟩ := h
  have hfw := lubksbForward_spec s.a n s.indx b hindx
  have hbw := lubksbBackward_spec s.a n (lubksbForward s.a n s.indx b).1 hpiv
  have hU : (luUpper n n s.a).mulVec (fun c : Fin n => lubksb s.a n s.indx b c)
      = fun r : Fin n => (lubksbForward s.a n s.indx b).1 r := by
    ext r
    rw [luUpper_mulVec]
    exact hbw r r.2
  have hL : (luLower n n s.a).mulVec (fun r : Fin n => (lubksbForward s.a n s.indx b).1 r)
      = fun r : Fin n => b ((π r : Fin n) : Nat) := by
    ext r
    rw [luLower_mulVec, hfw r r.2, hπ r]
  have hprod : ((toQ n M0).submatrix π id).mulVec (fun c : Fin n => lubksb s.a n s.indx b c)
      = fun r : Fin n => b ((π r : Fin n) : Nat) := by
    rw [← hLU, ← Matrix.mulVec_mulVec, hU, hL]
  intro i hi
  have := congrFun hprod (π.symm ⟨i, hi⟩)
  simp only [Matrix.mulVec, Matrix.dotProduct, Matrix.submatrix_apply, id,
    Equiv.apply_symm_apply, toQ_apply] at this
  rw [← this, ← Fin.sum_univ_eq_sum_range (fun c => M0.item i c * lubksb s.a n s.indx b c) n]

/-! ## Inversion by LU decomposition -/

/-- The loop of `inverse` that clears `col` leaves zeros in `[0, n)`. -/
theorem inverseClear_spec (n : Nat) (col : Nat → ℚ) :
    ∀ k, k < n → forLoop 0 n (fun i (col : Nat → ℚ) => Function.update col i 0) col k = 0 := by
  have key : ∀ k, k < n → k < n →
      forLoop 0 n (fun i (col : Nat → ℚ) => Function.update col i 0) col k = 0 := by
    refine forLoop_inv (fun m (c : Nat → ℚ) => ∀ k, k < m → k < n → c k = 0) 0 n _ _
      (Nat.zero_le _) ?_ ?_
    · exact fun k h => absurd h (Nat.not_lt_zero _)
    · intro m c _ _ h k hk hkn
      by_cases hkm : k = m
      · rw [hkm, Function.update_same]
      · rw [Function.update_noteq hkm]
        exact h k (by omega) hkn
  exact fun k hk => key k hk hk

/-- The loop of `inverse` that stores a solved column writes column `j` of the rows
`[0, n)` and nothing else. -/
theorem inverseStore_spec (n j : Nat) (col : Nat → ℚ) (R : Matrix) :
    (forLoop 0 n (fun i (R : Matrix) => R.setItem i j (col i)) R).m_rows = R.m_rows ∧
    (forLoop 0 n (fun i (R : Matrix) => R.setItem i j (col i)) R).m_cols = R.m_cols ∧
    ∀ k c, (forLoop 0 n (fun i (R : Matrix) => R.setItem i j (col i)) R).item k c
      = if k < n ∧ c = j then col k else R.item k c := by
  refine forLoop_inv (fun m (Q : Matrix) => Q.m_rows = R.m_rows ∧ Q.m_cols = R.m_cols ∧
      ∀ k c, Q.item k c = if k < m ∧ c = j then col k else R.item k c) 0 n _ _
      (Nat.zero_le _) ?_ ?_
  · exact ⟨rfl, rfl, fun k c => by simp⟩
  · rintro m Q - - ⟨h1, h2, h3⟩
    refine ⟨h1, h2, fun k c => ?_⟩
    rw [item_setItem]
    by_cases h : k = m ∧ c = j
    · rw [if_pos h, if_pos ⟨by omega, h.2⟩, h.1]
    · rw [if_neg h, h3 k c]
      have : (k < m + 1 ∧ c = j) ↔ (k < m ∧ c = j) := by
        constructor
        · rintro ⟨e1, e2⟩
          refine ⟨?_, e2⟩
          rcases Nat.lt_or_ge k m with hlt | hge
          · exact hlt
          · exact absurd ⟨by omega, e2⟩ h
        · rintro ⟨e1, e2⟩
          exact ⟨by omega, e2⟩
      simp only [this]

/-- Effect of `inverse` on a non-singular `n × n` argument: the receiver keeps its
dimensions and its leading block becomes a right inverse of the argument. -/
theorem inverse_spec (n : Nat) (R M0 : Matrix) (hr : M0.m_rows = n)
    (hdet : (toQ n M0).det ≠ 0) :
    (R.inverse M0).1.m_rows = R.m_rows ∧ (R.inverse M0).1.m_cols = R.m_cols ∧
    ∀ i c, i < n → c < n →
      ∑ k in Finset.range n, M0.item i k * (R.inverse M0).1.item k c
        = if i = c then 1 else 0 := by
  unfold inverse
  have hrows : M0.rows = n := hr
  simp only [hrows]
  by_cases hn : n = 0
  · rw [if_pos hn]
    exact ⟨rfl, rfl, fun i c hi => absurd hi (by omega)⟩
  · rw [if_neg hn]
    obtain ⟨h1, h2⟩ := ludcmp_spec n M0 (fun _ => 0) 0 hdet
    rw [h1]
    simp only [Bool.not_true, Bool.false_eq_true, if_false]
    refine forLoop_inv (fun j (s : Matrix × (Nat → ℚ)) =>
      s.1.m_rows = R.m_rows ∧ s.1.m_cols = R.m_cols ∧
      ∀ i c, i < n → c < j →
        ∑ k in Finset.range n, M0.item i k * s.1.item k c = if i = c then 1 else 0)
      0 n _ _ (Nat.zero_le _) ?_ ?_
    · exact ⟨rfl, rfl, fun i c _ h => absurd h (Nat.not_lt_zero _)⟩
    · rintro j ⟨R1, col⟩ - hj ⟨g1, g2, g3⟩
      simp only at g1 g2 g3 ⊢
      obtain ⟨e1, e2, e3⟩ := inverseStore_spec n j
        (lubksb (ludcmp M0 n (fun _ => 0) 0).2.a n (ludcmp M0 n (fun _ => 0) 0).2.indx
          (Function.update (forLoop 0 n (fun i (col : Nat → ℚ) => Function.update col i 0) col)
            j 1)) R1
      refine ⟨e1.trans g1, e2.trans g2, fun i c hi hc => ?_⟩
      rcases Nat.lt_or_ge c j with hlt | hge
      · rw [← g3 i c hi hlt]
        refine Finset.sum_congr rfl (fun k _ => ?_)
        rw [e3 k c, if_neg (fun h => by omega)]
      · have hcj : c = j := by omega
        have hs := lubksb_solves n M0 _ h2
          (Function.update (forLoop 0 n (fun i (col : Nat → ℚ) => Function.update col i 0) col)
            j 1) i hi
        rw [hcj]
        have hcong : ∑ k in Finset.range n, M0.item i k
            * (forLoop 0 n (fun i (R : Matrix) => R.setItem i j
              (lubksb (ludcmp M0 n (fun _ => 0) 0).2.a n (ludcmp M0 n (fun _ => 0) 0).2.indx
                (Function.update
                  (forLoop 0 n (fun i (col : Nat → ℚ) => Function.update col i 0) col) j 1)
                i)) R1).item k j
            = ∑ k in Finset.range n, M0.item i k
              * lubksb (ludcmp M0 n (fun _ => 0) 0).2.a n (ludcmp M0 n (fun _ => 0) 0).2.indx
                (Function.update
                  (forLoop 0 n (fun i (col : Nat → ℚ) => Function.update col i 0) col) j 1) k :=
          Finset.sum_congr rfl (fun k hk => by
            rw [e3 k j, if_pos ⟨Finset.mem_range.mp hk, rfl⟩])
        rw [hcong, hs]
        by_cases hij : i = j
        · rw [hij, Function.update_same, if_pos rfl]
        · rw [Function.update_noteq hij, inverseClear_spec n col i hi, if_neg hij]

/-! ## Claims on the inversion by LU decomposition -/

/-- A product of leading blocks is the identity when its cells are those of the identity. -/
theorem toQ_mul_eq_one (n : Nat) (M X : Matrix)
    (h : ∀ i c, i < n → c < n →
      ∑ k in Finset.range n, M.item i k * X.item k c = if i = c then 1 else 0) :
    toQ n M * toQ n X = 1 := by
  ext i c
  rw [Matrix.mul_apply, Matrix.one_apply]
  simp only [toQ_apply]
  rw [Fin.sum_univ_eq_sum_range (fun k => M.item i k * X.item k c) n, h i c i.2 c.2]
  by_cases h0 : i = c
  · rw [if_pos h0, if_pos (congrArg (fun t : Fin n => (t : Nat)) h0)]
  · rw [if_neg h0, if_neg (fun h1 => h0 (Fin.ext h1))]

/-- C2: for a non-singular `n × n` matrix `M` (exact arithmetic) and an `n × n` receiver
`R`, after `R.inverse(A)` with `A` equal to `M` the receiver is still `n × n` and
satisfies `M × R = I` and `R × M = I`. -/
theorem luInverse_round_trip (n : Nat) (R M : Matrix) (hr : M.m_rows = n)
    (hRr : R.m_rows = n) (hRc : R.m_cols = n) (hdet : (toQ n M).det ≠ 0) :
    (R.inverse M).1.m_rows = n ∧ (R.inverse M).1.m_cols = n ∧
    toQ n M * toQ n (R.inverse M).1 = 1 ∧ toQ n (R.inverse M).1 * toQ n M = 1 := by
  obtain ⟨h1, h2, h3⟩ := inverse_spec n R M hr hdet
  have hmul : toQ n M * toQ n (R.inverse M).1 = 1 := toQ_mul_eq_one n M _ h3
  exact ⟨h1.trans hRr, h2.trans hRc, hmul, Matrix.mul_eq_one_comm.mp hmul⟩

/-- Witness of C2 on `M = [[4,7,2],[3,6,1],[2,5,3]]` with a `3 × 3` receiver of zeros. -/
theorem luInverse_round_trip_witness :
    toQ 3 (ofRows [[4, 7, 2], [3, 6, 1], [2, 5, 3]])
        * toQ 3 ((mk0 3 3).inverse (ofRows [[4, 7, 2], [3, 6, 1], [2, 5, 3]])).1 = 1 ∧
    toQ 3 ((mk0 3 3).inverse (ofRows [[4, 7, 2], [3, 6, 1], [2, 5, 3]])).1
        * toQ 3 (ofRows [[4, 7, 2], [3, 6, 1], [2, 5, 3]]) = 1 :=
  (luInverse_round_trip 3 (mk0 3 3) (ofRows [[4, 7, 2], [3, 6, 1], [2, 5, 3]]) rfl rfl rfl
    det_scenario_ne_zero).2.2

/-- C3: for a non-singular `n × n` matrix `M` (exact arithmetic), the matrix produced by
`inverseByGaussJordanElimination` on a copy of `M` and the matrix produced by `inverse`
on another copy of `M` are equal in every cell `(i, j)` with `i, j < n`. -/
theorem inversion_paths_agree (n : Nat) (R1 R2 M : Matrix) (hr : M.m_rows = n)
    (hc : M.m_cols = n) (hdet : (toQ n M).det ≠ 0) :
    ∀ i j, i < n → j < n →
      (R1.inverseByGaussJordanElimination M).1.item i j = (R2.inverse M).1.item i j := by
  obtain ⟨-, -, -, -, -, hG⟩ := gaussJordan_spec n R1 M hr hc hdet
  obtain ⟨-, -, h3⟩ := inverse_spec n R2 M hr hdet
  have hL : toQ n M * toQ n (R2.inverse M).1 = 1 := toQ_mul_eq_one n M _ h3
  have heq : toQ n (R1.inverseByGaussJordanElimination M).1 = toQ n (R2.inverse M).1 := by
    calc toQ n (R1.inverseByGaussJordanElimination M).1
        = toQ n (R1.inverseByGaussJordanElimination M).1
            * (toQ n M * toQ n (R2.inverse M).1) := by rw [hL, Matrix.mul_one]
      _ = (toQ n (R1.inverseByGaussJordanElimination M).1 * toQ n M)
            * toQ n (R2.inverse M).1 := by rw [Matrix.mul_assoc]
      _ = toQ n (R2.inverse M).1 := by rw [hG, Matrix.one_mul]
  intro i j hi hj
  exact congrFun (congrFun heq ⟨i, hi⟩) ⟨j, hj⟩

/-- Witness of C3 on `M = [[4,7,2],[3,6,1],[2,5,3]]`, at cell `(1, 2)`. -/
theorem inversion_paths_agree_witness :
    ((mk0 0 0).inverseByGaussJordanElimination
        (ofRows [[4, 7, 2], [3, 6, 1], [2, 5, 3]])).1.item 1 2
      = ((mk0 3 3).inverse (ofRows [[4, 7, 2], [3, 6, 1], [2, 5, 3]])).1.item 1 2 :=
  inversion_paths_agree 3 (mk0 0 0) (mk0 3 3) (ofRows [[4, 7, 2], [3, 6, 1], [2, 5, 3]]) rfl rfl
    det_scenario_ne_zero 1 2 (by decide) (by decide)

/-! ## Refusal of a non-square power -/

/-- Claim C18.  `pow` refuses a non-square receiver: when `rows()` differs from `cols()`
the call returns at once, with the receiver itself unchanged as its result, whatever the
exponent, the symmetry flag and the recursion bound; no product is computed. -/
theorem pow_nonsquare_unchanged (symmetryDefault : Bool) (fuel : Nat) (M : Matrix) (n : Int)
    (symmetry : Bool) (h : M.rows ≠ M.cols) :
    pow symmetryDefault fuel M n symmetry = some M := by
  unfold pow
  rw [if_pos h]

/-- Instance of C18: a `2 × 3` matrix, raised to the third power. -/
theorem pow_nonsquare_unchanged_witness :
    pow false 0 (ofRows [[1, 2, 3], [4, 5, 6]]) 3 false = some (ofRows [[1, 2, 3], [4, 5, 6]]) :=
  pow_nonsquare_unchanged false 0 (ofRows [[1, 2, 3], [4, 5, 6]]) 3 false (by decide)

/-! ## The diagonal of `productSym` and the columns of the assignment -/

/-- Claim C17 refuted on an instance: on `A = B = I₂`, whose product is the identity with
diagonal `1, 1`, `productSym` leaves `0` in both diagonal cells of the receiver (and `0`
in the other two cells), while `product` without the shortcut leaves the diagonal
`1, 1`: the cells with `i = j` are skipped with those below the diagonal. -/
theorem productSym_diagonal_zero :
    ((ofRows [[7, 7], [7, 7]]).productSym (ofRows [[1, 0], [0, 1]])
        (ofRows [[1, 0], [0, 1]])).item 0 0 = 0 ∧
    ((ofRows [[7, 7], [7, 7]]).productSym (ofRows [[1, 0], [0, 1]])
        (ofRows [[1, 0], [0, 1]])).item 1 1 = 0 ∧
    ((ofRows [[7, 7], [7, 7]]).productSym (ofRows [[1, 0], [0, 1]])
        (ofRows [[1, 0], [0, 1]])).item 0 1 = 0 ∧
    ((ofRows [[7, 7], [7, 7]]).productSym (ofRows [[1, 0], [0, 1]])
        (ofRows [[1, 0], [0, 1]])).item 1 0 = 0 ∧
    ((ofRows [[7, 7], [7, 7]]).product (ofRows [[1, 0], [0, 1]])
        (ofRows [[1, 0], [0, 1]]) false).item 0 0 = 1 ∧
    ((ofRows [[7, 7], [7, 7]]).product (ofRows [[1, 0], [0, 1]])
        (ofRows [[1, 0], [0, 1]]) false).item 1 1 = 1 ∧
    ∑ k in Finset.range 2,
      (ofRows [[1, 0], [0, 1]]).item 0 k * (ofRows [[1, 0], [0, 1]]).item k 0 = 1 := by
  decide!

/-- Claim C20 fails on an instance.  After `b = a` with `a` of dimensions `2 × 2` and `b`
of dimensions `2 × 3`, `b.rows()` is `2` but `b.cols()` is still `3`, not `a.cols() = 2`: the
assignment compares the row counts only.  The cells of `a` are copied, and the copy
constructor on the same `a` gives dimensions `2 × 2`. -/
theorem assign_keeps_cols :
    (ofRows [[1, 2], [3, 4]]).cols = 2 ∧ (mk0 2 3).cols = 3 ∧
    ((mk0 2 3).assign (ofRows [[1, 2], [3, 4]])).rows = 2 ∧
    ((mk0 2 3).assign (ofRows [[1, 2], [3, 4]])).cols = 3 ∧
    ((mk0 2 3).assign (ofRows [[1, 2], [3, 4]])).item 0 0 = 1 ∧
    ((mk0 2 3).assign (ofRows [[1, 2], [3, 4]])).item 0 1 = 2 ∧
    ((mk0 2 3).assign (ofRows [[1, 2], [3, 4]])).item 1 0 = 3 ∧
    ((mk0 2 3).assign (ofRows [[1, 2], [3, 4]])).item 1 1 = 4 ∧
    (copyOf (ofRows [[1, 2], [3, 4]])).rows = 2 ∧
    (copyOf (ofRows [[1, 2], [3, 4]])).cols = 2 := by
  decide!

/-! ## The singular return of `ludcmp` -/

/-- The largest absolute value of row `i`, as the scaling pass of `ludcmp` computes it, is
zero exactly when the row is zero in the columns `[0, n)`. -/
theorem ludcmpRowMax_eq_zero_iff (a : Matrix) (n i : Nat) :
    forLoop 0 n (fun j (big : ℚ) => if |a.item i j| > big then |a.item i j| else big) 0 = 0
      ↔ ∀ c, c < n → a.item i c = 0 := by
  constructor
  · intro h c hc
    have := (ludcmpRowMax_spec a n i).2 c hc
    rw [h] at this
    exact abs_eq_zero.mp (le_antisymm this (abs_nonneg _))
  · intro h
    refine forLoop_inv (fun _ (big : ℚ) => big = 0) 0 n _ _ (Nat.zero_le _) rfl ?_
    rintro j big - hj hb
    rw [hb, h j hj]
    simp

/-- The scaling pass of `ludcmp` fails exactly when some row of `[0, n)` is zero in the
columns `[0, n)`. -/
theorem ludcmpScaling_eq_none_iff (a : Matrix) (n : Nat) (vv0 : Nat → ℚ) :
    ludcmpScaling a n vv0 = none ↔ ∃ i, i < n ∧ ∀ c, c < n → a.item i c = 0 := by
  unfold ludcmpScaling
  refine forLoop_inv (fun k (s : Option (Nat → ℚ)) =>
    s = none ↔ ∃ i, i < k ∧ ∀ c, c < n → a.item i c = 0) 0 n _ _ (Nat.zero_le _) ?_ ?_
  · constructor
    · intro h
      exact absurd h (by simp)
    · rintro ⟨i, hi, -⟩
      exact absurd hi (Nat.not_lt_zero _)
  · rintro k s - hk hs
    cases s with
    | none =>
      simp only [true_iff]
      obtain ⟨i, hi, h⟩ := hs.mp rfl
      exact ⟨i, Nat.lt_succ_of_lt hi, h⟩
    | some vv =>
      simp only []
      have hno : ¬ ∃ i, i < k ∧ ∀ c, c < n → a.item i c = 0 := fun h => by
        have := hs.mpr h
        simp at this
      by_cases hz : ∀ c, c < n → a.item k c = 0
      · rw [if_pos ((ludcmpRowMax_eq_zero_iff a n k).mpr hz)]
        simp only [true_iff]
        exact ⟨k, Nat.lt_succ_self _, hz⟩
      · rw [if_neg (fun h => hz ((ludcmpRowMax_eq_zero_iff a n k).mp h))]
        constructor
        · intro h
          simp at h
        · rintro ⟨i, hi, h⟩
          exfalso
          by_cases hik : i = k
          · exact hz (hik ▸ h)
          · exact hno ⟨i, by omega, h⟩

/-- Claim C12.  `ludcmp` returns `false` exactly when some row of the leading `n × n`
block of its argument is entirely zero; every other input, singular or not, returns
`true`, and so does the singular matrix with rows `(1, 2)` and `(2, 4)`. -/
theorem ludcmp_false_iff_zero_row (A : Matrix) (n : Nat) (indx : Nat → Nat) (d : ℚ) :
    ((ludcmp A n indx d).1 = false ↔ ∃ i, i < n ∧ ∀ c, c < n → A.item i c = 0) ∧
    (ludcmp (ofRows [[1, 2], [2, 4]]) 2 indx d).1 = true := by
  have key : ∀ B : Matrix, ∀ m : Nat,
      ((ludcmp B m indx d).1 = false ↔ ludcmpScaling B m (fun _ => 0) = none) := by
    intro B m
    unfold ludcmp
    cases ludcmpScaling B m (fun _ => 0) with
    | none => simp
    | some vv => simp
  refine ⟨(key A n).trans (ludcmpScaling_eq_none_iff A n _), ?_⟩
  have h2 : ¬ (ludcmp (ofRows [[1, 2], [2, 4]]) 2 indx d).1 = false := by
    rw [(key _ 2).trans (ludcmpScaling_eq_none_iff _ 2 _)]
    decide!
  simpa using h2

/-- Claim C16.  When row `i` of the leading `n × n` block of `A` is entirely zero,
`ludcmp` returns `false` and leaves `A`, `indx` untouched (only `d` is set to `1`), and
`inverse` on such an `A` with `n = A.rows()` returns with the receiver and `A` unchanged,
without running the substitutions. -/
theorem ludcmp_zero_row_unchanged (A : Matrix) (n : Nat) (indx : Nat → Nat) (d : ℚ) (i : Nat)
    (hi : i < n) (hrow : ∀ c, c < n → A.item i c = 0) :
    (ludcmp A n indx d).1 = false ∧ (ludcmp A n indx d).2.a = A ∧
    (ludcmp A n indx d).2.indx = indx ∧ (ludcmp A n indx d).2.d = 1 ∧
    ∀ R : Matrix, A.rows = n → R.inverse A = (R, A) := by
  have hnone : ∀ indx0 : Nat → Nat, ∀ d0 : ℚ, ludcmp A n indx0 d0
      = (false, { a := A, indx := indx0, d := 1, vv := fun _ => 0 }) := by
    intro indx0 d0
    unfold ludcmp
    rw [(ludcmpScaling_eq_none_iff A n _).mpr ⟨i, hi, hrow⟩]
  rw [hnone]
  refine ⟨rfl, rfl, rfl, rfl, fun R hn => ?_⟩
  unfold inverse
  rw [hn]
  have h0 : n ≠ 0 := by omega
  simp only [hnone, if_neg h0]
  rfl

/-- Instance of C16: the matrix with rows `(1, 2)` and `(0, 0)`. -/
theorem ludcmp_zero_row_unchanged_witness :
    (ludcmp (ofRows [[1, 2], [0, 0]]) 2 (fun _ => 5) 3).1 = false ∧
    (ludcmp (ofRows [[1, 2], [0, 0]]) 2 (fun _ => 5) 3).2.a = ofRows [[1, 2], [0, 0]] ∧
    (ludcmp (ofRows [[1, 2], [0, 0]]) 2 (fun _ => 5) 3).2.indx = (fun _ => 5) ∧
    (ludcmp (ofRows [[1, 2], [0, 0]]) 2 (fun _ => 5) 3).2.d = 1 ∧
    (ofRows [[9, 9], [9, 9]]).inverse (ofRows [[1, 2], [0, 0]])
      = (ofRows [[9, 9], [9, 9]], ofRows [[1, 2], [0, 0]]) := by
  obtain ⟨h1, h2, h3, h4, h5⟩ := ludcmp_zero_row_unchanged (ofRows [[1, 2], [0, 0]]) 2
    (fun _ => 5) 3 1 (by decide) (by decide!)
  exact ⟨h1, h2, h3, h4, h5 _ rfl⟩

/-! ## The pivots left by `ludcmp` on any input -/

/-- The row found by the pivot search of `ludcmp` at column `j` lies in `[j, n)`,
whatever the scalings. -/
theorem ludcmpPivotSearch_bounds (a : Matrix) (vv : Nat → ℚ) (n j : Nat) (hj : j < n) :
    j ≤ (ludcmpPivotSearch a vv n j).2 ∧ (ludcmpPivotSearch a vv n j).2 < n := by
  unfold ludcmpPivotSearch
  refine forLoop_inv (fun _ (p : ℚ × Nat) => j ≤ p.2 ∧ p.2 < n) j n _ _ (Nat.le_of_lt hj)
    ⟨Nat.le_refl _, hj⟩ ?_
  rintro i p hi1 hi2 ⟨h1, h2⟩
  simp only []
  by_cases hgt : vv i * |a.item i j| > p.1
  · rw [if_pos hgt]
    exact ⟨hi1, hi2⟩
  · rw [if_neg hgt]
    exact ⟨h1, h2⟩

/-- The constant `TINY` is not zero. -/
theorem TINY_ne_zero : TINY ≠ 0 := by
  unfold TINY
  norm_num

/-- The column pass of `ludcmp`, unfolded on any state: the matrix is interchanged (or
not), its pivot is replaced by `TINY` when it is exactly zero, and the rows below are
reduced; `indx j` records the pivot row. -/
theorem ludcmpColumn_general (n j : Nat) (s : LUState) :
    (ludcmpColumn n j s).a
      = ludcmpReduce
          (if (if j ≠ (ludcmpPivotSearch s.a s.vv n j).2 then
                ludcmpInterchange s.a n (ludcmpPivotSearch s.a s.vv n j).2 j else s.a).item j j = 0
           then (if j ≠ (ludcmpPivotSearch s.a s.vv n j).2 then
                ludcmpInterchange s.a n (ludcmpPivotSearch s.a s.vv n j).2 j else s.a).setItem
                  j j TINY
           else (if j ≠ (ludcmpPivotSearch s.a s.vv n j).2 then
                ludcmpInterchange s.a n (ludcmpPivotSearch s.a s.vv n j).2 j else s.a)) n j ∧
    (ludcmpColumn n j s).indx = Function.update s.indx j (ludcmpPivotSearch s.a s.vv n j).2 := by
  unfold ludcmpColumn
  by_cases h : j ≠ (ludcmpPivotSearch s.a s.vv n j).2
  · simp only [h, if_true, ne_eq, not_false_eq_true]
    by_cases hp : (ludcmpInterchange s.a n (ludcmpPivotSearch s.a s.vv n j).2 j).item j j = 0
    · simp only [hp, if_true, and_self]
    · simp only [hp, if_false, and_self]
  · simp only [h, if_false]
    by_cases hp : s.a.item j j = 0
    · simp only [hp, if_true, and_self]
    · simp only [hp, if_false, and_self]

/-- One pass of the loop over columns of `ludcmp`, on any state: the diagonal entries
`(t, t)` with `t ≤ j` are not zero afterwards when those with `t < j` were not zero
before, and the recorded interchanges stay within `[t, n)`. -/
theorem ludcmpColumn_diag (n j : Nat) (hj : j < n) (s : LUState)
    (h : ∀ t, t < j → s.a.item t t ≠ 0 ∧ t ≤ s.indx t ∧ s.indx t < n) :
    ∀ t, t < j + 1 → (ludcmpColumn n j s).a.item t t ≠ 0 ∧
      t ≤ (ludcmpColumn n j s).indx t ∧ (ludcmpColumn n j s).indx t < n := by
  obtain ⟨ha, hindx⟩ := ludcmpColumn_general n j s
  obtain ⟨p1, p2⟩ := ludcmpPivotSearch_bounds s.a s.vv n j hj
  intro t ht
  rw [ha, hindx, ludcmpReduce_spec _ n j t t, if_neg (fun h0 => by omega)]
  by_cases htj : t = j
  · rw [htj, Function.update_same]
    refine ⟨?_, p1, p2⟩
    by_cases hz : (if j ≠ (ludcmpPivotSearch s.a s.vv n j).2 then
        ludcmpInterchange s.a n (ludcmpPivotSearch s.a s.vv n j).2 j else s.a).item j j = 0
    · rw [if_pos hz, item_setItem, if_pos ⟨rfl, rfl⟩]
      exact TINY_ne_zero
    · rw [if_neg hz]
      exact hz
  · have hlt : t < j := by omega
    rw [Function.update_noteq htj]
    refine ⟨?_, (h t hlt).2⟩
    have hkeep : (if j ≠ (ludcmpPivotSearch s.a s.vv n j).2 then
        ludcmpInterchange s.a n (ludcmpPivotSearch s.a s.vv n j).2 j else s.a).item t t
          = s.a.item t t := by
      by_cases h0 : j ≠ (ludcmpPivotSearch s.a s.vv n j).2
      · rw [if_pos h0, ludcmpInterchange_spec, if_pos (by omega), if_neg htj,
          if_neg (by omega)]
      · rw [if_neg h0]
    by_cases hz : (if j ≠ (ludcmpPivotSearch s.a s.vv n j).2 then
        ludcmpInterchange s.a n (ludcmpPivotSearch s.a s.vv n j).2 j else s.a).item j j = 0
    · rw [if_pos hz, item_setItem, if_neg (fun h0 => htj h0.1), hkeep]
      exact (h t hlt).1
    · rw [if_neg hz, hkeep]
      exact (h t hlt).1

/-- After the loop over columns of `ludcmp`, on any state, no diagonal entry of the
leading block is zero and every recorded interchange `indx t` lies in `[t, n)`. -/
theorem ludcmpColumns_diag (n : Nat) (s : LUState) :
    ∀ t, t < n → (ludcmpColumns n s).a.item t t ≠ 0 ∧
      t ≤ (ludcmpColumns n s).indx t ∧ (ludcmpColumns n s).indx t < n := by
  unfold ludcmpColumns
  exact forLoop_inv (fun j (s : LUState) =>
      ∀ t, t < j → s.a.item t t ≠ 0 ∧ t ≤ s.indx t ∧ s.indx t < n) 0 n (ludcmpColumn n) _
    (Nat.zero_le _) (fun t h => absurd h (Nat.not_lt_zero _))
    (fun j s _ hj h => ludcmpColumn_diag n j hj s h)

/-- Claim C15.  Whenever `ludcmp` returns `true`, on any input, singular or not, every
diagonal entry `a[j][j]` with `j < n` of the overwritten matrix is nonzero; these are
the divisors of the back substitution of `lubksb`. -/
theorem ludcmp_diagonal_ne_zero (a : Matrix) (n : Nat) (indx : Nat → Nat) (d : ℚ)
    (h : (ludcmp a n indx d).1 = true) :
    ∀ j, j < n → (ludcmp a n indx d).2.a.item j j ≠ 0 := by
  intro j hj
  revert h
  unfold ludcmp
  cases ludcmpScaling a n (fun _ => 0) with
  | none => simp
  | some vv =>
    intro _
    exact (ludcmpColumns_diag n _ j hj).1

/-- Instance of C15 on the singular matrix with rows `(1, 2)` and `(2, 4)`: `ludcmp`
returns `true`, and the pivot of column `1`, which is exactly zero, is left nonzero. -/
theorem ludcmp_diagonal_ne_zero_witness :
    (ludcmp (ofRows [[1, 2], [2, 4]]) 2 (fun _ => 0) 0).1 = true ∧
    (ludcmp (ofRows [[1, 2], [2, 4]]) 2 (fun _ => 0) 0).2.a.item 1 1 ≠ 0 :=
  ⟨by decide!, ludcmp_diagonal_ne_zero (ofRows [[1, 2], [2, 4]]) 2 (fun _ => 0) 0 (by decide!)
    1 (by decide)⟩

/-! ## The factorisation as the specification words it -/

/-- The interchange of two positions reads the sequence through the transposition. -/
theorem interchange_apply {α : Type} (f : Nat → α) (a b i : Nat) :
    interchange f a b i = f (Equiv.swap a b i) := by
  unfold interchange
  rw [Equiv.swap_apply_def]
  by_cases h1 : i = a
  · rw [if_pos h1, if_pos h1]
  · rw [if_neg h1, if_neg h1]
    by_cases h2 : i = b
    · rw [if_pos h2, if_pos h2]
    · rw [if_neg h2, if_neg h2]

/-- The interchanges `t ↔ indx t` applied in order for `t < j` read the sequence through
the permutation `luPerm indx j`. -/
theorem applyInterchanges_eq {α : Type} (indx : Nat → Nat) (f : Nat → α) (j : Nat) :
    ∀ i, applyInterchanges indx j f i = f (luPerm indx j i) := by
  induction j with
  | zero =>
    intro i
    rfl
  | succ j ih =>
    intro i
    rw [applyInterchanges, interchange_apply, ih, luPerm_succ_apply]

/-- The unit lower factor read from `a` is the lower factor of the invariant when every
column is reduced. -/
theorem unitLower_eq (n : Nat) (a : Matrix) : unitLower n a = luLower n n a := by
  ext r m
  unfold unitLower luLower
  by_cases h1 : r = m
  · rw [if_pos h1, if_neg (by rw [h1]; exact Nat.lt_irrefl _), if_pos h1]
  · rw [if_neg h1]
    by_cases h2 : (m : Nat) < (r : Nat)
    · rw [if_pos h2, if_pos (And.intro h2 m.2), if_neg h1]
    · rw [if_neg h2, if_neg (fun h0 : (m : Nat) < (r : Nat) ∧ (m : Nat) < n => h2 h0.1),
        if_neg h1]

/-- The upper factor read from `a` is the upper part of the invariant when every column
is reduced. -/
theorem upperPart_eq (n : Nat) (a : Matrix) : upperPart n a = luUpper n n a := by
  ext r m
  unfold upperPart luUpper
  by_cases h1 : (r : Nat) ≤ (m : Nat)
  · rw [if_pos h1, if_pos (Or.inl ⟨r.2, h1⟩)]
  · rw [if_neg h1, if_neg]
    rintro (h0 | h0)
    · exact h1 h0.2
    · exact absurd r.2 (by omega)

/-- Claim C13.  For every non-singular `n × n` matrix `A0` (exact arithmetic), `ludcmp`
returns `true` and the overwritten matrix `a`, read as `L` (entries below the diagonal,
unit diagonal) and `U` (entries on and above the diagonal), satisfies `L × U = P × A0`,
where `P × A0` is `A0` with the interchanges of rows `j` and `indx[j]` applied for
`j = 0, ..., n - 1` in order. -/
theorem ludcmp_factorisation (n : Nat) (A0 : Matrix) (indx0 : Nat → Nat) (d0 : ℚ)
    (hdet : (toQ n A0).det ≠ 0) :
    (ludcmp A0 n indx0 d0).1 = true ∧
    unitLower n (ludcmp A0 n indx0 d0).2.a * upperPart n (ludcmp A0 n indx0 d0).2.a
      = fun (i k : Fin n) =>
          applyInterchanges (ludcmp A0 n indx0 d0).2.indx n (fun r => A0.item r k) i := by
  obtain ⟨h1, -, -, -, π, hπ, hLU⟩ := ludcmp_spec n A0 indx0 d0 hdet
  refine ⟨h1, ?_⟩
  rw [unitLower_eq, upperPart_eq, hLU]
  ext i k
  rw [applyInterchanges_eq, Matrix.submatrix_apply, toQ_apply, hπ]
  rfl

/-- Instance of C13 on `A0 = [[4,7,2],[3,6,1],[2,5,3]]`. -/
theorem ludcmp_factorisation_witness :
    unitLower 3 (ludcmp (ofRows [[4, 7, 2], [3, 6, 1], [2, 5, 3]]) 3 (fun _ => 0) 0).2.a
        * upperPart 3 (ludcmp (ofRows [[4, 7, 2], [3, 6, 1], [2, 5, 3]]) 3 (fun _ => 0) 0).2.a
      = fun (i k : Fin 3) =>
          applyInterchanges (ludcmp (ofRows [[4, 7, 2], [3, 6, 1], [2, 5, 3]]) 3 (fun _ => 0) 0).2.indx
            3 (fun r => (ofRows [[4, 7, 2], [3, 6, 1], [2, 5, 3]]).item r k) i :=
  (ludcmp_factorisation 3 (ofRows [[4, 7, 2], [3, 6, 1], [2, 5, 3]]) (fun _ => 0) 0
    det_scenario_ne_zero).2

/-! ## The substitution as the specification words it -/

/-- Claim C14.  For every `n`, every matrix `a` whose diagonal has no zero in `[0, n)`
(read as the unit lower `L` and the upper `U`), every `indx` with `j ≤ indx[j] < n` and
every right-hand side `b0`, the vector `x` left by `lubksb(a, n, indx, b0)` satisfies
`L × U × x = P × b0`, where `P × b0` is `b0` with the interchanges `j ↔ indx[j]` applied
for `j = 0, ..., n - 1` in order; and with the `a` and `indx` left by `ludcmp` on a
non-singular `A0` it satisfies `A0 × x = b0`. -/
theorem lubksb_solves_factored (n : Nat) (a : Matrix) (indx : Nat → Nat) (b0 : Nat → ℚ)
    (hdiag : ∀ i, i < n → a.item i i ≠ 0)
    (hindx : ∀ j, j < n → j ≤ indx j ∧ indx j < n) :
    (unitLower n a * upperPart n a).mulVec (fun c : Fin n => lubksb a n indx b0 c)
      = (fun i : Fin n => applyInterchanges indx n b0 i) ∧
    ∀ (A0 : Matrix) (indx0 : Nat → Nat) (d0 : ℚ), (toQ n A0).det ≠ 0 →
      (toQ n A0).mulVec (fun c : Fin n =>
          lubksb (ludcmp A0 n indx0 d0).2.a n (ludcmp A0 n indx0 d0).2.indx b0 c)
        = fun i : Fin n => b0 i := by
  constructor
  · rw [unitLower_eq, upperPart_eq, ← Matrix.mulVec_mulVec]
    have hU : (luUpper n n a).mulVec (fun c : Fin n => lubksb a n indx b0 c)
        = fun r : Fin n => (lubksbForward a n indx b0).1 r := by
      funext r
      rw [luUpper_mulVec n a (lubksb a n indx b0) r]
      exact lubksbBackward_spec a n _ hdiag r r.2
    rw [hU]
    funext r
    rw [luLower_mulVec n a (lubksbForward a n indx b0).1 r, applyInterchanges_eq]
    exact lubksbForward_spec a n indx b0 hindx r r.2
  · intro A0 indx0 d0 hdet
    obtain ⟨-, hinv⟩ := ludcmp_spec n A0 indx0 d0 hdet
    funext i
    have := lubksb_solves n A0 _ hinv b0 i i.2
    rw [← this]
    simp only [Matrix.mulVec, Matrix.dotProduct, toQ_apply]
    exact Fin.sum_univ_eq_sum_range (fun c => A0.item i c
        * lubksb (ludcmp A0 n indx0 d0).2.a n (ludcmp A0 n indx0 d0).2.indx b0 c) n

/-- Instance of C14: `a` with rows `(2, 1)` and `(3, 4)`, the interchange of rows `0`
and `1` recorded, right-hand side `(1, 2)`. -/
theorem lubksb_solves_factored_witness :
    (unitLower 2 (ofRows [[2, 1], [3, 4]]) * upperPart 2 (ofRows [[2, 1], [3, 4]])).mulVec
        (fun c : Fin 2 => lubksb (ofRows [[2, 1], [3, 4]]) 2 (fun _ => 1)
          (fun t => if t = 0 then 1 else 2) c)
      = (fun i : Fin 2 => applyInterchanges (fun _ => 1) 2 (fun t => if t = 0 then 1 else 2) i) :=
  (lubksb_solves_factored 2 (ofRows [[2, 1], [3, 4]]) (fun _ => 1)
    (fun t => if t = 0 then 1 else 2) (by decide!) (by decide)).1

/-! ## Operands of other dimensions -/

/-- Effect of the inner loop of `sum` on row `i`: the cells of the columns `[0, n)` get
the sums. -/
theorem sum_inner (P a b : Matrix) (i n : Nat) :
    (forLoop 0 n (fun j (P : Matrix) => P.setItem i j (a.item i j + b.item i j)) P).m_rows
        = P.m_rows ∧
    (forLoop 0 n (fun j (P : Matrix) => P.setItem i j (a.item i j + b.item i j)) P).m_cols
        = P.m_cols ∧
    ∀ r c, (forLoop 0 n
        (fun j (P : Matrix) => P.setItem i j (a.item i j + b.item i j)) P).item r c
      = if r = i ∧ c < n then a.item r c + b.item r c else P.item r c := by
  refine forLoop_inv (fun m (Q : Matrix) => Q.m_rows = P.m_rows ∧ Q.m_cols = P.m_cols ∧
      ∀ r c, Q.item r c = if r = i ∧ c < m then a.item r c + b.item r c else P.item r c)
      0 n _ _ (Nat.zero_le _) ?_ ?_
  · exact ⟨rfl, rfl, fun r c => by simp⟩
  · rintro m Q - - ⟨h1, h2, h3⟩
    refine ⟨h1, h2, fun r c => ?_⟩
    rw [item_setItem]
    by_cases h : r = i ∧ c = m
    · rw [if_pos h, if_pos ⟨h.1, by omega⟩, h.1, h.2]
    · rw [if_neg h, h3 r c]
      by_cases hr : r = i
      · have hcm : c ≠ m := fun h0 => h ⟨hr, h0⟩
        have hlt : (c < m + 1) ↔ (c < m) := by omega
        simp only [hr, true_and, hlt]
      · simp only [hr, false_and]

/-- Effect of `sum`: every in-range cell of the receiver gets the sum of the cells of the
operands at the same position; other cells and the dimensions are kept. -/
theorem sum_spec (P a b : Matrix) :
    (P.sum a b).m_rows = P.m_rows ∧ (P.sum a b).m_cols = P.m_cols ∧
    ∀ r c, (P.sum a b).item r c
      = if r < P.m_rows ∧ c < P.m_cols then a.item r c + b.item r c else P.item r c := by
  unfold sum
  refine forLoop_inv (fun i (Q : Matrix) => Q.m_rows = P.m_rows ∧ Q.m_cols = P.m_cols ∧
      ∀ r c, Q.item r c
        = if r < i ∧ c < P.m_cols then a.item r c + b.item r c else P.item r c)
      0 P.rows _ _ (Nat.zero_le _) ?_ ?_
  · exact ⟨rfl, rfl, fun r c => by simp⟩
  · rintro i Q - - ⟨h1, h2, h3⟩
    have hc : Q.cols = P.m_cols := h2
    rw [hc]
    obtain ⟨e1, e2, e3⟩ := sum_inner Q a b i P.m_cols
    refine ⟨e1.trans h1, e2.trans h2, fun r c => ?_⟩
    rw [e3 r c, h3 r c]
    by_cases hr : r = i
    · by_cases hcc : c < P.m_cols
      · rw [if_pos ⟨hr, hcc⟩, if_pos ⟨by omega, hcc⟩]
      · rw [if_neg (fun h0 => hcc h0.2), if_neg (fun h0 => hcc h0.2), if_neg (fun h0 => hcc h0.2)]
    · rw [if_neg (fun h0 => hr h0.1)]
      have hlt : (r < i + 1) ↔ (r < i) := by omega
      simp only [hlt]

/-- A guarded accumulation into cell `(i, j)`: skipping the step when a factor is zero
leaves what adding the product would leave. -/
theorem guardedAdd_spec (Q : Matrix) (i j : Nat) (x y : ℚ) :
    (if x ≠ 0 ∧ y ≠ 0 then Q.setItem i j (Q.item i j + x * y) else Q).m_rows = Q.m_rows ∧
    (if x ≠ 0 ∧ y ≠ 0 then Q.setItem i j (Q.item i j + x * y) else Q).m_cols = Q.m_cols ∧
    ∀ r c, (if x ≠ 0 ∧ y ≠ 0 then Q.setItem i j (Q.item i j + x * y) else Q).item r c
      = if r = i ∧ c = j then Q.item i j + x * y else Q.item r c := by
  by_cases h : x ≠ 0 ∧ y ≠ 0
  · rw [if_pos h]
    exact ⟨rfl, rfl, fun r c => item_setItem _ _ _ _ _ _⟩
  · rw [if_neg h]
    refine ⟨rfl, rfl, fun r c => ?_⟩
    have hz : x * y = 0 := by
      by_cases hx : x = 0
      · rw [hx, zero_mul]
      · have hy : y = 0 := by
          by_contra hy
          exact h ⟨hx, hy⟩
        rw [hy, mul_zero]
    by_cases hrc : r = i ∧ c = j
    · rw [if_pos hrc, hz, add_zero, hrc.1, hrc.2]
    · rw [if_neg hrc]

/-- Effect of one step of the innermost loop of `productSym`: cell `(i, j)` gains the
term of index `k`, read from `a` and `b` at the positions the three cases choose. -/
theorem productSymInner_spec (a b : Matrix) (i j k : Nat) (Q : Matrix) :
    (productSymInner a b i j k Q).m_rows = Q.m_rows ∧
    (productSymInner a b i j k Q).m_cols = Q.m_cols ∧
    ∀ r c, (productSymInner a b i j k Q).item r c
      = if r = i ∧ c = j then
          Q.item i j + (if k > j then a.item i k * b.item j k
            else if i > k then a.item k i * b.item k j else a.item i k * b.item k j)
        else Q.item r c := by
  unfold productSymInner
  by_cases h1 : k > j
  · rw [if_pos h1, if_pos h1]
    exact guardedAdd_spec Q i j _ _
  · rw [if_neg h1, if_neg h1]
    by_cases h2 : i > k
    · rw [if_pos h2, if_pos h2]
      exact guardedAdd_spec Q i j _ _
    · rw [if_neg h2, if_neg h2]
      exact guardedAdd_spec Q i j _ _

/-- Effect of the innermost loop of `productSym` over `k < n`: cell `(i, j)` gains the
sum of the terms. -/
theorem productSym_inner (a b : Matrix) (i j n : Nat) (Q : Matrix) :
    (forLoop 0 n (productSymInner a b i j) Q).m_rows = Q.m_rows ∧
    (forLoop 0 n (productSymInner a b i j) Q).m_cols = Q.m_cols ∧
    ∀ r c, (forLoop 0 n (productSymInner a b i j) Q).item r c
      = if r = i ∧ c = j then
          Q.item i j + ∑ k in Finset.range n, (if k > j then a.item i k * b.item j k
            else if i > k then a.item k i * b.item k j else a.item i k * b.item k j)
        else Q.item r c := by
  refine forLoop_inv (fun m (Q0 : Matrix) => Q0.m_rows = Q.m_rows ∧ Q0.m_cols = Q.m_cols ∧
      ∀ r c, Q0.item r c = if r = i ∧ c = j then
          Q.item i j + ∑ k in Finset.range m, (if k > j then a.item i k * b.item j k
            else if i > k then a.item k i * b.item k j else a.item i k * b.item k j)
        else Q.item r c) 0 n _ _ (Nat.zero_le _) ?_ ?_
  · refine ⟨rfl, rfl, fun r c => ?_⟩
    by_cases h : r = i ∧ c = j
    · rw [if_pos h, Finset.sum_range_zero, add_zero, h.1, h.2]
    · rw [if_neg h]
  · rintro m Q0 - - ⟨h1, h2, h3⟩
    obtain ⟨e1, e2, e3⟩ := productSymInner_spec a b i j m Q0
    refine ⟨e1.trans h1, e2.trans h2, fun r c => ?_⟩
    rw [e3 r c]
    by_cases h : r = i ∧ c = j
    · rw [if_pos h, if_pos h, h3 i j, if_pos ⟨rfl, rfl⟩, Finset.sum_range_succ, add_assoc]
    · rw [if_neg h, if_neg h, h3 r c, if_neg h]

/-- Effect of `productSym`, on any operands: every in-range cell strictly above the
diagonal gets the sum of the terms of the innermost loop, every in-range cell on or
below the diagonal gets `0`; other cells and the dimensions are kept. -/
theorem productSym_spec (P a b : Matrix) :
    (P.productSym a b).m_rows = P.m_rows ∧ (P.productSym a b).m_cols = P.m_cols ∧
    ∀ r c, (P.productSym a b).item r c
      = if r < P.m_rows ∧ c < P.m_cols then
          (if r < c then
            ∑ k in Finset.range P.m_rows, (if k > c then a.item r k * b.item c k
              else if r > k then a.item k r * b.item k c else a.item r k * b.item k c)
           else 0)
        else P.item r c := by
  unfold productSym
  refine forLoop_inv (fun i (Q : Matrix) => Q.m_rows = P.m_rows ∧ Q.m_cols = P.m_cols ∧
      ∀ r c, Q.item r c = if r < i ∧ c < P.m_cols then
          (if r < c then
            ∑ k in Finset.range P.m_rows, (if k > c then a.item r k * b.item c k
              else if r > k then a.item k r * b.item k c else a.item r k * b.item k c)
           else 0)
        else P.item r c) 0 P.rows _ P (Nat.zero_le _) ?_ ?_
  · exact ⟨rfl, rfl, fun r c => by simp⟩
  · rintro i Q - - ⟨h1, h2, h3⟩
    have hc : Q.cols = P.m_cols := h2
    rw [hc]
    generalize hL : forLoop 0 P.m_cols _ Q = L
    have key : L.m_rows = P.m_rows ∧ L.m_cols = P.m_cols ∧
      ∀ r c, L.item r c = if (r < i ∧ c < P.m_cols) ∨ (r = i ∧ c < P.m_cols) then
          (if r < c then
            ∑ k in Finset.range P.m_rows, (if k > c then a.item r k * b.item c k
              else if r > k then a.item k r * b.item k c else a.item r k * b.item k c)
           else 0)
        else P.item r c := by
      rw [← hL]
      refine forLoop_inv (fun j (Q0 : Matrix) => Q0.m_rows = P.m_rows ∧ Q0.m_cols = P.m_cols ∧
        ∀ r c, Q0.item r c = if (r < i ∧ c < P.m_cols) ∨ (r = i ∧ c < j) then
            (if r < c then
              ∑ k in Finset.range P.m_rows, (if k > c then a.item r k * b.item c k
                else if r > k then a.item k r * b.item k c else a.item r k * b.item k c)
             else 0)
          else P.item r c) 0 P.m_cols _ Q (Nat.zero_le _) ?_ ?_
      · refine ⟨h1, h2, fun r c => ?_⟩
        rw [h3 r c]
        simp
      · rintro j Q0 - hj ⟨g1, g2, g3⟩
        have hrows : (Q0.setItem i j 0).m_rows = P.m_rows := g1
        have hiff : ∀ r c, ¬ (r = i ∧ c = j) →
            (((r < i ∧ c < P.m_cols) ∨ (r = i ∧ c < j + 1))
              ↔ ((r < i ∧ c < P.m_cols) ∨ (r = i ∧ c < j))) := by
          intro r c h
          constructor
          · rintro (h0 | ⟨h0, h0c⟩)
            · exact Or.inl h0
            · refine Or.inr ⟨h0, ?_⟩
              rcases Nat.lt_or_ge c j with hlt | hge
              · exact hlt
              · exact absurd ⟨h0, by omega⟩ h
          · rintro (h0 | ⟨h0, h0c⟩)
            · exact Or.inl h0
            · exact Or.inr ⟨h0, by omega⟩
        simp only []
        by_cases hij : i ≥ j
        · rw [if_pos hij]
          refine ⟨g1, g2, fun r c => ?_⟩
          rw [item_setItem]
          by_cases h : r = i ∧ c = j
          · rw [if_pos h, if_pos (Or.inr ⟨h.1, by omega⟩), if_neg (by omega)]
          · rw [if_neg h, g3 r c]
            simp only [hiff r c h]
        · rw [if_neg hij, hrows]
          obtain ⟨e1, e2, e3⟩ := productSym_inner a b i j P.m_rows (Q0.setItem i j 0)
          refine ⟨e1.trans g1, e2.trans g2, fun r c => ?_⟩
          rw [e3 r c]
          by_cases h : r = i ∧ c = j
          · rw [if_pos h, if_pos (Or.inr ⟨h.1, by omega⟩), if_pos (by omega), item_setItem,
              if_pos ⟨rfl, rfl⟩, zero_add, h.1, h.2]
          · rw [if_neg h, item_setItem, if_neg h, g3 r c]
            simp only [hiff r c h]
    obtain ⟨g1, g2, g3⟩ := key
    refine ⟨g1, g2, fun r c => ?_⟩
    rw [g3 r c]
    have : ((r < i ∧ c < P.m_cols) ∨ (r = i ∧ c < P.m_cols)) ↔ (r < i + 1 ∧ c < P.m_cols) := by
      constructor
      · rintro (⟨h0, h0c⟩ | ⟨h0, h0c⟩)
        · exact ⟨by omega, h0c⟩
        · exact ⟨by omega, h0c⟩
      · rintro ⟨h0, h0c⟩
        rcases Nat.lt_or_ge r i with hlt | hge
        · exact Or.inl ⟨hlt, h0c⟩
        · exact Or.inr ⟨by omega, h0c⟩
    simp only [this]

/-- Claim C17, as the code has it.  For every pair of symmetric `n × n` matrices `A`, `B`
and `n × n` receiver `P`, after `P.productSym(A, B)` every cell strictly above the
diagonal (`i < j`) equals the sum over `k` of `A(i,k) · B(k,j)`; the receiver keeps its
dimensions. -/
theorem productSym_strict_upper (n : Nat) (P A B : Matrix) (hr : P.m_rows = n)
    (hc : P.m_cols = n) (hA : ∀ i k, i < n → k < n → A.item i k = A.item k i)
    (hB : ∀ i k, i < n → k < n → B.item i k = B.item k i) :
    (P.productSym A B).rows = n ∧ (P.productSym A B).cols = n ∧
    ∀ i j, i < j → j < n →
      (P.productSym A B).item i j = ∑ k in Finset.range n, A.item i k * B.item k j := by
  obtain ⟨h1, h2, h3⟩ := productSym_spec P A B
  refine ⟨h1.trans hr, h2.trans hc, fun i j hij hj => ?_⟩
  rw [h3 i j, hr, hc, if_pos ⟨by omega, hj⟩, if_pos hij]
  refine Finset.sum_congr rfl (fun k hk => ?_)
  have hk0 : k < n := Finset.mem_range.mp hk
  by_cases g1 : k > j
  · rw [if_pos g1, hB j k hj hk0]
  · rw [if_neg g1]
    by_cases g2 : i > k
    · rw [if_pos g2, hA k i hk0 (by omega)]
    · rw [if_neg g2]

/-- Instance of C17 as the code has it: symmetric `3 × 3` operands, at the cells `(0, 1)`,
`(0, 2)` and `(1, 2)`. -/
theorem productSym_strict_upper_witness :
    ((ofRows [[7, 7, 7], [7, 7, 7], [7, 7, 7]]).productSym
        (ofRows [[1, 2, 3], [2, 4, 5], [3, 5, 6]])
        (ofRows [[0, 1, 2], [1, 3, 1], [2, 1, 5]])).item 0 1
      = ∑ k in Finset.range 3, (ofRows [[1, 2, 3], [2, 4, 5], [3, 5, 6]]).item 0 k
          * (ofRows [[0, 1, 2], [1, 3, 1], [2, 1, 5]]).item k 1 ∧
    ((ofRows [[7, 7, 7], [7, 7, 7], [7, 7, 7]]).productSym
        (ofRows [[1, 2, 3], [2, 4, 5], [3, 5, 6]])
        (ofRows [[0, 1, 2], [1, 3, 1], [2, 1, 5]])).item 1 2
      = ∑ k in Finset.range 3, (ofRows [[1, 2, 3], [2, 4, 5], [3, 5, 6]]).item 1 k
          * (ofRows [[0, 1, 2], [1, 3, 1], [2, 1, 5]]).item k 2 :=
  ⟨(productSym_strict_upper 3 (ofRows [[7, 7, 7], [7, 7, 7], [7, 7, 7]])
      (ofRows [[1, 2, 3], [2, 4, 5], [3, 5, 6]]) (ofRows [[0, 1, 2], [1, 3, 1], [2, 1, 5]])
      rfl rfl
      (by intro i k hi hk; interval_cases i <;> interval_cases k <;> rfl)
      (by intro i k hi hk; interval_cases i <;> interval_cases k <;> rfl)).2.2 0 1
      (by decide) (by decide),
   (productSym_strict_upper 3 (ofRows [[7, 7, 7], [7, 7, 7], [7, 7, 7]])
      (ofRows [[1, 2, 3], [2, 4, 5], [3, 5, 6]]) (ofRows [[0, 1, 2], [1, 3, 1], [2, 1, 5]])
      rfl rfl
      (by intro i k hi hk; interval_cases i <;> interval_cases k <;> rfl)
      (by intro i k hi hk; interval_cases i <;> interval_cases k <;> rfl)).2.2 1 2
      (by decide) (by decide)⟩

/-! ## Fresh matrices: `identityMatrix`, `zeroMatrix`, `resize`, the constructor -/

/-- The allocation of fresh rows forgets the rows held before. -/
theorem newRows_mk (m n : Nat) (row : Nat → Row) :
    ({ m_rows := m, m_cols := n, row := row } : Matrix).newRows
      = { m_rows := m, m_cols := n, row := fun _ => Row.empty } := rfl

/-- Claim C21.  For every prior state of the matrix and every `n`, after
`identityMatrix(n)` the matrix is `n × n` with cell `(i, j)` equal to `1` when `i = j` and
to `0` otherwise; nothing of the prior content survives: the result is the one obtained
from an empty matrix. -/
theorem identityMatrix_cells (M : Matrix) (n : Nat) :
    (M.identityMatrix n).rows = n ∧ (M.identityMatrix n).cols = n ∧
    (∀ i j, i < n → j < n → (M.identityMatrix n).item i j = if i = j then 1 else 0) ∧
    M.identityMatrix n = (mk0 0 0).identityMatrix n := by
  obtain ⟨h1, h2, h3⟩ := identityMatrix_spec M n
  refine ⟨h1, h2, fun i j hi _ => ?_, ?_⟩
  · rw [h3 i j]
    by_cases h : i = j
    · rw [if_pos ⟨h, hi⟩, if_pos h]
    · rw [if_neg (fun h0 => h h0.1), if_neg h]
  · unfold identityMatrix
    simp only [newRows_mk]

/-- Instance of C21: a `2 × 2` matrix with nonzero cells, made the `3 × 3` identity. -/
theorem identityMatrix_cells_witness :
    ((ofRows [[5, 6], [7, 8]]).identityMatrix 3).item 1 1 = 1 ∧
    ((ofRows [[5, 6], [7, 8]]).identityMatrix 3).item 0 1 = 0 :=
  ⟨(identityMatrix_cells (ofRows [[5, 6], [7, 8]]) 3).2.2.1 1 1 (by decide) (by decide),
   (identityMatrix_cells (ofRows [[5, 6], [7, 8]]) 3).2.2.1 0 1 (by decide) (by decide)⟩

/-- Effect of a loop that rewrites the cells `(i, 0), ..., (i, n - 1)` of row `i`, each
from the operands and from its own former value. -/
theorem rowRewrite_spec (f : Nat → Nat → ℚ → ℚ) (i n : Nat) (Q : Matrix) :
    (forLoop 0 n (fun j (P : Matrix) => P.setItem i j (f i j (P.item i j))) Q).m_rows
        = Q.m_rows ∧
    (forLoop 0 n (fun j (P : Matrix) => P.setItem i j (f i j (P.item i j))) Q).m_cols
        = Q.m_cols ∧
    ∀ r c, (forLoop 0 n (fun j (P : Matrix) => P.setItem i j (f i j (P.item i j))) Q).item r c
      = if r = i ∧ c < n then f r c (Q.item r c) else Q.item r c := by
  refine forLoop_inv (fun m (P : Matrix) => P.m_rows = Q.m_rows ∧ P.m_cols = Q.m_cols ∧
      ∀ r c, P.item r c = if r = i ∧ c < m then f r c (Q.item r c) else Q.item r c)
      0 n _ _ (Nat.zero_le _) ?_ ?_
  · exact ⟨rfl, rfl, fun r c => by simp⟩
  · rintro m P - - ⟨h1, h2, h3⟩
    refine ⟨h1, h2, fun r c => ?_⟩
    rw [item_setItem]
    by_cases h : r = i ∧ c = m
    · rw [if_pos h, if_pos ⟨h.1, by omega⟩, h3 i m, if_neg (by omega), h.1, h.2]
    · rw [if_neg h, h3 r c]
      by_cases hr : r = i
      · have hcm : c ≠ m := fun h0 => h ⟨hr, h0⟩
        have hlt : (c < m + 1) ↔ (c < m) := by omega
        simp only [hr, true_and, hlt]
      · simp only [hr, false_and]

/-- Effect of a double loop that rewrites every in-range cell, each from its own former
value: the dimensions and the other cells are kept. -/
theorem cellRewrite_spec (f : Nat → Nat → ℚ → ℚ) (M : Matrix) :
    (forLoop 0 M.rows (fun i (P : Matrix) =>
        forLoop 0 P.cols (fun j (P : Matrix) => P.setItem i j (f i j (P.item i j))) P) M).m_rows
      = M.m_rows ∧
    (forLoop 0 M.rows (fun i (P : Matrix) =>
        forLoop 0 P.cols (fun j (P : Matrix) => P.setItem i j (f i j (P.item i j))) P) M).m_cols
      = M.m_cols ∧
    ∀ r c, (forLoop 0 M.rows (fun i (P : Matrix) =>
        forLoop 0 P.cols (fun j (P : Matrix) => P.setItem i j (f i j (P.item i j))) P) M).item r c
      = if r < M.m_rows ∧ c < M.m_cols then f r c (M.item r c) else M.item r c := by
  refine forLoop_inv (fun i (Q : Matrix) => Q.m_rows = M.m_rows ∧ Q.m_cols = M.m_cols ∧
      ∀ r c, Q.item r c
        = if r < i ∧ c < M.m_cols then f r c (M.item r c) else M.item r c)
      0 M.rows _ _ (Nat.zero_le _) ?_ ?_
  · exact ⟨rfl, rfl, fun r c => by simp⟩
  · rintro i Q - - ⟨h1, h2, h3⟩
    have hc : Q.cols = M.m_cols := h2
    rw [hc]
    obtain ⟨e1, e2, e3⟩ := rowRewrite_spec f i M.m_cols Q
    refine ⟨e1.trans h1, e2.trans h2, fun r c => ?_⟩
    rw [e3 r c, h3 r c]
    by_cases hr : r = i
    · by_cases hcc : c < M.m_cols
      · rw [if_pos ⟨hr, hcc⟩, if_neg (fun h0 => by omega), if_pos ⟨by omega, hcc⟩]
      · rw [if_neg (fun h0 => hcc h0.2), if_neg (fun h0 => hcc h0.2), if_neg (fun h0 => hcc h0.2)]
    · rw [if_neg (fun h0 => hr h0.1)]
      have hlt : (r < i + 1) ↔ (r < i) := by omega
      simp only [hlt]

/-- Effect of `subtractFromI`: every in-range diagonal cell becomes `1` minus itself; the
other cells and the dimensions are kept. -/
theorem subtractFromI_spec (M : Matrix) :
    M.subtractFromI.m_rows = M.m_rows ∧ M.subtractFromI.m_cols = M.m_cols ∧
    ∀ r c, M.subtractFromI.item r c
      = if r < M.m_rows ∧ c < M.m_cols ∧ r = c then 1 - M.item r c else M.item r c := by
  have hbody : M.subtractFromI
      = forLoop 0 M.rows (fun i (P : Matrix) =>
          forLoop 0 P.cols (fun j (P : Matrix) =>
            P.setItem i j ((fun a b (x : ℚ) => if a = b then 1 - x else x) i j (P.item i j))) P)
          M := by
    unfold subtractFromI
    congr 1
    funext i P
    congr 1
    funext j P
    by_cases h : i = j
    · simp only [h, if_true]
    · simp only [h, if_false]
  obtain ⟨h1, h2, h3⟩ := cellRewrite_spec (fun a b (x : ℚ) => if a = b then 1 - x else x) M
  rw [hbody]
  refine ⟨h1, h2, fun r c => ?_⟩
  rw [h3 r c]
  by_cases hr1 : r < M.m_rows <;> by_cases hc1 : c < M.m_cols <;> by_cases hrc : r = c <;>
    simp only [hr1, hc1, hrc, and_self, and_true, true_and, false_and, and_false, if_true,
      if_false]

/-- Effect of `operator +=`: every in-range cell of the receiver gains the cell of `b` at
the same position; the other cells and the dimensions are kept. -/
theorem plusAssign_spec (M b : Matrix) :
    (M.plusAssign b).m_rows = M.m_rows ∧ (M.plusAssign b).m_cols = M.m_cols ∧
    ∀ r c, (M.plusAssign b).item r c
      = if r < M.m_rows ∧ c < M.m_cols then M.item r c + b.item r c else M.item r c :=
  cellRewrite_spec (fun i j (x : ℚ) => x + b.item i j) M

/-- Effect of a double loop with fixed bounds that writes every cell `(i, j)` with
`i < m`, `j < n`: the dimensions and the other cells are kept. -/
theorem cellWrite_spec (g : Nat → Nat → ℚ) (m n : Nat) (Q : Matrix) :
    (forLoop 0 m (fun i (P : Matrix) =>
        forLoop 0 n (fun j (P : Matrix) => P.setItem i j (g i j)) P) Q).m_rows = Q.m_rows ∧
    (forLoop 0 m (fun i (P : Matrix) =>
        forLoop 0 n (fun j (P : Matrix) => P.setItem i j (g i j)) P) Q).m_cols = Q.m_cols ∧
    ∀ r c, (forLoop 0 m (fun i (P : Matrix) =>
        forLoop 0 n (fun j (P : Matrix) => P.setItem i j (g i j)) P) Q).item r c
      = if r < m ∧ c < n then g r c else Q.item r c := by
  refine forLoop_inv (fun i (P : Matrix) => P.m_rows = Q.m_rows ∧ P.m_cols = Q.m_cols ∧
      ∀ r c, P.item r c = if r < i ∧ c < n then g r c else Q.item r c)
      0 m _ _ (Nat.zero_le _) ?_ ?_
  · exact ⟨rfl, rfl, fun r c => by simp⟩
  · rintro i P - - ⟨h1, h2, h3⟩
    obtain ⟨e1, e2, e3⟩ := rowRewrite_spec (fun a b _ => g a b) i n P
    refine ⟨e1.trans h1, e2.trans h2, fun r c => ?_⟩
    rw [e3 r c, h3 r c]
    by_cases hr : r = i
    · by_cases hcc : c < n
      · rw [if_pos ⟨hr, hcc⟩, if_pos ⟨by omega, hcc⟩]
      · rw [if_neg (fun h0 => hcc h0.2), if_neg (fun h0 => hcc h0.2), if_neg (fun h0 => hcc h0.2)]
    · rw [if_neg (fun h0 => hr h0.1)]
      have hlt : (r < i + 1) ↔ (r < i) := by omega
      simp only [hlt]

/-- Effect of `operator +`: the returned matrix has the dimensions of the receiver and
holds the sums in range and zeros elsewhere; the operands are as before. -/
theorem plus_spec (M b : Matrix) :
    (M.plus b).1.m_rows = M.m_rows ∧ (M.plus b).1.m_cols = M.m_cols ∧
    (∀ r c, (M.plus b).1.item r c
      = if r < M.m_rows ∧ c < M.m_cols then M.item r c + b.item r c else 0) ∧
    (M.plus b).2 = (M, b) := by
  obtain ⟨z1, z2, z3⟩ := zeroMatrix_spec (mk0 0 0) M.rows M.cols
  obtain ⟨e1, e2, e3⟩ := cellWrite_spec (fun i j => M.item i j + b.item i j) M.rows M.cols
    ((mk0 0 0).zeroMatrix M.rows M.cols)
  unfold plus
  refine ⟨e1.trans z1, e2.trans z2, fun r c => ?_, rfl⟩
  simp only []
  rw [e3 r c, z3 r c]
  rfl

/-- Claim C28.  For every matrix, after `subtractFromI()` every diagonal cell `(i, i)`
equals `1` minus its former value and every off-diagonal cell is unchanged (not negated);
the dimensions are kept. -/
theorem subtractFromI_cells (M : Matrix) :
    M.subtractFromI.rows = M.rows ∧ M.subtractFromI.cols = M.cols ∧
    (∀ i, i < M.rows → i < M.cols → M.subtractFromI.item i i = 1 - M.item i i) ∧
    (∀ i j, i ≠ j → M.subtractFromI.item i j = M.item i j) := by
  obtain ⟨h1, h2, h3⟩ := subtractFromI_spec M
  refine ⟨h1, h2, fun i hi hj => ?_, fun i j hij => ?_⟩
  · rw [h3 i i, if_pos ⟨hi, hj, rfl⟩]
  · rw [h3 i j, if_neg (fun h0 => hij h0.2.2)]

/-- Instance of C28 on the matrix with rows `(1, 2, 3)` and `(4, 5, 6)`: the cell `(1, 1)`
becomes `1 - 5`, the cell `(0, 1)` stays `2`. -/
theorem subtractFromI_cells_witness :
    (ofRows [[1, 2, 3], [4, 5, 6]]).subtractFromI.item 1 1
      = 1 - (ofRows [[1, 2, 3], [4, 5, 6]]).item 1 1 ∧
    (ofRows [[1, 2, 3], [4, 5, 6]]).subtractFromI.item 0 1
      = (ofRows [[1, 2, 3], [4, 5, 6]]).item 0 1 :=
  ⟨(subtractFromI_cells (ofRows [[1, 2, 3], [4, 5, 6]])).2.2.1 1 (by decide) (by decide),
   (subtractFromI_cells (ofRows [[1, 2, 3], [4, 5, 6]])).2.2.2 0 1 (by decide)⟩

/-! ## The scans `findMinMaxValues` and `NeighboursNearestFarthest` -/

/-- Invariant rule for a scan of the cells in row-major order: `J r c` holds when the
cells before `(r, c)` are done. -/
theorem forLoop_scan_inv {σ : Type} (J : Nat → Nat → σ → Prop) (m n : Nat)
    (body : Nat → Nat → σ → σ) (s : σ) (h0 : J 0 0 s)
    (hrow : ∀ r t, r < m → J r n t → J (r + 1) 0 t)
    (hstep : ∀ r c t, r < m → c < n → J r c t → J r (c + 1) (body r c t)) :
    J m 0 (forLoop 0 m (fun r t => forLoop 0 n (body r) t) s) := by
  refine forLoop_inv (fun r t => J r 0 t) 0 m _ _ (Nat.zero_le _) h0 ?_
  intro r t _ hr hJ
  exact hrow r _ hr (forLoop_inv (fun c t => J r c t) 0 n (body r) t (Nat.zero_le _) hJ
    (fun c t _ hc h => hstep r c t hr hc h))

/-- A cell `(x, y)` comes before `(r, c + 1)` in row-major order when it comes before
`(r, c)` or is `(r, c)`. -/
theorem seen_succ (r c x y : Nat) :
    (x < r ∨ (x = r ∧ y < c + 1)) ↔ ((x < r ∨ (x = r ∧ y < c)) ∨ (x = r ∧ y = c)) := by
  constructor
  · rintro (h | ⟨h1, h2⟩)
    · exact Or.inl (Or.inl h)
    · rcases Nat.lt_or_ge y c with hlt | hge
      · exact Or.inl (Or.inr ⟨h1, hlt⟩)
      · exact Or.inr ⟨h1, by omega⟩
  · rintro ((h | ⟨h1, h2⟩) | ⟨h1, h2⟩)
    · exact Or.inl h
    · exact Or.inr ⟨h1, by omega⟩
    · exact Or.inr ⟨h1, by omega⟩

/-- The values left in `min` and `max` by one step of the scan of `findMinMaxValues`. -/
theorem findMinMaxStep (x : ℚ) (t : MinMax) :
    ((fun (s : MinMax) => if x < s.min then { s with min := x } else s)
      ((fun (s : MinMax) => if x > s.max then { s with max := x } else s)
        (if fmod x 1 ≠ 0 then { t with hasRealNumbers := true } else t))).min
      = (if x < t.min then x else t.min) ∧
    ((fun (s : MinMax) => if x < s.min then { s with min := x } else s)
      ((fun (s : MinMax) => if x > s.max then { s with max := x } else s)
        (if fmod x 1 ≠ 0 then { t with hasRealNumbers := true } else t))).max
      = (if x > t.max then x else t.max) := by
  by_cases h1 : fmod x 1 = 0 <;> by_cases h2 : x > t.max <;> by_cases h3 : x < t.min <;>
    simp [h1, h2, h3]

/-- Result of `findMinMaxValues`: `min` and `max` bound every in-range cell, `min` is at
most `RAND_MAX` and is `RAND_MAX` or the value of a cell, `max` is at least `0` and is
`0` or the value of a cell. -/
theorem findMinMaxValues_spec (M : Matrix) (R : ℚ) :
    (∀ r c, r < M.m_rows → c < M.m_cols →
      (M.findMinMaxValues R).min ≤ M.item r c ∧ M.item r c ≤ (M.findMinMaxValues R).max) ∧
    (M.findMinMaxValues R).min ≤ R ∧ 0 ≤ (M.findMinMaxValues R).max ∧
    ((M.findMinMaxValues R).min = R ∨
      ∃ r c, r < M.m_rows ∧ c < M.m_cols ∧ M.item r c = (M.findMinMaxValues R).min) ∧
    ((M.findMinMaxValues R).max = 0 ∨
      ∃ r c, r < M.m_rows ∧ c < M.m_cols ∧ M.item r c = (M.findMinMaxValues R).max) := by
  have key : (fun (r c : Nat) (s : MinMax) =>
      (∀ x y, y < M.m_cols → (x < r ∨ (x = r ∧ y < c)) →
        s.min ≤ M.item x y ∧ M.item x y ≤ s.max) ∧
      s.min ≤ R ∧ 0 ≤ s.max ∧
      (s.min = R ∨ ∃ x y, y < M.m_cols ∧ (x < r ∨ (x = r ∧ y < c)) ∧ M.item x y = s.min) ∧
      (s.max = 0 ∨ ∃ x y, y < M.m_cols ∧ (x < r ∨ (x = r ∧ y < c)) ∧ M.item x y = s.max))
      M.m_rows 0 (M.findMinMaxValues R) := by
    unfold findMinMaxValues
    refine forLoop_scan_inv (fun (r c : Nat) (s : MinMax) =>
      (∀ x y, y < M.m_cols → (x < r ∨ (x = r ∧ y < c)) →
        s.min ≤ M.item x y ∧ M.item x y ≤ s.max) ∧
      s.min ≤ R ∧ 0 ≤ s.max ∧
      (s.min = R ∨ ∃ x y, y < M.m_cols ∧ (x < r ∨ (x = r ∧ y < c)) ∧ M.item x y = s.min) ∧
      (s.max = 0 ∨ ∃ x y, y < M.m_cols ∧ (x < r ∨ (x = r ∧ y < c)) ∧ M.item x y = s.max))
      M.rows M.cols _ _ ?_ ?_ ?_
    · refine ⟨fun x y _ h => ?_, le_refl _, le_refl _, Or.inl rfl, Or.inl rfl⟩
      rcases h with h | ⟨_, h⟩
      · exact absurd h (Nat.not_lt_zero _)
      · exact absurd h (Nat.not_lt_zero _)
    · rintro r t - ⟨h1, h2, h3, h4, h5⟩
      have hiff : ∀ x y, y < M.m_cols →
          ((x < r + 1 ∨ (x = r + 1 ∧ y < 0)) ↔ (x < r ∨ (x = r ∧ y < M.cols))) := by
        intro x y hy
        have hy0 : y < M.cols := hy
        constructor
        · rintro (h | ⟨_, h⟩)
          · rcases Nat.lt_or_ge x r with hlt | hge
            · exact Or.inl hlt
            · exact Or.inr ⟨by omega, hy0⟩
          · exact absurd h (Nat.not_lt_zero _)
        · rintro (h | ⟨h, _⟩)
          · exact Or.inl (by omega)
          · exact Or.inl (by omega)
      refine ⟨fun x y hy h => h1 x y hy ((hiff x y hy).mp h), h2, h3, ?_, ?_⟩
      · rcases h4 with h | ⟨x, y, hy, h, he⟩
        · exact Or.inl h
        · exact Or.inr ⟨x, y, hy, (hiff x y hy).mpr h, he⟩
      · rcases h5 with h | ⟨x, y, hy, h, he⟩
        · exact Or.inl h
        · exact Or.inr ⟨x, y, hy, (hiff x y hy).mpr h, he⟩
    · rintro r c t - hc ⟨h1, h2, h3, h4, h5⟩
      have hc0 : c < M.m_cols := hc
      obtain ⟨e1, e2⟩ := findMinMaxStep (M.item r c) t
      simp only [] at e1 e2
      simp only []
      rw [e1, e2]
      refine ⟨fun x y hy h => ?_, ?_, ?_, ?_, ?_⟩
      · rcases (seen_succ r c x y).mp h with h | ⟨hx, hy0⟩
        · obtain ⟨g1, g2⟩ := h1 x y hy h
          constructor
          · by_cases hlt : M.item r c < t.min
            · rw [if_pos hlt]
              exact le_trans (le_of_lt hlt) g1
            · rw [if_neg hlt]
              exact g1
          · by_cases hgt : M.item r c > t.max
            · rw [if_pos hgt]
              exact le_trans g2 (le_of_lt hgt)
            · rw [if_neg hgt]
              exact g2
        · rw [hx, hy0]
          constructor
          · by_cases hlt : M.item r c < t.min
            · rw [if_pos hlt]
            · rw [if_neg hlt]
              exact not_lt.mp hlt
          · by_cases hgt : M.item r c > t.max
            · rw [if_pos hgt]
            · rw [if_neg hgt]
              exact not_lt.mp hgt
      · by_cases hlt : M.item r c < t.min
        · rw [if_pos hlt]
          exact le_trans (le_of_lt hlt) h2
        · rw [if_neg hlt]
          exact h2
      · by_cases hgt : M.item r c > t.max
        · rw [if_pos hgt]
          exact le_trans h3 (le_of_lt hgt)
        · rw [if_neg hgt]
          exact h3
      · by_cases hlt : M.item r c < t.min
        · rw [if_pos hlt]
          exact Or.inr ⟨r, c, hc0, (seen_succ r c r c).mpr (Or.inr ⟨rfl, rfl⟩), rfl⟩
        · rw [if_neg hlt]
          rcases h4 with h | ⟨x, y, hy, h, he⟩
          · exact Or.inl h
          · exact Or.inr ⟨x, y, hy, (seen_succ r c x y).mpr (Or.inl h), he⟩
      · by_cases hgt : M.item r c > t.max
        · rw [if_pos hgt]
          exact Or.inr ⟨r, c, hc0, (seen_succ r c r c).mpr (Or.inr ⟨rfl, rfl⟩), rfl⟩
        · rw [if_neg hgt]
          rcases h5 with h | ⟨x, y, hy, h, he⟩
          · exact Or.inl h
          · exact Or.inr ⟨x, y, hy, (seen_succ r c x y).mpr (Or.inl h), he⟩
  obtain ⟨h1, h2, h3, h4, h5⟩ := key
  refine ⟨fun r c hr hc => h1 r c hc (Or.inl hr), h2, h3, ?_, ?_⟩
  · rcases h4 with h | ⟨x, y, hy, h, he⟩
    · exact Or.inl h
    · rcases h with h | ⟨_, h⟩
      · exact Or.inr ⟨x, y, h, hy, he⟩
      · exact absurd h (Nat.not_lt_zero _)
  · rcases h5 with h | ⟨x, y, hy, h, he⟩
    · exact Or.inl h
    · rcases h with h | ⟨_, h⟩
      · exact Or.inr ⟨x, y, h, hy, he⟩
      · exact absurd h (Nat.not_lt_zero _)

/-- Within the range of its seeds `findMinMaxValues` returns the extremes: `min` equals
the smallest cell of the matrix when some cell is at most `RAND_MAX`, and `max` equals
the largest cell of the matrix when some cell is at least `0`: the value bounds every
cell and is the value of a cell. -/
theorem findMinMaxValues_extremes (M : Matrix) (RAND_MAX : ℚ) :
    ((∃ r c, r < M.rows ∧ c < M.cols ∧ M.item r c ≤ RAND_MAX) →
      (∀ r c, r < M.rows → c < M.cols → (M.findMinMaxValues RAND_MAX).min ≤ M.item r c) ∧
      ∃ r c, r < M.rows ∧ c < M.cols ∧ M.item r c = (M.findMinMaxValues RAND_MAX).min) ∧
    ((∃ r c, r < M.rows ∧ c < M.cols ∧ 0 ≤ M.item r c) →
      (∀ r c, r < M.rows → c < M.cols → M.item r c ≤ (M.findMinMaxValues RAND_MAX).max) ∧
      ∃ r c, r < M.rows ∧ c < M.cols ∧ M.item r c = (M.findMinMaxValues RAND_MAX).max) := by
  obtain ⟨h1, h2, h3, h4, h5⟩ := findMinMaxValues_spec M RAND_MAX
  constructor
  · rintro ⟨r, c, hr, hc, hle⟩
    refine ⟨fun x y hx hy => (h1 x y hx hy).1, ?_⟩
    rcases h4 with h | h
    · exact ⟨r, c, hr, hc, le_antisymm (hle.trans (le_of_eq h.symm)) (h1 r c hr hc).1⟩
    · exact h
  · rintro ⟨r, c, hr, hc, hle⟩
    refine ⟨fun x y hx hy => (h1 x y hx hy).2, ?_⟩
    rcases h5 with h | h
    · exact ⟨r, c, hr, hc, le_antisymm (h1 r c hr hc).2 ((le_of_eq h).trans hle)⟩
    · exact h

/-- Instance of the extremes within the range of the seeds: on the matrix with rows
`(3, -1)` and `(2, 7)`, `min` and `max` bound the cell `(0, 0)`. -/
theorem findMinMaxValues_extremes_witness :
    ((ofRows [[3, -1], [2, 7]]).findMinMaxValues 2147483647).min
      ≤ (ofRows [[3, -1], [2, 7]]).item 0 0 ∧
    (ofRows [[3, -1], [2, 7]]).item 0 0
      ≤ ((ofRows [[3, -1], [2, 7]]).findMinMaxValues 2147483647).max :=
  ⟨((findMinMaxValues_extremes (ofRows [[3, -1], [2, 7]]) 2147483647).1
      ⟨0, 0, by decide, by decide, by decide!⟩).1 0 0 (by decide) (by decide),
   ((findMinMaxValues_extremes (ofRows [[3, -1], [2, 7]]) 2147483647).2
      ⟨0, 0, by decide, by decide, by decide!⟩).1 0 0 (by decide) (by decide)⟩

/-- Claim C24 fails on two instances: on the matrix with rows `(-1, -2)` and `(-3, -4)`,
whose largest cell is `-1`, `max` is left at `0`; on the matrix with the row
`(3000000000, 4000000000)` and `RAND_MAX = 2147483647`, whose smallest cell is
`3000000000`, `min` is left at `RAND_MAX`. -/
theorem findMinMaxValues_seeds_survive :
    ((ofRows [[-1, -2], [-3, -4]]).findMinMaxValues 2147483647).max = 0 ∧
    ((ofRows [[-1, -2], [-3, -4]]).findMinMaxValues 2147483647).min = -4 ∧
    ((ofRows [[3000000000, 4000000000]]).findMinMaxValues 2147483647).min = 2147483647 ∧
    ((ofRows [[3000000000, 4000000000]]).findMinMaxValues 2147483647).max = 4000000000 := by
  decide!

/-- The values left by one step of the scan of `NeighboursNearestFarthest` at an
off-diagonal cell `(r, c)` holding `x`. -/
theorem neighboursStep (x : ℚ) (r c : Nat) (t : Neighbours) :
    ((fun (s : Neighbours) =>
        if x < s.min then { s with min := x, imin := (r : Int), jmin := (c : Int) } else s)
      (if x > t.max then { t with max := x, imax := (r : Int), jmax := (c : Int) } else t))
    = { min := if x < t.min then x else t.min,
        max := if x > t.max then x else t.max,
        imin := if x < t.min then (r : Int) else t.imin,
        jmin := if x < t.min then (c : Int) else t.jmin,
        imax := if x > t.max then (r : Int) else t.imax,
        jmax := if x > t.max then (c : Int) else t.jmax } := by
  by_cases h2 : x > t.max <;> by_cases h3 : x < t.min <;> simp [h2, h3]

/-- Result of `NeighboursNearestFarthest`: `min` and `max` bound every in-range
off-diagonal cell; `min` is at most `RAND_MAX`, and either it is `RAND_MAX` with the
coordinates `imin`, `jmin` as they came in, or `(imin, jmin)` is an off-diagonal position
holding `min`; `max` is at least `0`, and either it is `0` with `imax`, `jmax` as they came
in, or `(imax, jmax)` is an off-diagonal position holding `max`. -/
theorem NeighboursNearestFarthest_spec (M : Matrix) (R : ℚ) (i0 j0 i1 j1 : Int) :
    (∀ r c, r < M.m_rows → c < M.m_cols → r ≠ c →
      (M.NeighboursNearestFarthest R i0 j0 i1 j1).min ≤ M.item r c ∧
      M.item r c ≤ (M.NeighboursNearestFarthest R i0 j0 i1 j1).max) ∧
    (M.NeighboursNearestFarthest R i0 j0 i1 j1).min ≤ R ∧
    0 ≤ (M.NeighboursNearestFarthest R i0 j0 i1 j1).max ∧
    (((M.NeighboursNearestFarthest R i0 j0 i1 j1).min = R ∧
        (M.NeighboursNearestFarthest R i0 j0 i1 j1).imin = i0 ∧
        (M.NeighboursNearestFarthest R i0 j0 i1 j1).jmin = j0) ∨
      ∃ r c, r < M.m_rows ∧ c < M.m_cols ∧ r ≠ c ∧
        M.item r c = (M.NeighboursNearestFarthest R i0 j0 i1 j1).min ∧
        (M.NeighboursNearestFarthest R i0 j0 i1 j1).imin = (r : Int) ∧
        (M.NeighboursNearestFarthest R i0 j0 i1 j1).jmin = (c : Int)) ∧
    (((M.NeighboursNearestFarthest R i0 j0 i1 j1).max = 0 ∧
        (M.NeighboursNearestFarthest R i0 j0 i1 j1).imax = i1 ∧
        (M.NeighboursNearestFarthest R i0 j0 i1 j1).jmax = j1) ∨
      ∃ r c, r < M.m_rows ∧ c < M.m_cols ∧ r ≠ c ∧
        M.item r c = (M.NeighboursNearestFarthest R i0 j0 i1 j1).max ∧
        (M.NeighboursNearestFarthest R i0 j0 i1 j1).imax = (r : Int) ∧
        (M.NeighboursNearestFarthest R i0 j0 i1 j1).jmax = (c : Int)) := by
  have key : (fun (r c : Nat) (s : Neighbours) =>
      (∀ x y, y < M.m_cols → (x < r ∨ (x = r ∧ y < c)) → x ≠ y →
        s.min ≤ M.item x y ∧ M.item x y ≤ s.max) ∧
      s.min ≤ R ∧ 0 ≤ s.max ∧
      ((s.min = R ∧ s.imin = i0 ∧ s.jmin = j0) ∨
        ∃ x y, y < M.m_cols ∧ (x < r ∨ (x = r ∧ y < c)) ∧ x ≠ y ∧ M.item x y = s.min ∧
          s.imin = (x : Int) ∧ s.jmin = (y : Int)) ∧
      ((s.max = 0 ∧ s.imax = i1 ∧ s.jmax = j1) ∨
        ∃ x y, y < M.m_cols ∧ (x < r ∨ (x = r ∧ y < c)) ∧ x ≠ y ∧ M.item x y = s.max ∧
          s.imax = (x : Int) ∧ s.jmax = (y : Int)))
      M.m_rows 0 (M.NeighboursNearestFarthest R i0 j0 i1 j1) := by
    unfold NeighboursNearestFarthest
    refine forLoop_scan_inv (fun (r c : Nat) (s : Neighbours) =>
      (∀ x y, y < M.m_cols → (x < r ∨ (x = r ∧ y < c)) → x ≠ y →
        s.min ≤ M.item x y ∧ M.item x y ≤ s.max) ∧
      s.min ≤ R ∧ 0 ≤ s.max ∧
      ((s.min = R ∧ s.imin = i0 ∧ s.jmin = j0) ∨
        ∃ x y, y < M.m_cols ∧ (x < r ∨ (x = r ∧ y < c)) ∧ x ≠ y ∧ M.item x y = s.min ∧
          s.imin = (x : Int) ∧ s.jmin = (y : Int)) ∧
      ((s.max = 0 ∧ s.imax = i1 ∧ s.jmax = j1) ∨
        ∃ x y, y < M.m_cols ∧ (x < r ∨ (x = r ∧ y < c)) ∧ x ≠ y ∧ M.item x y = s.max ∧
          s.imax = (x : Int) ∧ s.jmax = (y : Int)))
      M.rows M.cols _ _ ?_ ?_ ?_
    · refine ⟨fun x y _ h => ?_, le_refl _, le_refl _, Or.inl ⟨rfl, rfl, rfl⟩,
        Or.inl ⟨rfl, rfl, rfl⟩⟩
      rcases h with h | ⟨_, h⟩
      · exact absurd h (Nat.not_lt_zero _)
      · exact absurd h (Nat.not_lt_zero _)
    · rintro r t - ⟨h1, h2, h3, h4, h5⟩
      have hiff : ∀ x y, y < M.m_cols →
          ((x < r + 1 ∨ (x = r + 1 ∧ y < 0)) ↔ (x < r ∨ (x = r ∧ y < M.cols))) := by
        intro x y hy
        have hy0 : y < M.cols := hy
        constructor
        · rintro (h | ⟨_, h⟩)
          · rcases Nat.lt_or_ge x r with hlt | hge
            · exact Or.inl hlt
            · exact Or.inr ⟨by omega, hy0⟩
          · exact absurd h (Nat.not_lt_zero _)
        · rintro (h | ⟨h, _⟩)
          · exact Or.inl (by omega)
          · exact Or.inl (by omega)
      refine ⟨fun x y hy h => h1 x y hy ((hiff x y hy).mp h), h2, h3, ?_, ?_⟩
      · rcases h4 with h | ⟨x, y, hy, h, he⟩
        · exact Or.inl h
        · exact Or.inr ⟨x, y, hy, (hiff x y hy).mpr h, he⟩
      · rcases h5 with h | ⟨x, y, hy, h, he⟩
        · exact Or.inl h
        · exact Or.inr ⟨x, y, hy, (hiff x y hy).mpr h, he⟩
    · rintro r c t - hc ⟨h1, h2, h3, h4, h5⟩
      have hc0 : c < M.m_cols := hc
      by_cases hrc : r = c
      · simp only [hrc, if_true]
        refine ⟨fun x y hy h hxy => ?_, h2, h3, ?_, ?_⟩
        · rcases (seen_succ c c x y).mp h with h | ⟨hx, hy0⟩
          · exact h1 x y hy (hrc ▸ h) hxy
          · exact absurd (hx.trans hy0.symm) hxy
        · rcases h4 with h | ⟨x, y, hy, h, he⟩
          · exact Or.inl h
          · exact Or.inr ⟨x, y, hy, (seen_succ c c x y).mpr (Or.inl (hrc ▸ h)), he⟩
        · rcases h5 with h | ⟨x, y, hy, h, he⟩
          · exact Or.inl h
          · exact Or.inr ⟨x, y, hy, (seen_succ c c x y).mpr (Or.inl (hrc ▸ h)), he⟩
      · have e := neighboursStep (M.item r c) r c t
        simp only [] at e
        simp only [hrc, if_false]
        rw [e]
        simp only []
        refine ⟨fun x y hy h hxy => ?_, ?_, ?_, ?_, ?_⟩
        · rcases (seen_succ r c x y).mp h with h | ⟨hx, hy0⟩
          · obtain ⟨g1, g2⟩ := h1 x y hy h hxy
            constructor
            · by_cases hlt : M.item r c < t.min
              · rw [if_pos hlt]
                exact le_trans (le_of_lt hlt) g1
              · rw [if_neg hlt]
                exact g1
            · by_cases hgt : M.item r c > t.max
              · rw [if_pos hgt]
                exact le_trans g2 (le_of_lt hgt)
              · rw [if_neg hgt]
                exact g2
          · rw [hx, hy0]
            constructor
            · by_cases hlt : M.item r c < t.min
              · rw [if_pos hlt]
              · rw [if_neg hlt]
                exact not_lt.mp hlt
            · by_cases hgt : M.item r c > t.max
              · rw [if_pos hgt]
              · rw [if_neg hgt]
                exact not_lt.mp hgt
        · by_cases hlt : M.item r c < t.min
          · rw [if_pos hlt]
            exact le_trans (le_of_lt hlt) h2
          · rw [if_neg hlt]
            exact h2
        · by_cases hgt : M.item r c > t.max
          · rw [if_pos hgt]
            exact le_trans h3 (le_of_lt hgt)
          · rw [if_neg hgt]
            exact h3
        · by_cases hlt : M.item r c < t.min
          · rw [if_pos hlt, if_pos hlt, if_pos hlt]
            exact Or.inr ⟨r, c, hc0, (seen_succ r c r c).mpr (Or.inr ⟨rfl, rfl⟩), hrc, rfl, rfl,
              rfl⟩
          · rw [if_neg hlt, if_neg hlt, if_neg hlt]
            rcases h4 with h | ⟨x, y, hy, h, he⟩
            · exact Or.inl h
            · exact Or.inr ⟨x, y, hy, (seen_succ r c x y).mpr (Or.inl h), he⟩
        · by_cases hgt : M.item r c > t.max
          · rw [if_pos hgt, if_pos hgt, if_pos hgt]
            exact Or.inr ⟨r, c, hc0, (seen_succ r c r c).mpr (Or.inr ⟨rfl, rfl⟩), hrc, rfl, rfl,
              rfl⟩
          · rw [if_neg hgt, if_neg hgt, if_neg hgt]
            rcases h5 with h | ⟨x, y, hy, h, he⟩
            · exact Or.inl h
            · exact Or.inr ⟨x, y, hy, (seen_succ r c x y).mpr (Or.inl h), he⟩
  obtain ⟨h1, h2, h3, h4, h5⟩ := key
  refine ⟨fun r c hr hc => h1 r c hc (Or.inl hr), h2, h3, ?_, ?_⟩
  · rcases h4 with h | ⟨x, y, hy, h, he⟩
    · exact Or.inl h
    · rcases h with h | ⟨_, h⟩
      · exact Or.inr ⟨x, y, h, hy, he⟩
      · exact absurd h (Nat.not_lt_zero _)
  · rcases h5 with h | ⟨x, y, hy, h, he⟩
    · exact Or.inl h
    · rcases h with h | ⟨_, h⟩
      · exact Or.inr ⟨x, y, h, hy, he⟩
      · exact absurd h (Nat.not_lt_zero _)

/-- Within the range of its seeds `NeighboursNearestFarthest` returns the off-diagonal
extremes and their coordinates.  After the call, `min` and `max` bound every
off-diagonal cell (the diagonal is ignored); when some off-diagonal cell is
smaller than `RAND_MAX`, `(imin, jmin)` is an off-diagonal position whose cell equals
`min`, so `min` is the minimum over the cells with `r ≠ c`; when some off-diagonal cell is
larger than `0`, `(imax, jmax)` is an off-diagonal position whose cell equals `max`, so
`max` is the maximum over the cells with `r ≠ c`. -/
theorem NeighboursNearestFarthest_extremes (M : Matrix) (RAND_MAX : ℚ)
    (imin jmin imax jmax : Int) :
    (∀ r c, r < M.rows → c < M.cols → r ≠ c →
      (M.NeighboursNearestFarthest RAND_MAX imin jmin imax jmax).min ≤ M.item r c ∧
      M.item r c ≤ (M.NeighboursNearestFarthest RAND_MAX imin jmin imax jmax).max) ∧
    ((∃ r c, r < M.rows ∧ c < M.cols ∧ r ≠ c ∧ M.item r c < RAND_MAX) →
      ∃ r c, r < M.rows ∧ c < M.cols ∧ r ≠ c ∧
        M.item r c = (M.NeighboursNearestFarthest RAND_MAX imin jmin imax jmax).min ∧
        (M.NeighboursNearestFarthest RAND_MAX imin jmin imax jmax).imin = (r : Int) ∧
        (M.NeighboursNearestFarthest RAND_MAX imin jmin imax jmax).jmin = (c : Int)) ∧
    ((∃ r c, r < M.rows ∧ c < M.cols ∧ r ≠ c ∧ 0 < M.item r c) →
      ∃ r c, r < M.rows ∧ c < M.cols ∧ r ≠ c ∧
        M.item r c = (M.NeighboursNearestFarthest RAND_MAX imin jmin imax jmax).max ∧
        (M.NeighboursNearestFarthest RAND_MAX imin jmin imax jmax).imax = (r : Int) ∧
        (M.NeighboursNearestFarthest RAND_MAX imin jmin imax jmax).jmax = (c : Int)) := by
  obtain ⟨h1, -, -, h4, h5⟩ := NeighboursNearestFarthest_spec M RAND_MAX imin jmin imax jmax
  refine ⟨h1, ?_, ?_⟩
  · rintro ⟨r, c, hr, hc, hrc, hlt⟩
    rcases h4 with h | h
    · exact absurd (lt_of_le_of_lt (h1 r c hr hc hrc).1 hlt) (by rw [h.1]; exact lt_irrefl _)
    · exact h
  · rintro ⟨r, c, hr, hc, hrc, hlt⟩
    rcases h5 with h | h
    · exact absurd (lt_of_lt_of_le hlt (h1 r c hr hc hrc).2) (by rw [h.1]; exact lt_irrefl _)
    · exact h

/-- Instance of the off-diagonal extremes within the range of the seeds, on the matrix
with rows `(9, 1, 4)` and `(2, 9, 0)`: `min` and `max` bound the off-diagonal cell `(0, 1)`, and the coordinates
returned are off-diagonal positions holding `min` and `max`. -/
theorem NeighboursNearestFarthest_extremes_witness :
    (((ofRows [[9, 1, 4], [2, 9, 0]]).NeighboursNearestFarthest 2147483647 7 7 7 7).min
        ≤ (ofRows [[9, 1, 4], [2, 9, 0]]).item 0 1 ∧
      (ofRows [[9, 1, 4], [2, 9, 0]]).item 0 1
        ≤ ((ofRows [[9, 1, 4], [2, 9, 0]]).NeighboursNearestFarthest 2147483647 7 7 7 7).max) ∧
    (∃ r c, r < (ofRows [[9, 1, 4], [2, 9, 0]]).rows ∧ c < (ofRows [[9, 1, 4], [2, 9, 0]]).cols ∧
      r ≠ c ∧
      (ofRows [[9, 1, 4], [2, 9, 0]]).item r c
        = ((ofRows [[9, 1, 4], [2, 9, 0]]).NeighboursNearestFarthest 2147483647 7 7 7 7).min ∧
      ((ofRows [[9, 1, 4], [2, 9, 0]]).NeighboursNearestFarthest 2147483647 7 7 7 7).imin
        = (r : Int) ∧
      ((ofRows [[9, 1, 4], [2, 9, 0]]).NeighboursNearestFarthest 2147483647 7 7 7 7).jmin
        = (c : Int)) ∧
    (∃ r c, r < (ofRows [[9, 1, 4], [2, 9, 0]]).rows ∧ c < (ofRows [[9, 1, 4], [2, 9, 0]]).cols ∧
      r ≠ c ∧
      (ofRows [[9, 1, 4], [2, 9, 0]]).item r c
        = ((ofRows [[9, 1, 4], [2, 9, 0]]).NeighboursNearestFarthest 2147483647 7 7 7 7).max ∧
      ((ofRows [[9, 1, 4], [2, 9, 0]]).NeighboursNearestFarthest 2147483647 7 7 7 7).imax
        = (r : Int) ∧
      ((ofRows [[9, 1, 4], [2, 9, 0]]).NeighboursNearestFarthest 2147483647 7 7 7 7).jmax
        = (c : Int)) :=
  ⟨(NeighboursNearestFarthest_extremes (ofRows [[9, 1, 4], [2, 9, 0]]) 2147483647 7 7 7 7).1
      0 1 (by decide) (by decide) (by decide),
   (NeighboursNearestFarthest_extremes (ofRows [[9, 1, 4], [2, 9, 0]]) 2147483647 7 7 7 7).2.1
      ⟨0, 1, by decide, by decide, by decide, by decide!⟩,
   (NeighboursNearestFarthest_extremes (ofRows [[9, 1, 4], [2, 9, 0]]) 2147483647 7 7 7 7).2.2
      ⟨0, 1, by decide, by decide, by decide, by decide!⟩⟩

/-- Claim C25 fails on an instance: on the matrix with rows `(9, -1)` and `(-2, 9)`,
whose off-diagonal cells are `-1` and `-2`, `max` is left at `0`, which is the value of no
off-diagonal cell, and `imax`, `jmax` keep the values they came in with (here `7`, `7`),
which are not a position of the matrix. -/
theorem NeighboursNearestFarthest_seed_survives :
    ((ofRows [[9, -1], [-2, 9]]).NeighboursNearestFarthest 2147483647 7 7 7 7).max = 0 ∧
    ((ofRows [[9, -1], [-2, 9]]).NeighboursNearestFarthest 2147483647 7 7 7 7).imax = 7 ∧
    ((ofRows [[9, -1], [-2, 9]]).NeighboursNearestFarthest 2147483647 7 7 7 7).jmax = 7 ∧
    (ofRows [[9, -1], [-2, 9]]).item 0 1 = -1 ∧ (ofRows [[9, -1], [-2, 9]]).item 1 0 = -2 ∧
    ((ofRows [[9, -1], [-2, 9]]).NeighboursNearestFarthest 2147483647 7 7 7 7).min = -2 ∧
    ((ofRows [[9, -1], [-2, 9]]).NeighboursNearestFarthest 2147483647 7 7 7 7).imin = 1 ∧
    ((ofRows [[9, -1], [-2, 9]]).NeighboursNearestFarthest 2147483647 7 7 7 7).jmin = 0 := by
  decide!

/-! ## Row operations on a matrix that is not square -/

/-- Claim C26 fails on an instance.  On the `2 × 3` matrix with rows `(1, 2, 3)` and
`(4, 5, 6)`, `swapRows(0, 1)` exchanges the first two columns only: the column loop runs
to `rows() = 2`, so the cells `(0, 2)` and `(1, 2)` keep `3` and `6`. -/
theorem swapRows_nonsquare_partial :
    (ofRows [[1, 2, 3], [4, 5, 6]]).rows = 2 ∧ (ofRows [[1, 2, 3], [4, 5, 6]]).cols = 3 ∧
    ((ofRows [[1, 2, 3], [4, 5, 6]]).swapRows 0 1).item 0 0 = 4 ∧
    ((ofRows [[1, 2, 3], [4, 5, 6]]).swapRows 0 1).item 0 1 = 5 ∧
    ((ofRows [[1, 2, 3], [4, 5, 6]]).swapRows 0 1).item 0 2 = 3 ∧
    ((ofRows [[1, 2, 3], [4, 5, 6]]).swapRows 0 1).item 1 0 = 1 ∧
    ((ofRows [[1, 2, 3], [4, 5, 6]]).swapRows 0 1).item 1 1 = 2 ∧
    ((ofRows [[1, 2, 3], [4, 5, 6]]).swapRows 0 1).item 1 2 = 6 := by
  decide!

/-- Claim C27 fails on an instance.  On the `2 × 3` matrix with rows `(1, 2, 3)` and
`(4, 5, 6)`, `multiplyRow(0, 10)` scales the first two cells of row `0` only: the column
loop runs to `rows() = 2`, so the cell `(0, 2)` keeps `3`; row `1` is unchanged. -/
theorem multiplyRow_nonsquare_partial :
    (ofRows [[1, 2, 3], [4, 5, 6]]).rows = 2 ∧ (ofRows [[1, 2, 3], [4, 5, 6]]).cols = 3 ∧
    ((ofRows [[1, 2, 3], [4, 5, 6]]).multiplyRow 0 10).item 0 0 = 10 ∧
    ((ofRows [[1, 2, 3], [4, 5, 6]]).multiplyRow 0 10).item 0 1 = 20 ∧
    ((ofRows [[1, 2, 3], [4, 5, 6]]).multiplyRow 0 10).item 0 2 = 3 ∧
    ((ofRows [[1, 2, 3], [4, 5, 6]]).multiplyRow 0 10).item 1 0 = 4 ∧
    ((ofRows [[1, 2, 3], [4, 5, 6]]).multiplyRow 0 10).item 1 1 = 5 ∧
    ((ofRows [[1, 2, 3], [4, 5, 6]]).multiplyRow 0 10).item 1 2 = 6 := by
  decide!

/-! ## The text renderer -/

/-- A loop that appends to a list, seen through a filter: the kept entries of each pass
follow those of the passes before. -/
theorem forLoop_filter_append {α : Type} (p : α → Bool) (f : Nat → List α → List α)
    (g : Nat → List α) (h : ∀ i os, (f i os).filter p = os.filter p ++ g i) (n : Nat)
    (os : List α) :
    (forLoop 0 n f os).filter p = os.filter p ++ (List.range n).flatMap g := by
  refine forLoop_inv (fun k (L : List α) =>
    L.filter p = os.filter p ++ (List.range k).flatMap g) 0 n f os (Nat.zero_le _) ?_ ?_
  · simp
  · intro k L _ _ hL
    rw [h k L, hL, List.range_succ, List.flatMap_append, List.flatMap_singleton,
      List.append_assoc]

/-- The field width selection sends no cell value. -/
theorem streamWidth_filter (os : List StreamItem) (v : ℚ) (w3 w2 w1 w0 : Int) :
    (streamWidth os v w3 w2 w1 w0).filter isCellValue = os.filter isCellValue := by
  unfold streamWidth
  split_ifs <;> simp [List.filter_append, isCellValue]

/-- One cell sends one value: `INFINITY` when the cell is `-1` or `RAND_MAX`, its number
otherwise. -/
theorem streamCell_filter (R : ℚ) (fieldWidth : Int) (element : ℚ) (os : List StreamItem) :
    (streamCell R fieldWidth element os).filter isCellValue
      = os.filter isCellValue
        ++ [if element = -1 ∨ element = R then StreamItem.INFINITY
            else StreamItem.real element] := by
  unfold streamCell
  by_cases h : element = -1 ∨ element = R
  · simp only [if_pos h]
    simp [List.filter_append, isCellValue]
  · simp only [if_neg h]
    rw [List.filter_append, streamWidth_filter]
    simp [List.filter_append, isCellValue]

/-- Claim C30, as the code has it.  In the text renderer, the values sent for the cells
by the loop over the rows are, in row-major order, one for each cell: `INFINITY` when the
cell equals `-1` or the sentinel `RAND_MAX`, and the number of the cell in every other
case; `operator <<` ends with that loop. -/
theorem streamRows_cell_values (RAND_MAX : ℚ) (fieldWidth : Int) (m : Matrix)
    (os : List StreamItem) :
    (streamRows RAND_MAX fieldWidth m os).filter isCellValue
      = os.filter isCellValue ++ (List.range m.rows).flatMap (fun r =>
          (List.range m.cols).map (fun c =>
            if m.item r c = -1 ∨ m.item r c = RAND_MAX then StreamItem.INFINITY
            else StreamItem.real (m.item r c))) ∧
    ∃ width head, streamOut RAND_MAX os m = streamRows RAND_MAX width m head := by
  refine ⟨?_, _, _, rfl⟩
  unfold streamRows
  refine forLoop_filter_append isCellValue _ _ (fun r L => ?_) m.rows os
  simp only []
  rw [List.filter_append, forLoop_filter_append isCellValue _
    (fun c => [if m.item r c = -1 ∨ m.item r c = RAND_MAX then StreamItem.INFINITY
      else StreamItem.real (m.item r c)])
    (fun c L0 => streamCell_filter RAND_MAX fieldWidth (m.item r c) L0) m.cols,
    List.filter_append, streamWidth_filter, List.map_eq_flatMap]
  simp [isCellValue]

/-- Claim C30 refuted on an instance: on the `1 × 1` matrix holding `-1`, which is not the
sentinel `RAND_MAX = 2147483647`, the renderer sends `INFINITY` for the cell and never
sends the number `-1`. -/
theorem streamOut_minus_one_as_infinity :
    (ofRows [[-1]]).item 0 0 ≠ 2147483647 ∧
    (streamRows 2147483647 8 (ofRows [[-1]]) []).filter isCellValue = [StreamItem.INFINITY] ∧
    StreamItem.INFINITY ∈ streamOut 2147483647 [] (ofRows [[-1]]) ∧
    StreamItem.real (-1) ∉ streamOut 2147483647 [] (ofRows [[-1]]) := by
  decide!

/-! ## `subtractFromI` twice -/

/-- Claim C40.  For every matrix `M` (exact arithmetic), applying `subtractFromI()` twice
restores every cell of `M` to its original value, and the dimensions are those of `M`. -/
theorem subtractFromI_involution (M : Matrix) :
    M.subtractFromI.subtractFromI.rows = M.rows ∧
    M.subtractFromI.subtractFromI.cols = M.cols ∧
    ∀ i j, M.subtractFromI.subtractFromI.item i j = M.item i j := by
  obtain ⟨h1, h2, h3⟩ := subtractFromI_spec M
  obtain ⟨g1, g2, g3⟩ := subtractFromI_spec M.subtractFromI
  refine ⟨g1.trans h1, g2.trans h2, fun i j => ?_⟩
  rw [g3 i j, h3 i j, h1, h2]
  by_cases h : i < M.m_rows ∧ j < M.m_cols ∧ i = j
  · rw [if_pos h, if_pos h]
    ring
  · rw [if_neg h, if_neg h]

/-! ## The fraction flag of `findMinMaxValues` -/

/-- The remainder `fmod(x, 1.0)` is zero exactly when `x` is an integer. -/
theorem fmod_one_eq_zero_iff (x : ℚ) : fmod x 1 = 0 ↔ ∃ z : Int, x = (z : ℚ) := by
  unfold fmod
  rw [div_one, one_mul]
  constructor
  · intro h
    exact ⟨Int.tdiv x.num x.den, by linarith⟩
  · rintro ⟨z, rfl⟩
    rw [Rat.num_intCast, Rat.den_intCast]
    simp

/-- The flag left by one step of the scan of `findMinMaxValues`. -/
theorem findMinMaxStep_flag (x : ℚ) (t : MinMax) :
    ((fun (s : MinMax) => if x < s.min then { s with min := x } else s)
      ((fun (s : MinMax) => if x > s.max then { s with max := x } else s)
        (if fmod x 1 ≠ 0 then { t with hasRealNumbers := true } else t))).hasRealNumbers
      = (if fmod x 1 ≠ 0 then true else t.hasRealNumbers) := by
  by_cases h1 : fmod x 1 = 0 <;> by_cases h2 : x > t.max <;> by_cases h3 : x < t.min <;>
    simp [h1, h2, h3]

/-- The flag `hasRealNumbers` left by `findMinMaxValues` is `true` exactly when some
in-range cell has a nonzero remainder `fmod(item, 1.0)`. -/
theorem findMinMaxValues_flag (M : Matrix) (R : ℚ) :
    (M.findMinMaxValues R).hasRealNumbers = true
      ↔ ∃ r c, r < M.m_rows ∧ c < M.m_cols ∧ fmod (M.item r c) 1 ≠ 0 := by
  have key : (fun (r c : Nat) (s : MinMax) =>
      (s.hasRealNumbers = true ↔
        ∃ x y, y < M.m_cols ∧ (x < r ∨ (x = r ∧ y < c)) ∧ fmod (M.item x y) 1 ≠ 0))
      M.m_rows 0 (M.findMinMaxValues R) := by
    unfold findMinMaxValues
    refine forLoop_scan_inv (fun (r c : Nat) (s : MinMax) =>
      (s.hasRealNumbers = true ↔
        ∃ x y, y < M.m_cols ∧ (x < r ∨ (x = r ∧ y < c)) ∧ fmod (M.item x y) 1 ≠ 0))
      M.rows M.cols _ _ ?_ ?_ ?_
    · constructor
      · intro h
        exact absurd h (by simp)
      · rintro ⟨x, y, _, h | ⟨_, h⟩, _⟩
        · exact absurd h (Nat.not_lt_zero _)
        · exact absurd h (Nat.not_lt_zero _)
    · rintro r t - h
      have hiff : ∀ x y, y < M.m_cols →
          ((x < r + 1 ∨ (x = r + 1 ∧ y < 0)) ↔ (x < r ∨ (x = r ∧ y < M.cols))) := by
        intro x y hy
        have hy0 : y < M.cols := hy
        constructor
        · rintro (h | ⟨_, h⟩)
          · rcases Nat.lt_or_ge x r with hlt | hge
            · exact Or.inl hlt
            · exact Or.inr ⟨by omega, hy0⟩
          · exact absurd h (Nat.not_lt_zero _)
        · rintro (h | ⟨h, _⟩)
          · exact Or.inl (by omega)
          · exact Or.inl (by omega)
      rw [h]
      constructor
      · rintro ⟨x, y, hy, hs, hf⟩
        exact ⟨x, y, hy, (hiff x y hy).mpr hs, hf⟩
      · rintro ⟨x, y, hy, hs, hf⟩
        exact ⟨x, y, hy, (hiff x y hy).mp hs, hf⟩
    · rintro r c t - hc h
      have hc0 : c < M.m_cols := hc
      have e := findMinMaxStep_flag (M.item r c) t
      simp only [] at e
      simp only []
      rw [e]
      by_cases hf : fmod (M.item r c) 1 ≠ 0
      · rw [if_pos hf]
        simp only [true_iff]
        exact ⟨r, c, hc0, (seen_succ r c r c).mpr (Or.inr ⟨rfl, rfl⟩), hf⟩
      · rw [if_neg hf, h]
        constructor
        · rintro ⟨x, y, hy, hs, hf0⟩
          exact ⟨x, y, hy, (seen_succ r c x y).mpr (Or.inl hs), hf0⟩
        · rintro ⟨x, y, hy, hs, hf0⟩
          rcases (seen_succ r c x y).mp hs with hs0 | ⟨hx, hy0⟩
          · exact ⟨x, y, hy, hs0, hf0⟩
          · rw [hx, hy0] at hf0
            exact absurd hf0 hf
  simp only [] at key
  rw [key]
  constructor
  · rintro ⟨x, y, hy, h | ⟨_, h⟩, hf⟩
    · exact ⟨x, y, h, hy, hf⟩
    · exact absurd h (Nat.not_lt_zero _)
  · rintro ⟨x, y, hx, hy, hf⟩
    exact ⟨x, y, hy, Or.inl hx, hf⟩

/-- Claim C35.  For every matrix, `hasRealNumbers` is set to `true` if and only if at
least one cell is not an integer; it is `false` for an empty matrix (no rows, or no
columns). -/
theorem findMinMaxValues_fraction_flag (M : Matrix) (RAND_MAX : ℚ) :
    ((M.findMinMaxValues RAND_MAX).hasRealNumbers = true
      ↔ ∃ r c, r < M.rows ∧ c < M.cols ∧ ¬ ∃ z : Int, M.item r c = (z : ℚ)) ∧
    (M.rows = 0 ∨ M.cols = 0 → (M.findMinMaxValues RAND_MAX).hasRealNumbers = false) := by
  have h1 : (M.findMinMaxValues RAND_MAX).hasRealNumbers = true
      ↔ ∃ r c, r < M.rows ∧ c < M.cols ∧ ¬ ∃ z : Int, M.item r c = (z : ℚ) := by
    rw [findMinMaxValues_flag]
    constructor
    · rintro ⟨r, c, hr, hc, hf⟩
      exact ⟨r, c, hr, hc, fun hz => hf ((fmod_one_eq_zero_iff _).mpr hz)⟩
    · rintro ⟨r, c, hr, hc, hf⟩
      exact ⟨r, c, hr, hc, fun hz => hf ((fmod_one_eq_zero_iff _).mp hz)⟩
  refine ⟨h1, fun h0 => ?_⟩
  have hno : ¬ (M.findMinMaxValues RAND_MAX).hasRealNumbers = true := by
    rw [h1]
    rintro ⟨r, c, hr, hc, -⟩
    rcases h0 with h | h
    · rw [h] at hr
      exact absurd hr (Nat.not_lt_zero _)
    · rw [h] at hc
      exact absurd hc (Nat.not_lt_zero _)
  simpa using hno

/-- Instance of C35: the empty matrix has the flag `false`; the matrix with rows
`(1, 5/2)` and `(-3, 4)` has the flag `true`. -/
theorem findMinMaxValues_fraction_flag_witness :
    ((mk0 0 0).findMinMaxValues 2147483647).hasRealNumbers = false ∧
    ((ofRows [[1, 5 / 2], [-3, 4]]).findMinMaxValues 2147483647).hasRealNumbers = true :=
  ⟨(findMinMaxValues_fraction_flag (mk0 0 0) 2147483647).2 (Or.inl rfl), by decide!⟩

/-! ## The cell accesses of `zeroMatrix` -/

/-- The accesses recorded along `zeroMatrix(m, n)`: the matrix left is the one of
`zeroMatrix`, and the calls are `setItem(i, i, 0)` for `i = 0, ..., m - 1`, each on a row
of size `n`. -/
theorem zeroMatrixAccesses_spec (M : Matrix) (m n : Nat) :
    (M.zeroMatrixAccesses m n).1 = M.zeroMatrix m n ∧
    (M.zeroMatrixAccesses m n).2 = (List.range m).map (fun i => (i, i, n)) := by
  unfold zeroMatrixAccesses zeroMatrix
  simp only [newRows_mk]
  refine forLoop_inv (fun k (s : Matrix × List (Nat × Nat × Nat)) =>
      s.1 = forLoop 0 k (fun i (M : Matrix) => (M.resizeRow i M.m_cols).setItem i i 0)
          { m_rows := m, m_cols := n, row := fun _ => Row.empty } ∧
      s.1.m_cols = n ∧
      s.2 = (List.range k).map (fun i => (i, i, n))) 0 m _ _ (Nat.zero_le _) ?_ ?_
    |>.imp id (fun h => h.2)
  · exact ⟨rfl, rfl, rfl⟩
  · rintro k s - - ⟨h1, h2, h3⟩
    refine ⟨?_, h2, ?_⟩
    · rw [forLoop_succ _ _ _ _ (Nat.zero_le _), ← h1]
    · simp only []
      rw [h3, List.range_succ, List.map_append, h2]
      simp [resizeRow, Row.resize]

/-- Claim C38 fails on an instance.  In `zeroMatrix(2, 1)` the second call is
`setItem(1, 1, 0)` on a row of size `1`: it addresses the column `1`, which is not in
`[0, 1)`.  In general the call for `i` addresses the column `i` of a row of size `n`, so
every `i` with `n ≤ i < m` is out of bounds. -/
theorem zeroMatrix_out_of_bounds :
    ((mk0 0 0).zeroMatrixAccesses 2 1).1 = (mk0 0 0).zeroMatrix 2 1 ∧
    ((mk0 0 0).zeroMatrixAccesses 2 1).2 = [(0, 0, 1), (1, 1, 1)] ∧
    ¬ (∀ x ∈ ((mk0 0 0).zeroMatrixAccesses 2 1).2, x.2.1 < x.2.2) := by
  obtain ⟨h1, h2⟩ := zeroMatrixAccesses_spec (mk0 0 0) 2 1
  refine ⟨h1, ?_, ?_⟩
  · rw [h2]
    rfl
  · rw [h2]
    decide

/-! ## Runs of the power: termination, products, receiver -/

/-- The truncating half of a non-positive integer is not positive. -/
theorem tdiv_two_nonpos (n : Int) (hn : n ≤ 0) : Int.tdiv n 2 ≤ 0 := by
  have h : n = -(-n) := by omega
  rw [h, Int.neg_tdiv]
  have := Int.tdiv_nonneg (by omega : 0 ≤ -n) (by decide : (0 : Int) ≤ 2)
  omega

/-- The exponent passed on by `expBySquaring2` from a non-positive exponent is not
positive. -/
theorem nextExponent_nonpos (n : Int) (hn : n ≤ 0) : nextExponent n ≤ 0 := by
  unfold nextExponent
  by_cases h : Int.tmod n 2 = 0
  · rw [if_pos h]
    exact tdiv_two_nonpos n hn
  · rw [if_neg h]
    exact tdiv_two_nonpos (n - 1) (by omega)

/-- From a non-positive exponent the recursion of `expBySquaring2` does not return,
whatever the bound on its depth. -/
theorem expBySquaring2_nonpos (d : Bool) (M : Matrix) (fuel : Nat) :
    ∀ (Y X : Matrix) (n : Int) (s : Bool), n ≤ 0 → expBySquaring2 d M fuel Y X n s = none := by
  induction fuel with
  | zero =>
    intro Y X n s _
    rfl
  | succ fuel ih =>
    intro Y X n s hn
    rw [expBySquaring2, if_neg (by omega)]
    by_cases h : Int.tmod n 2 = 0
    · rw [if_pos h]
      exact ih _ _ _ _ (tdiv_two_nonpos n hn)
    · rw [if_neg h]
      exact ih _ _ _ _ (tdiv_two_nonpos (n - 1) (by omega))

/-- Claim C37.  For every square matrix and every exponent `n ≤ 0`, the exponent sequence
followed by `expBySquaring2` stays non-positive, so it never reaches the base case
`n == 1`, and `pow` does not return, whatever the bound on the depth of the recursion. -/
theorem pow_nonpositive_never_returns (symmetryDefault : Bool) (M : Matrix)
    (hsq : M.rows = M.cols) (n : Int) (hn : n ≤ 0) (symmetry : Bool) :
    (∀ k, Nat.iterate nextExponent k n ≤ 0 ∧ Nat.iterate nextExponent k n ≠ 1) ∧
    ∀ fuel, pow symmetryDefault fuel M n symmetry = none := by
  constructor
  · have key : ∀ k, ∀ m : Int, m ≤ 0 → Nat.iterate nextExponent k m ≤ 0 := by
      intro k
      induction k with
      | zero => exact fun m hm => hm
      | succ k ih =>
        intro m hm
        rw [Function.iterate_succ_apply]
        exact ih _ (nextExponent_nonpos m hm)
    intro k
    have := key k n hn
    exact ⟨this, by omega⟩
  · intro fuel
    unfold pow
    rw [if_neg (not_not.mpr hsq)]
    exact expBySquaring2_nonpos symmetryDefault M fuel _ _ n symmetry hn

/-- Instance of C37: the `2 × 2` matrix with rows `(0, 1)` and `(1, 1)`, exponent `-7`,
after five steps of the exponent sequence and with a depth bound of `50`. -/
theorem pow_nonpositive_never_returns_witness :
    Nat.iterate nextExponent 5 (-7) ≠ 1 ∧
    pow false 50 (ofRows [[0, 1], [1, 1]]) (-7) false = none :=
  ⟨((pow_nonpositive_never_returns false (ofRows [[0, 1], [1, 1]]) rfl (-7) (by decide)
      false).1 5).2,
   (pow_nonpositive_never_returns false (ofRows [[0, 1], [1, 1]]) rfl (-7) (by decide)
      false).2 50⟩

/-- The run of `expBySquaring2` returns the matrix that `expBySquaring2` returns. -/
theorem expBySquaring2Run_result (d : Bool) (fuel : Nat) :
    ∀ (M Y X : Matrix) (n : Int) (s : Bool),
      (expBySquaring2Run d fuel M Y X n s).map PowRun.result
        = expBySquaring2 d M fuel Y X n s := by
  induction fuel with
  | zero =>
    intro M Y X n s
    rfl
  | succ fuel ih =>
    intro M Y X n s
    rw [expBySquaring2Run, expBySquaring2]
    by_cases h1 : n = 1
    · rw [if_pos h1, if_pos h1]
      rfl
    · rw [if_neg h1, if_neg h1]
      by_cases h2 : Int.tmod n 2 = 0
      · rw [if_pos h2, if_pos h2]
        simp only []
        rw [← ih]
        cases expBySquaring2Run d fuel M Y
          (((mk0 0 0).zeroMatrix M.rows M.cols).product X X s) (Int.tdiv n 2) d with
        | none => rfl
        | some r => rfl
      · rw [if_neg h2, if_neg h2]
        simp only []
        rw [← ih]
        cases expBySquaring2Run d fuel M
          (((mk0 0 0).zeroMatrix M.rows M.cols).product X Y s)
          (((mk0 0 0).zeroMatrix M.rows M.cols).product X X s) (Int.tdiv (n - 1) 2) d with
        | none => rfl
        | some r => rfl

/-- The run of `expBySquaring2` from an exponent `n ≥ 1`: within a depth `fuel` with
`n < 2 ^ fuel` it returns, having made `productCount n` calls of `product` and with the
receiver as it was. -/
theorem expBySquaring2Run_spec (d : Bool) (fuel : Nat) :
    ∀ (M Y X : Matrix) (n : Nat) (s : Bool), 1 ≤ n → n < 2 ^ fuel →
      ∃ r, expBySquaring2Run d fuel M Y X (n : Int) s = some r ∧
        r.products = productCount n ∧ r.receiver = M := by
  induction fuel with
  | zero =>
    intro M Y X n s hn hf
    simp at hf
    omega
  | succ fuel ih =>
    intro M Y X n s hn hf
    have hf2 : n < 2 ^ fuel * 2 := by
      rw [← Nat.pow_succ]
      exact hf
    rw [expBySquaring2Run, productCount]
    by_cases h1 : n = 1
    · have h1i : (n : Int) = 1 := by omega
      have h1n : n ≤ 1 := by omega
      rw [if_pos h1i, if_pos h1n]
      exact ⟨_, rfl, rfl, rfl⟩
    · have h1i : ¬ ((n : Int) = 1) := by omega
      have h1n : ¬ (n ≤ 1) := by omega
      rw [if_neg h1i, if_neg h1n]
      by_cases h2 : Int.tmod (n : Int) 2 = 0
      · have h2n : (n : Int) % 2 = 0 := by
          rw [← Int.tmod_eq_emod (by omega) (by decide)]
          exact h2
        have h2m : n % 2 = 0 := by omega
        have hdiv : Int.tdiv (n : Int) 2 = ((n / 2 : Nat) : Int) := (Int.ofNat_tdiv n 2).symm
        rw [if_pos h2, if_pos h2m, hdiv]
        obtain ⟨r, e1, e2, e3⟩ := ih M Y
          (((mk0 0 0).zeroMatrix M.rows M.cols).product X X s) (n / 2) d (by omega) (by omega)
        simp only []
        rw [e1]
        exact ⟨_, rfl, by simp only []; omega, e3⟩
      · have h2n : ¬ ((n : Int) % 2 = 0) := by
          rw [← Int.tmod_eq_emod (by omega) (by decide)]
          exact h2
        have h2m : ¬ (n % 2 = 0) := by omega
        have hdiv : Int.tdiv ((n : Int) - 1) 2 = (((n - 1) / 2 : Nat) : Int) := by
          have : ((n : Int) - 1) = ((n - 1 : Nat) : Int) := by omega
          rw [this]
          exact (Int.ofNat_tdiv (n - 1) 2).symm
        rw [if_neg h2, if_neg h2m, hdiv]
        obtain ⟨r, e1, e2, e3⟩ := ih M
          (((mk0 0 0).zeroMatrix M.rows M.cols).product X Y s)
          (((mk0 0 0).zeroMatrix M.rows M.cols).product X X s) ((n - 1) / 2) d
          (by omega) (by omega)
        simp only []
        rw [e1]
        exact ⟨_, rfl, by simp only []; omega, e3⟩

/-- The count of the recurrence is at most `2 · ⌊log₂ n⌋ + 1`. -/
theorem productCount_le (n : Nat) (hn : 1 ≤ n) : productCount n ≤ 2 * Nat.log 2 n + 1 := by
  induction n using Nat.strong_induction_on with
  | _ n ih =>
    rw [productCount]
    by_cases h1 : n ≤ 1
    · rw [if_pos h1]
      omega
    · rw [if_neg h1]
      have hlog : Nat.log 2 (n / 2) = Nat.log 2 n - 1 := Nat.log_div_base 2 n
      have hpos : 0 < Nat.log 2 n := Nat.log_pos (by decide) (by omega)
      by_cases h2 : n % 2 = 0
      · rw [if_pos h2]
        have := ih (n / 2) (by omega) (by omega)
        omega
      · rw [if_neg h2]
        have e : (n - 1) / 2 = n / 2 := by omega
        rw [e]
        have := ih (n / 2) (by omega) (by omega)
        omega

/-- The run of `pow` on a square matrix from an exponent `n ≥ 1`: within a depth `fuel`
with `n < 2 ^ fuel` it returns the matrix that `pow` returns, after `productCount n`
calls of `product`, with the receiver as it was. -/
theorem powRun_spec (d : Bool) (M : Matrix) (hsq : M.rows = M.cols) (n : Nat) (hn : 1 ≤ n)
    (s : Bool) (fuel : Nat) (hf : n < 2 ^ fuel) :
    ∃ r, powRun d fuel M (n : Int) s = some r ∧ r.products = productCount n ∧
      r.receiver = M ∧ pow d fuel M (n : Int) s = some r.result := by
  obtain ⟨r, e1, e2, e3⟩ := expBySquaring2Run_spec d fuel M
    ((mk0 0 0).identityMatrix M.rows) ((mk0 0 0).assign M) n s hn hf
  have e4 := expBySquaring2Run_result d fuel M
    ((mk0 0 0).identityMatrix M.rows) ((mk0 0 0).assign M) (n : Int) s
  rw [e1] at e4
  unfold powRun pow
  rw [if_neg (not_not.mpr hsq), if_neg (not_not.mpr hsq)]
  exact ⟨r, e1, e2, e3, e4.symm⟩

/-- Claim C31.  For every square matrix and every `n ≥ 1`, the recursion of
`expBySquaring2` started by `pow(n)` returns within a depth `fuel` with `n < 2 ^ fuel`,
and makes `productCount n` calls of `product` (`1` for `n = 1`, `1 + count (n / 2)` for
even `n`, `2 + count ((n - 1) / 2)` for odd `n`), which is at most `2 · ⌊log₂ n⌋ + 1`. -/
theorem pow_product_count (symmetryDefault : Bool) (M : Matrix) (hsq : M.rows = M.cols)
    (n : Nat) (hn : 1 ≤ n) (symmetry : Bool) (fuel : Nat) (hf : n < 2 ^ fuel) :
    ∃ r, powRun symmetryDefault fuel M (n : Int) symmetry = some r ∧
      pow symmetryDefault fuel M (n : Int) symmetry = some r.result ∧
      r.products = productCount n ∧ r.products ≤ 2 * Nat.log 2 n + 1 := by
  obtain ⟨r, e1, e2, -, e4⟩ := powRun_spec symmetryDefault M hsq n hn symmetry fuel hf
  exact ⟨r, e1, e4, e2, e2 ▸ productCount_le n hn⟩

/-- Instance of C31: the `2 × 2` matrix with rows `(0, 1)` and `(1, 1)`, exponent `10`,
depth `4`. -/
theorem pow_product_count_witness :
    ∃ r, powRun false 4 (ofRows [[0, 1], [1, 1]]) ((10 : Nat) : Int) false = some r ∧
      pow false 4 (ofRows [[0, 1], [1, 1]]) ((10 : Nat) : Int) false = some r.result ∧
      r.products = productCount 10 ∧ r.products ≤ 2 * Nat.log 2 10 + 1 :=
  pow_product_count false (ofRows [[0, 1], [1, 1]]) rfl 10 (by decide) false 4 (by decide)

/-- Claim C39.  For every square matrix `M` and every `n ≥ 1`, after `M.pow(n, symmetric)`
the receiver is the matrix it was, dimensions and cells; the power is held by the matrix
returned, which is built by the products in fresh storage. -/
theorem pow_receiver_unchanged (symmetryDefault : Bool) (M : Matrix) (hsq : M.rows = M.cols)
    (n : Nat) (hn : 1 ≤ n) (symmetry : Bool) (fuel : Nat) (hf : n < 2 ^ fuel) :
    ∃ r, powRun symmetryDefault fuel M (n : Int) symmetry = some r ∧
      pow symmetryDefault fuel M (n : Int) symmetry = some r.result ∧
      r.receiver = M ∧ r.receiver.rows = M.rows ∧ r.receiver.cols = M.cols ∧
      ∀ i j, r.receiver.item i j = M.item i j := by
  obtain ⟨r, e1, -, e3, e4⟩ := powRun_spec symmetryDefault M hsq n hn symmetry fuel hf
  exact ⟨r, e1, e4, e3, by rw [e3], by rw [e3], fun i j => by rw [e3]⟩

/-- Instance of C39: the `2 × 2` matrix with rows `(0, 1)` and `(1, 1)`, exponent `10`,
depth `4`. -/
theorem pow_receiver_unchanged_witness :
    ∃ r, powRun false 4 (ofRows [[0, 1], [1, 1]]) ((10 : Nat) : Int) false = some r ∧
      pow false 4 (ofRows [[0, 1], [1, 1]]) ((10 : Nat) : Int) false = some r.result ∧
      r.receiver = ofRows [[0, 1], [1, 1]] ∧
      r.receiver.rows = (ofRows [[0, 1], [1, 1]]).rows ∧
      r.receiver.cols = (ofRows [[0, 1], [1, 1]]).cols ∧
      ∀ i j, r.receiver.item i j = (ofRows [[0, 1], [1, 1]]).item i j :=
  pow_receiver_unchanged false (ofRows [[0, 1], [1, 1]]) rfl 10 (by decide) false 4 (by decide)

/-! ## The pivot choice of Gauss-Jordan -/

/-- Claim C32.  At every column `j` of `inverseByGaussJordanElimination`, on an `A` with
`n` rows: the pass is the elimination after the scaling of row `j` by the entry `(j, j)`
of the `A` left by the pivot search and the interchange; that entry has the largest
absolute value among the rows `j, ..., n - 1` of column `j` of the current `A`; no rows
are swapped exactly when no later row has a strictly larger absolute value than row `j`;
and a swap exchanges the same two rows `q` and `j` in `A` and in the receiver, `q` being
a later row with a strictly larger absolute value. -/
theorem gaussJordan_pivot_choice (n j : Nat) (hj : j < n) (R A : Matrix) (hA : A.m_rows = n) :
    gjColumn n j (R, A)
      = gjEliminate j (gjScaleRow j ((gjPlacePivot n j (R, A)).2.item j j)
          (gjPlacePivot n j (R, A))) ∧
    (∀ r, j ≤ r → r < n → |A.item r j| ≤ |(gjPlacePivot n j (R, A)).2.item j j|) ∧
    ((gjPivotSearch A n j).1 = -1 ↔ ∀ r, j < r → r < n → |A.item r j| ≤ |A.item j j|) ∧
    ((gjPivotSearch A n j).1 = -1 → gjPlacePivot n j (R, A) = (R, A)) ∧
    ((gjPivotSearch A n j).1 ≠ -1 → ∃ q, j < q ∧ q < n ∧ |A.item j j| < |A.item q j| ∧
      gjPlacePivot n j (R, A) = (R.swapRows q j, A.swapRows q j)) := by
  obtain ⟨q, h1, h2, h3, h4, h5, h6⟩ := gjPivotSearch_spec A n j hj
  have hplace : (gjPivotSearch A n j).1 = -1 → gjPlacePivot n j (R, A) = (R, A) := by
    intro h
    unfold gjPlacePivot
    simp only [h, ne_eq, not_true_eq_false, if_false]
  have hswap : ∀ q0 : Nat, (gjPivotSearch A n j).1 = (q0 : Int) →
      gjPlacePivot n j (R, A) = (R.swapRows q0 j, A.swapRows q0 j) := by
    intro q0 h
    have hq0 : ¬ ((q0 : Int) = -1) := by omega
    unfold gjPlacePivot
    simp only [h, ne_eq, hq0, not_false_eq_true, if_true, Int.toNat_ofNat]
  have hpiv : (gjPlacePivot n j (R, A)).2.item j j = (gjPivotSearch A n j).2 := by
    rcases h4 with ⟨hl, hq⟩ | ⟨hl, hq⟩
    · rw [hplace hl, h3, hq]
    · rw [hswap q hl, h3]
      simp only []
      rw [(swapRows_spec A q j).2.2 j j, if_pos (by omega), if_neg (by omega), if_pos rfl]
  refine ⟨?_, ?_, ?_, hplace, ?_⟩
  · rw [hpiv]
    rfl
  · intro r hr1 hr2
    rw [hpiv]
    exact h5 r hr1 hr2
  · constructor
    · intro hl r hr1 hr2
      rcases h4 with ⟨_, hq⟩ | ⟨hl2, hq⟩
      · have := h5 r (by omega) hr2
        rw [h3, hq] at this
        exact this
      · rw [hl] at hl2
        omega
    · intro hall
      rcases h4 with ⟨hl, _⟩ | ⟨hl2, hq⟩
      · exact hl
      · have := h6 j (le_refl _) hq
        rw [h3] at this
        exact absurd (hall q hq h2) (not_le.mpr this)
  · intro hne
    rcases h4 with ⟨hl, _⟩ | ⟨hl2, hq⟩
    · exact absurd hl hne
    · have := h6 j (le_refl _) hq
      rw [h3] at this
      exact ⟨q, hq, h2, this, hswap q hl2⟩

/-- Instance of C32: column `0` of the matrix with rows `(1, 2)` and `(3, 4)`, where the
row `1` is brought to position `0`. -/
theorem gaussJordan_pivot_choice_witness :
    |(ofRows [[1, 2], [3, 4]]).item 1 0|
      ≤ |(gjPlacePivot 2 0 ((mk0 0 0).identityMatrix 2, ofRows [[1, 2], [3, 4]])).2.item 0 0| ∧
    |(ofRows [[1, 2], [3, 4]]).item 0 0|
      ≤ |(gjPlacePivot 2 0 ((mk0 0 0).identityMatrix 2, ofRows [[1, 2], [3, 4]])).2.item 0 0| :=
  ⟨(gaussJordan_pivot_choice 2 0 (by decide) ((mk0 0 0).identityMatrix 2)
      (ofRows [[1, 2], [3, 4]]) rfl).2.1 1 (by decide) (by decide),
   (gaussJordan_pivot_choice 2 0 (by decide) ((mk0 0 0).identityMatrix 2)
      (ofRows [[1, 2], [3, 4]]) rfl).2.1 0 (by decide) (by decide)⟩

/-! ## Permutation record and parity of `ludcmp` -/

/-- The column pass of `ludcmp`, unfolded on any state: the parity changes sign exactly
when rows are interchanged, and the scaling of row `j` moves to position `imax` then. -/
theorem ludcmpColumn_fields (n j : Nat) (s : LUState) :
    (ludcmpColumn n j s).d
      = (if j ≠ (ludcmpPivotSearch s.a s.vv n j).2 then -s.d else s.d) ∧
    (ludcmpColumn n j s).vv
      = (if j ≠ (ludcmpPivotSearch s.a s.vv n j).2 then
          Function.update s.vv (ludcmpPivotSearch s.a s.vv n j).2 (s.vv j) else s.vv) := by
  unfold ludcmpColumn
  by_cases h : j ≠ (ludcmpPivotSearch s.a s.vv n j).2
  · simp only [h, if_true, ne_eq, not_false_eq_true]
    by_cases hp : (ludcmpInterchange s.a n (ludcmpPivotSearch s.a s.vv n j).2 j).item j j = 0
    · simp only [hp, if_true, and_self]
    · simp only [hp, if_false, and_self]
  · simp only [h, if_false]
    by_cases hp : s.a.item j j = 0
    · simp only [hp, if_true, and_self]
    · simp only [hp, if_false, and_self]

/-- One pass of the loop over columns of `ludcmp` keeps the parity equal to `-1` to the
number of columns whose recorded index is not the column itself. -/
theorem ludcmpColumn_parity (n j : Nat) (s : LUState)
    (h : s.d = (-1 : ℚ) ^ ((Finset.range j).filter (fun t => s.indx t ≠ t)).card) :
    (ludcmpColumn n j s).d = (-1 : ℚ) ^ ((Finset.range (j + 1)).filter
      (fun t => (ludcmpColumn n j s).indx t ≠ t)).card := by
  obtain ⟨-, hindx⟩ := ludcmpColumn_general n j s
  obtain ⟨hd, -⟩ := ludcmpColumn_fields n j s
  have hold : (Finset.range j).filter (fun t => (ludcmpColumn n j s).indx t ≠ t)
      = (Finset.range j).filter (fun t => s.indx t ≠ t) := by
    refine Finset.filter_congr (fun t ht => ?_)
    rw [hindx, Function.update_noteq (Nat.ne_of_lt (Finset.mem_range.mp ht))]
  have hj : (ludcmpColumn n j s).indx j = (ludcmpPivotSearch s.a s.vv n j).2 := by
    rw [hindx, Function.update_same]
  have hnot : j ∉ (Finset.range j).filter (fun t => s.indx t ≠ t) := fun hmem =>
    absurd (Finset.mem_range.mp (Finset.mem_filter.mp hmem).1) (Nat.lt_irrefl j)
  rw [Finset.range_succ, Finset.filter_insert, hold, hd]
  by_cases hne : j ≠ (ludcmpPivotSearch s.a s.vv n j).2
  · have hp : (ludcmpColumn n j s).indx j ≠ j := by
      rw [hj]
      exact fun h0 => hne h0.symm
    rw [if_pos hne, if_pos hp, Finset.card_insert_of_not_mem hnot, pow_succ, h]
    ring
  · have hp : ¬ ((ludcmpColumn n j s).indx j ≠ j) := by
      rw [hj]
      exact fun h0 => hne (fun h1 => h0 h1.symm)
    rw [if_neg hne, if_neg hp, h]

/-- Claim C33.  Whenever `ludcmp` returns `true`, every recorded index satisfies
`j ≤ indx[j] < n`, and `d` is `-1` to the number of columns `j` with `indx[j] ≠ j`: `+1`
when that number is even, `-1` when it is odd. -/
theorem ludcmp_permutation_parity (a : Matrix) (n : Nat) (indx : Nat → Nat) (d0 : ℚ)
    (h : (ludcmp a n indx d0).1 = true) :
    (∀ j, j < n → j ≤ (ludcmp a n indx d0).2.indx j ∧ (ludcmp a n indx d0).2.indx j < n) ∧
    (Even ((Finset.range n).filter (fun j => (ludcmp a n indx d0).2.indx j ≠ j)).card →
      (ludcmp a n indx d0).2.d = 1) ∧
    (Odd ((Finset.range n).filter (fun j => (ludcmp a n indx d0).2.indx j ≠ j)).card →
      (ludcmp a n indx d0).2.d = -1) := by
  revert h
  unfold ludcmp
  cases ludcmpScaling a n (fun _ => 0) with
  | none => simp
  | some vv =>
    intro _
    simp only []
    have hpar : (ludcmpColumns n { a := a, indx := indx, d := 1, vv := vv }).d
        = (-1 : ℚ) ^ ((Finset.range n).filter (fun t =>
            (ludcmpColumns n { a := a, indx := indx, d := 1, vv := vv }).indx t ≠ t)).card := by
      unfold ludcmpColumns
      exact forLoop_inv (fun j (s : LUState) =>
          s.d = (-1 : ℚ) ^ ((Finset.range j).filter (fun t => s.indx t ≠ t)).card) 0 n
        (ludcmpColumn n) _ (Nat.zero_le _) (by simp)
        (fun j s _ _ hs => ludcmpColumn_parity n j s hs)
    refine ⟨fun j hj => (ludcmpColumns_diag n _ j hj).2, fun he => ?_, fun ho => ?_⟩
    · rw [hpar, he.neg_one_pow]
    · rw [hpar, ho.neg_one_pow]

/-- Instance of C33 on the matrix with rows `(1, 2)` and `(3, 4)`: `ludcmp` returns `true`
and the index recorded for column `0` lies in `[0, 2)`. -/
theorem ludcmp_permutation_parity_witness :
    0 ≤ (ludcmp (ofRows [[1, 2], [3, 4]]) 2 (fun _ => 0) 0).2.indx 0 ∧
    (ludcmp (ofRows [[1, 2], [3, 4]]) 2 (fun _ => 0) 0).2.indx 0 < 2 :=
  (ludcmp_permutation_parity (ofRows [[1, 2], [3, 4]]) 2 (fun _ => 0) 0 (by decide!)).1 0
    (by decide)

/-! ## Scaled pivoting of `ludcmp` -/

/-- The value `big` of a row is zero or the absolute value of an entry of the row. -/
theorem ludcmpRowMax_attained (a : Matrix) (n i : Nat) :
    ludcmpRowMax a n i = 0 ∨ ∃ c, c < n ∧ |a.item i c| = ludcmpRowMax a n i := by
  unfold ludcmpRowMax
  refine forLoop_inv (fun k (big : ℚ) => big = 0 ∨ ∃ c, c < k ∧ |a.item i c| = big)
    0 n _ _ (Nat.zero_le _) (Or.inl rfl) ?_
  rintro k big - hk h
  simp only []
  by_cases hgt : |a.item i k| > big
  · rw [if_pos hgt]
    exact Or.inr ⟨k, Nat.lt_succ_self _, rfl⟩
  · rw [if_neg hgt]
    rcases h with h | ⟨c, hc, he⟩
    · exact Or.inl h
    · exact Or.inr ⟨c, Nat.lt_succ_of_lt hc, he⟩

/-- When the scaling pass of `ludcmp` succeeds, the scaling of every row is the
reciprocal of its `big`, which is positive. -/
theorem ludcmpScaling_value (a : Matrix) (n : Nat) (vv0 vv : Nat → ℚ)
    (h : ludcmpScaling a n vv0 = some vv) :
    ∀ i, i < n → vv i = 1 / ludcmpRowMax a n i ∧ 0 < ludcmpRowMax a n i := by
  have key : ∀ w, ludcmpScaling a n vv0 = some w →
      ∀ i, i < n → w i = 1 / ludcmpRowMax a n i ∧ 0 < ludcmpRowMax a n i := by
    unfold ludcmpScaling
    refine forLoop_inv (fun k (s : Option (Nat → ℚ)) =>
      ∀ w, s = some w → ∀ i, i < k → w i = 1 / ludcmpRowMax a n i ∧ 0 < ludcmpRowMax a n i)
      0 n _ _ (Nat.zero_le _) ?_ ?_
    · exact fun w _ i hi => absurd hi (Nat.not_lt_zero _)
    · rintro k s - hk hs
      cases s with
      | none =>
        intro w hw
        simp at hw
      | some u =>
        intro w hw
        simp only [] at hw
        have hbig : forLoop 0 n
            (fun j (big : ℚ) => if |a.item k j| > big then |a.item k j| else big) 0
              = ludcmpRowMax a n k := rfl
        rw [hbig] at hw
        by_cases hz : ludcmpRowMax a n k = 0
        · rw [if_pos hz] at hw
          simp at hw
        · rw [if_neg hz] at hw
          have hw0 : Function.update u k (1 / ludcmpRowMax a n k) = w := Option.some.inj hw
          have hpos : 0 < ludcmpRowMax a n k :=
            lt_of_le_of_ne (ludcmpRowMax_spec a n k).1 (fun h0 => hz h0.symm)
          intro i hi
          rw [← hw0]
          by_cases hik : i = k
          · rw [hik, Function.update_same]
            exact ⟨rfl, hpos⟩
          · rw [Function.update_noteq hik]
            exact hs u rfl i (by omega)
  exact key vv h

/-- The row chosen by the pivot search of `ludcmp` at column `j` maximises the scaled
absolute value over the rows of `[j, n)`, when the scalings of these rows are not
negative. -/
theorem ludcmpPivotSearch_max (a : Matrix) (vv : Nat → ℚ) (n j : Nat) (hj : j < n)
    (hvv : ∀ i, j ≤ i → i < n → 0 ≤ vv i) :
    ∀ i, j ≤ i → i < n →
      vv i * |a.item i j|
        ≤ vv (ludcmpPivotSearch a vv n j).2 * |a.item (ludcmpPivotSearch a vv n j).2 j| := by
  have key : (fun (k : Nat) (p : ℚ × Nat) =>
      (∀ i, j ≤ i → i < k → vv i * |a.item i j| ≤ p.1) ∧
      (p.1 = vv p.2 * |a.item p.2 j| ∨ (p.1 = 0 ∧ p.2 = j))) n
      (ludcmpPivotSearch a vv n j) := by
    unfold ludcmpPivotSearch
    refine forLoop_inv (fun (k : Nat) (p : ℚ × Nat) =>
      (∀ i, j ≤ i → i < k → vv i * |a.item i j| ≤ p.1) ∧
      (p.1 = vv p.2 * |a.item p.2 j| ∨ (p.1 = 0 ∧ p.2 = j))) j n _ _ (Nat.le_of_lt hj) ?_ ?_
    · exact ⟨fun i h1 h2 => absurd h2 (by omega), Or.inr ⟨rfl, rfl⟩⟩
    · rintro k p hk1 hk2 ⟨h1, h2⟩
      simp only []
      by_cases hgt : vv k * |a.item k j| > p.1
      · rw [if_pos hgt]
        refine ⟨fun i hi1 hi2 => ?_, Or.inl rfl⟩
        rcases Nat.lt_or_ge i k with hlt | hge
        · exact le_trans (h1 i hi1 hlt) (le_of_lt hgt)
        · have : i = k := by omega
          rw [this]
      · rw [if_neg hgt]
        refine ⟨fun i hi1 hi2 => ?_, h2⟩
        rcases Nat.lt_or_ge i k with hlt | hge
        · exact h1 i hi1 hlt
        · have : i = k := by omega
          rw [this]
          exact not_lt.mp hgt
  obtain ⟨h1, h2⟩ := key
  intro i hi1 hi2
  rcases h2 with h | ⟨h0, hq⟩
  · rw [← h]
    exact h1 i hi1 hi2
  · have hle := h1 i hi1 hi2
    rw [h0] at hle
    rw [hq]
    exact le_trans hle (mul_nonneg (hvv j (le_refl _) hj) (abs_nonneg _))

/-- The rows recorded stay below `n`: the permutation of the first `j` interchanges maps
`[0, n)` into itself. -/
theorem luPerm_lt (indx : Nat → Nat) (n j : Nat) (hj : j ≤ n)
    (hindx : ∀ t, t < j → indx t < n) : ∀ i, i < n → luPerm indx j i < n := by
  induction j with
  | zero =>
    intro i hi
    exact hi
  | succ j ih =>
    intro i hi
    rw [luPerm_succ_apply]
    refine ih (by omega) (fun t ht => hindx t (by omega)) _ ?_
    rw [Equiv.swap_apply_def]
    by_cases h1 : i = j
    · rw [if_pos h1]
      exact hindx j (Nat.lt_succ_self _)
    · rw [if_neg h1]
      by_cases h2 : i = indx j
      · rw [if_pos h2]
        omega
      · rw [if_neg h2]
        exact hi

/-- One pass of the loop over columns of `ludcmp` keeps the scalings attached to their
rows: positive everywhere, and at every position still to be examined the scaling of
the original row that sits there. -/
theorem ludcmpColumn_scale (n j : Nat) (hj : j < n) (scale : Nat → ℚ) (s : LUState)
    (hindx : ∀ t, t < j → t ≤ s.indx t ∧ s.indx t < n)
    (hpos : ∀ i, i < n → 0 < s.vv i)
    (hvv : ∀ i, j ≤ i → i < n → s.vv i = scale (luPerm s.indx j i)) :
    (∀ t, t < j + 1 → t ≤ (ludcmpColumn n j s).indx t ∧ (ludcmpColumn n j s).indx t < n) ∧
    (∀ i, i < n → 0 < (ludcmpColumn n j s).vv i) ∧
    (∀ i, j + 1 ≤ i → i < n →
      (ludcmpColumn n j s).vv i = scale (luPerm (ludcmpColumn n j s).indx (j + 1) i)) := by
  obtain ⟨-, e1⟩ := ludcmpColumn_general n j s
  obtain ⟨-, e2⟩ := ludcmpColumn_fields n j s
  obtain ⟨p1, p2⟩ := ludcmpPivotSearch_bounds s.a s.vv n j hj
  rw [e1, e2]
  refine ⟨fun t ht => ?_, fun i hi => ?_, fun i hi1 hi2 => ?_⟩
  · by_cases h0 : t = j
    · rw [h0, Function.update_same]
      exact ⟨p1, p2⟩
    · rw [Function.update_noteq h0]
      exact hindx t (by omega)
  · by_cases h0 : j ≠ (ludcmpPivotSearch s.a s.vv n j).2
    · rw [if_pos h0]
      by_cases h1 : i = (ludcmpPivotSearch s.a s.vv n j).2
      · rw [h1, Function.update_same]
        exact hpos j hj
      · rw [Function.update_noteq h1]
        exact hpos i hi
    · rw [if_neg h0]
      exact hpos i hi
  · rw [luPerm_succ_apply, Function.update_same,
      luPerm_congr (Function.update s.indx j (ludcmpPivotSearch s.a s.vv n j).2) s.indx j
        (fun t ht => Function.update_noteq (Nat.ne_of_lt ht) _ _)]
    have hij : i ≠ j := by omega
    by_cases h0 : j ≠ (ludcmpPivotSearch s.a s.vv n j).2
    · rw [if_pos h0]
      by_cases h1 : i = (ludcmpPivotSearch s.a s.vv n j).2
      · rw [h1, Function.update_same, Equiv.swap_apply_right]
        exact hvv j (le_refl _) hj
      · rw [Function.update_noteq h1, Equiv.swap_apply_of_ne_of_ne hij h1]
        exact hvv i (by omega) hi2
    · rw [if_neg h0]
      have hji : (ludcmpPivotSearch s.a s.vv n j).2 = j := (not_not.mp h0).symm
      rw [hji, Equiv.swap_self]
      exact hvv i (by omega) hi2

/-- When `ludcmp` returns `true`, at the beginning of every column `j` the recorded
indices of the columns before `j` lie in range, the scalings are positive, and every
position still to be examined carries the reciprocal of the `big` of the original row
that sits there. -/
theorem ludcmpAtColumn_scale (a0 : Matrix) (n : Nat) (indx0 : Nat → Nat) (d0 : ℚ)
    (h : (ludcmp a0 n indx0 d0).1 = true) (j : Nat) (hj : j ≤ n) :
    (∀ t, t < j → t ≤ (ludcmpAtColumn a0 n indx0 j).indx t ∧
      (ludcmpAtColumn a0 n indx0 j).indx t < n) ∧
    (∀ i, i < n → 0 < (ludcmpAtColumn a0 n indx0 j).vv i) ∧
    (∀ i, j ≤ i → i < n → (ludcmpAtColumn a0 n indx0 j).vv i
      = 1 / ludcmpRowMax a0 n (luPerm (ludcmpAtColumn a0 n indx0 j).indx j i)) ∧
    (∀ r, r < n → 0 < ludcmpRowMax a0 n r) := by
  cases hsc : ludcmpScaling a0 n (fun _ => 0) with
  | none =>
    unfold ludcmp at h
    rw [hsc] at h
    simp at h
  | some vv =>
    have hval := ludcmpScaling_value a0 n _ vv hsc
    unfold ludcmpAtColumn
    rw [hsc]
    simp only []
    have key := forLoop_inv (fun k (s : LUState) => k ≤ n →
        ((∀ t, t < k → t ≤ s.indx t ∧ s.indx t < n) ∧
        (∀ i, i < n → 0 < s.vv i) ∧
        (∀ i, k ≤ i → i < n → s.vv i = 1 / ludcmpRowMax a0 n (luPerm s.indx k i))))
      0 j (ludcmpColumn n) { a := a0, indx := indx0, d := 1, vv := vv } (Nat.zero_le _)
      (fun _ => ⟨fun t ht => absurd ht (Nat.not_lt_zero _),
        fun i hi => by
          simp only []
          rw [(hval i hi).1]
          exact one_div_pos.mpr (hval i hi).2,
        fun i _ hi => (hval i hi).1⟩)
      (fun k s _ hk hs hkn => by
        obtain ⟨g1, g2, g3⟩ := hs (by omega)
        exact ludcmpColumn_scale n k (by omega) (fun r => 1 / ludcmpRowMax a0 n r) s g1 g2 g3)
    obtain ⟨g1, g2, g3⟩ := key hj
    exact ⟨g1, g2, g3, fun r hr => (hval r hr).2⟩

/-- Claim C34.  Whenever `ludcmp` returns `true`, at every column `j` the chosen row
`imax`, which is recorded in `indx[j]`, maximises `vv[i] · |a[i][j]|` over `i` in
`[j, n)`, where `vv[i]` is the reciprocal of the largest absolute value of the original
row that sits at position `i` after the interchanges of the columns before `j`. -/
theorem ludcmp_scaled_pivoting (a0 : Matrix) (n : Nat) (indx0 : Nat → Nat) (d0 : ℚ)
    (h : (ludcmp a0 n indx0 d0).1 = true) (j : Nat) (hj : j < n) (s : LUState)
    (hs : s = ludcmpAtColumn a0 n indx0 j) :
    ludcmpAtColumn a0 n indx0 (j + 1) = ludcmpColumn n j s ∧
    (ludcmp a0 n indx0 d0).2 = ludcmpAtColumn a0 n indx0 n ∧
    (ludcmpColumn n j s).indx j = (ludcmpPivotSearch s.a s.vv n j).2 ∧
    j ≤ (ludcmpPivotSearch s.a s.vv n j).2 ∧ (ludcmpPivotSearch s.a s.vv n j).2 < n ∧
    (∀ i, j ≤ i → i < n → s.vv i * |s.a.item i j|
      ≤ s.vv (ludcmpPivotSearch s.a s.vv n j).2
        * |s.a.item (ludcmpPivotSearch s.a s.vv n j).2 j|) ∧
    (∀ i, j ≤ i → i < n →
      applyInterchanges s.indx j (fun r => r) i < n ∧
      s.vv i = 1 / ludcmpRowMax a0 n (applyInterchanges s.indx j (fun r => r) i)) ∧
    (∀ r, r < n → 0 < ludcmpRowMax a0 n r ∧
      (∀ c, c < n → |a0.item r c| ≤ ludcmpRowMax a0 n r) ∧
      ∃ c, c < n ∧ |a0.item r c| = ludcmpRowMax a0 n r) := by
  obtain ⟨g1, g2, g3, g4⟩ := ludcmpAtColumn_scale a0 n indx0 d0 h j (Nat.le_of_lt hj)
  rw [← hs] at g1 g2 g3
  obtain ⟨p1, p2⟩ := ludcmpPivotSearch_bounds s.a s.vv n j hj
  refine ⟨?_, ?_, ?_, p1, p2, ?_, fun i hi1 hi2 => ?_, fun r hr => ⟨g4 r hr, ?_, ?_⟩⟩
  · rw [hs]
    cases hsc : ludcmpScaling a0 n (fun _ => 0) with
    | none =>
      unfold ludcmp at h
      rw [hsc] at h
      simp at h
    | some vv =>
      unfold ludcmpAtColumn
      rw [hsc]
      exact forLoop_succ 0 j _ _ (Nat.zero_le _)
  · unfold ludcmp ludcmpAtColumn
    cases ludcmpScaling a0 n (fun _ => 0) with
    | none => rfl
    | some vv => rfl
  · rw [(ludcmpColumn_general n j s).2, Function.update_same]
  · exact ludcmpPivotSearch_max s.a s.vv n j hj (fun i _ hi => le_of_lt (g2 i hi))
  · rw [applyInterchanges_eq]
    exact ⟨luPerm_lt s.indx n j (Nat.le_of_lt hj) (fun t ht => (g1 t ht).2) i hi2, g3 i hi1 hi2⟩
  · exact (ludcmpRowMax_spec a0 n r).2
  · rcases ludcmpRowMax_attained a0 n r with h0 | h0
    · exact absurd h0 (ne_of_gt (g4 r hr))
    · exact h0

/-- Instance of C34 on the matrix with rows `(1, 2)` and `(3, 4)`, at column `0`: the
scaled entry of row `0`, `1/2 · 1`, is at most the one of the chosen row. -/
theorem ludcmp_scaled_pivoting_witness :
    (ludcmpAtColumn (ofRows [[1, 2], [3, 4]]) 2 (fun _ => 0) 0).vv 0
        * |(ludcmpAtColumn (ofRows [[1, 2], [3, 4]]) 2 (fun _ => 0) 0).a.item 0 0|
      ≤ (ludcmpAtColumn (ofRows [[1, 2], [3, 4]]) 2 (fun _ => 0) 0).vv
          (ludcmpPivotSearch (ludcmpAtColumn (ofRows [[1, 2], [3, 4]]) 2 (fun _ => 0) 0).a
            (ludcmpAtColumn (ofRows [[1, 2], [3, 4]]) 2 (fun _ => 0) 0).vv 2 0).2
        * |(ludcmpAtColumn (ofRows [[1, 2], [3, 4]]) 2 (fun _ => 0) 0).a.item
            (ludcmpPivotSearch (ludcmpAtColumn (ofRows [[1, 2], [3, 4]]) 2 (fun _ => 0) 0).a
              (ludcmpAtColumn (ofRows [[1, 2], [3, 4]]) 2 (fun _ => 0) 0).vv 2 0).2 0| :=
  (ludcmp_scaled_pivoting (ofRows [[1, 2], [3, 4]]) 2 (fun _ => 0) 0 (by decide!) 0 (by decide)
    (ludcmpAtColumn (ofRows [[1, 2], [3, 4]]) 2 (fun _ => 0) 0) rfl).2.2.2.2.2.1 0
    (by decide) (by decide)

/-! ## The zero-skipping of `lubksb` -/

/-- Relational rule for two loops over the same range. -/
theorem forLoop_rel {σ τ : Type} (Rel : Nat → σ → τ → Prop) (lo hi : Nat)
    (f : Nat → σ → σ) (g : Nat → τ → τ) (s : σ) (t : τ) (hle : lo ≤ hi) (h0 : Rel lo s t)
    (hstep : ∀ i x y, lo ≤ i → i < hi → Rel i x y → Rel (i + 1) (f i x) (g i y)) :
    Rel hi (forLoop lo hi f s) (forLoop lo hi g t) := by
  have key := forLoop_inv (fun i (p : σ × τ) => Rel i p.1 p.2) lo hi
    (fun k (p : σ × τ) => (f k p.1, g k p.2)) (s, t) hle h0
    (fun i p h1 h2 h3 => hstep i p.1 p.2 h1 h2 h3)
  rw [forLoop_pair] at key
  exact key

/-- With recorded indices `indx[j] ≥ j`, the forward substitution of `lubksb` leaves the
vector that the forward substitution with full sums leaves. -/
theorem lubksbForward_eq_full (a : Matrix) (n : Nat) (indx : Nat → Nat) (b : Nat → ℚ)
    (hindx : ∀ t, t < n → t ≤ indx t) :
    (lubksbForward a n indx b).1 = lubksbForwardFull a n indx b := by
  have key : (fun (i : Nat) (s : (Nat → ℚ) × Nat) (t : Nat → ℚ) =>
      s.1 = t ∧ (s.2 = 0 → ∀ r, r < i → s.1 r = 0) ∧
      (s.2 ≠ 0 → s.2 ≤ i ∧ ∀ r, r + 1 < s.2 → s.1 r = 0)) n
      (lubksbForward a n indx b) (lubksbForwardFull a n indx b) := by
    unfold lubksbForward lubksbForwardFull
    refine forLoop_rel (fun (i : Nat) (s : (Nat → ℚ) × Nat) (t : Nat → ℚ) =>
      s.1 = t ∧ (s.2 = 0 → ∀ r, r < i → s.1 r = 0) ∧
      (s.2 ≠ 0 → s.2 ≤ i ∧ ∀ r, r + 1 < s.2 → s.1 r = 0)) 0 n _ _ _ _ (Nat.zero_le _) ?_ ?_
    · exact ⟨rfl, fun _ r h => absurd h (Nat.not_lt_zero _), fun h => absurd rfl h⟩
    · rintro i ⟨bc, ii⟩ t - hi ⟨h0, h3, h4⟩
      simp only at h0 h3 h4
      rw [← h0]
      have hip1 := hindx i hi
      have hupd : ∀ m, m < i → Function.update bc (indx i) (bc i) m = bc m := fun m hm =>
        Function.update_noteq (by omega) _ _
      have hfull : forLoop 0 i (fun j sum =>
            sum - a.item i j * Function.update bc (indx i) (bc i) j) (bc (indx i))
          = bc (indx i) - ∑ m in Finset.range i, a.item i m * bc m := by
        rw [forLoop_sub_sum _ _ _ _ (Nat.zero_le _), ← Finset.range_eq_Ico]
        congr 1
        exact Finset.sum_congr rfl (fun m hm => by rw [hupd m (Finset.mem_range.mp hm)])
      have hsum : (if ii ≠ 0 then
            forLoop (ii - 1) i (fun j sum =>
              sum - a.item i j * Function.update bc (indx i) (bc i) j) (bc (indx i))
          else bc (indx i))
          = bc (indx i) - ∑ m in Finset.range i, a.item i m * bc m := by
        by_cases hii : ii ≠ 0
        · obtain ⟨g1, g2⟩ := h4 hii
          rw [if_pos hii, forLoop_sub_sum _ _ _ _ (by omega)]
          congr 1
          have hsub : Finset.Ico (ii - 1) i ⊆ Finset.range i := by
            intro m hm
            rw [Finset.mem_Ico] at hm
            exact Finset.mem_range.mpr hm.2
          rw [← Finset.sum_subset hsub (fun m hm hnm => by
            rw [Finset.mem_range] at hm
            rw [Finset.mem_Ico] at hnm
            rw [g2 m (by omega), mul_zero])]
          exact Finset.sum_congr rfl (fun m hm => by
            rw [Finset.mem_Ico] at hm
            rw [hupd m hm.2])
        · rw [if_neg hii]
          have hz : ∑ m in Finset.range i, a.item i m * bc m = 0 :=
            Finset.sum_eq_zero (fun m hm => by
              rw [h3 (not_not.mp hii) m (Finset.mem_range.mp hm), mul_zero])
          rw [hz, sub_zero]
      simp only []
      rw [hsum, hfull]
      have hnew : ∀ m, m < i → Function.update (Function.update bc (indx i) (bc i)) i
          (bc (indx i) - ∑ m in Finset.range i, a.item i m * bc m) m = bc m := fun m hm => by
        rw [Function.update_noteq (by omega), hupd m hm]
      refine ⟨rfl, fun hz r hr => ?_, fun hnz => ?_⟩
      · by_cases hii : ii ≠ 0
        · rw [if_pos hii] at hz
          exact absurd hz hii
        · rw [if_neg hii] at hz
          by_cases hs : bc (indx i) - ∑ m in Finset.range i, a.item i m * bc m ≠ 0
          · rw [if_pos hs] at hz
            omega
          · rcases Nat.lt_or_ge r i with hlt | hge
            · rw [hnew r hlt]
              exact h3 (not_not.mp hii) r hlt
            · have hri : r = i := by omega
              rw [hri, Function.update_same]
              exact not_not.mp hs
      · by_cases hii : ii ≠ 0
        · rw [if_pos hii] at hnz ⊢
          obtain ⟨g1, g2⟩ := h4 hii
          refine ⟨by omega, fun r hr => ?_⟩
          rw [hnew r (by omega)]
          exact g2 r hr
        · rw [if_neg hii] at hnz ⊢
          by_cases hs : bc (indx i) - ∑ m in Finset.range i, a.item i m * bc m ≠ 0
          · rw [if_pos hs]
            refine ⟨le_refl _, fun r hr => ?_⟩
            rw [hnew r (by omega)]
            exact h3 (not_not.mp hii) r (by omega)
          · rw [if_neg hs] at hnz
            exact absurd (not_not.mp hii) hnz
  exact key.1

/-- Claim C36, as the code has it.  For every `a`, `n`, `b` and every `indx` with
`j ≤ indx[j]` for all `j` in `[0, n)`, as `ludcmp` records it, the vector produced by
`lubksb` equals the vector produced by the same routine with the forward sum always
taken over all `j` in `[0, i)`. -/
theorem lubksb_skip_is_optimisation (a : Matrix) (n : Nat) (indx : Nat → Nat) (b : Nat → ℚ)
    (hindx : ∀ j, j < n → j ≤ indx j) :
    lubksb a n indx b = lubksbFull a n indx b := by
  unfold lubksb lubksbFull
  rw [lubksbForward_eq_full a n indx b hindx]

/-- Instance of C36 as the code has it: `a` with rows `(1, 0)` and `(1, 1)`, the
interchange of rows `0` and `1` recorded, right-hand side `(1, 0)`. -/
theorem lubksb_skip_is_optimisation_witness :
    lubksb (ofRows [[1, 0], [1, 1]]) 2 (fun _ => 1) (fun i => if i = 0 then 1 else 0)
      = lubksbFull (ofRows [[1, 0], [1, 1]]) 2 (fun _ => 1) (fun i => if i = 0 then 1 else 0) :=
  lubksb_skip_is_optimisation (ofRows [[1, 0], [1, 1]]) 2 (fun _ => 1)
    (fun i => if i = 0 then 1 else 0) (by decide)

/-- Claim C36 refuted on an instance: with `indx = (1, 0)`, whose entry `indx[1] = 0` is
below its position, `a` with rows `(1, 0)` and `(1, 1)` and `b = (1, 0)`, `lubksb` leaves
`(1, 0)` while the routine with full forward sums leaves `(1, -1)`. -/
theorem lubksb_skip_differs :
    lubksb (ofRows [[1, 0], [1, 1]]) 2 (fun i => if i = 0 then 1 else 0)
        (fun i => if i = 0 then 1 else 0) 0 = 1 ∧
    lubksb (ofRows [[1, 0], [1, 1]]) 2 (fun i => if i = 0 then 1 else 0)
        (fun i => if i = 0 then 1 else 0) 1 = 0 ∧
    lubksbFull (ofRows [[1, 0], [1, 1]]) 2 (fun i => if i = 0 then 1 else 0)
        (fun i => if i = 0 then 1 else 0) 0 = 1 ∧
    lubksbFull (ofRows [[1, 0], [1, 1]]) 2 (fun i => if i = 0 then 1 else 0)
        (fun i => if i = 0 then 1 else 0) 1 = -1 := by
  decide!

/-! ## `zeroMatrix` and `operator +` on matrices with more rows than columns -/

/-- Within bounds, that is for `m ≤ n`: every call `setItem(i, i, 0)` of `zeroMatrix(m, n)`
addresses a cell of its row, and after the call the matrix has `m` rows and `n` columns,
every cell is zero, and the result is the one obtained from an empty matrix. -/
theorem zeroMatrix_within_bounds (M : Matrix) (m n : Nat) (hmn : m ≤ n) :
    (∀ x ∈ (M.zeroMatrixAccesses m n).2, x.1 < m ∧ x.2.1 < x.2.2) ∧
    (M.zeroMatrix m n).rows = m ∧ (M.zeroMatrix m n).cols = n ∧
    (∀ i j, (M.zeroMatrix m n).item i j = 0) ∧
    M.zeroMatrix m n = (mk0 0 0).zeroMatrix m n := by
  obtain ⟨h1, h2, h3⟩ := zeroMatrix_spec M m n
  refine ⟨fun x hx => ?_, h1, h2, h3, ?_⟩
  · rw [(zeroMatrixAccesses_spec M m n).2, List.mem_map] at hx
    obtain ⟨i, hi, rfl⟩ := hx
    have him : i < m := List.mem_range.mp hi
    exact ⟨him, Nat.lt_of_lt_of_le him hmn⟩
  · unfold zeroMatrix
    simp only [newRows_mk]

/-- Claim C22 fails on an instance.  `zeroMatrix(3, 2)` makes the calls
`setItem(0, 0, 0)`, `setItem(1, 1, 0)` and `setItem(2, 2, 0)`, each on a row of `2`
cells: the third addresses the column `2`, beyond the row, so the call does not leave a
`3 × 2` matrix of zeros behind but writes past the end of row `2`. -/
theorem zeroMatrix_tall_writes_past_row :
    ((ofRows [[5, 6], [7, 8]]).zeroMatrixAccesses 3 2).1
      = (ofRows [[5, 6], [7, 8]]).zeroMatrix 3 2 ∧
    ((ofRows [[5, 6], [7, 8]]).zeroMatrixAccesses 3 2).2
      = [(0, 0, 2), (1, 1, 2), (2, 2, 2)] ∧
    (2, 2, 2) ∈ ((ofRows [[5, 6], [7, 8]]).zeroMatrixAccesses 3 2).2 ∧
    ¬ (∀ x ∈ ((ofRows [[5, 6], [7, 8]]).zeroMatrixAccesses 3 2).2, x.2.1 < x.2.2) := by
  obtain ⟨h1, h2⟩ := zeroMatrixAccesses_spec (ofRows [[5, 6], [7, 8]]) 3 2
  refine ⟨h1, ?_, ?_, ?_⟩
  · rw [h2]
    rfl
  · rw [h2]
    decide
  · rw [h2]
    decide

/-- The calls recorded along `operator +`: the result is the one of `plus`, and the calls
of its `zeroMatrix` are `setItem(i, i, 0)` for `i < rows()`, each on a row of `cols()`
cells. -/
theorem plusAccesses_spec (M b : Matrix) :
    (M.plusAccesses b).1 = M.plus b ∧
    (M.plusAccesses b).2 = (List.range M.rows).map (fun i => (i, i, M.cols)) := by
  obtain ⟨h1, h2⟩ := zeroMatrixAccesses_spec (mk0 0 0) M.rows M.cols
  unfold plusAccesses plus
  simp only []
  rw [h1, h2]
  exact ⟨rfl, rfl⟩

/-- Within bounds, that is for `m ≤ n`: for all matrices `a`, `b` and an `m × n` receiver
`c`, with `a` of dimensions `m × n`, every diagonal write of `a + b` addresses a cell of
its row, and the receiver after `c.sum(a, b)`, the matrix returned by `a + b` and `a`
after `a += b` all are `m × n` and hold `a(i,j) + b(i,j)` in every cell `(i, j)`; `a + b`
leaves `a` and `b` unchanged. -/
theorem additions_agree_within_bounds (m n : Nat) (hmn : m ≤ n) (a b c : Matrix)
    (har : a.rows = m) (hac : a.cols = n) (hcr : c.rows = m) (hcc : c.cols = n) :
    (∀ x ∈ (a.plusAccesses b).2, x.1 < m ∧ x.2.1 < x.2.2) ∧
    ((c.sum a b).rows = m ∧ (c.sum a b).cols = n) ∧
    ((a.plus b).1.rows = m ∧ (a.plus b).1.cols = n) ∧
    ((a.plusAssign b).rows = m ∧ (a.plusAssign b).cols = n) ∧
    (a.plus b).2 = (a, b) ∧
    ∀ i j, i < m → j < n →
      (c.sum a b).item i j = a.item i j + b.item i j ∧
      (a.plus b).1.item i j = a.item i j + b.item i j ∧
      (a.plusAssign b).item i j = a.item i j + b.item i j := by
  obtain ⟨s1, s2, s3⟩ := sum_spec c a b
  obtain ⟨p1, p2, p3, p4⟩ := plus_spec a b
  obtain ⟨q1, q2, q3⟩ := plusAssign_spec a b
  have har0 : a.m_rows = m := har
  have hac0 : a.m_cols = n := hac
  have hcr0 : c.m_rows = m := hcr
  have hcc0 : c.m_cols = n := hcc
  refine ⟨fun x hx => ?_, ⟨s1.trans hcr, s2.trans hcc⟩, ⟨p1.trans har, p2.trans hac⟩,
    ⟨q1.trans har, q2.trans hac⟩, p4, fun i j hi hj => ?_⟩
  · rw [(plusAccesses_spec a b).2, List.mem_map] at hx
    obtain ⟨i, hi, rfl⟩ := hx
    have him : i < m := by
      rw [← har]
      exact List.mem_range.mp hi
    exact ⟨him, by rw [hac]; exact Nat.lt_of_lt_of_le him hmn⟩
  · rw [s3 i j, p3 i j, q3 i j, har0, hac0, hcr0, hcc0, if_pos ⟨hi, hj⟩, if_pos ⟨hi, hj⟩,
      if_pos ⟨hi, hj⟩]
    exact ⟨rfl, rfl, rfl⟩

/-- Instance of the additions within bounds, on `2 × 3` operands at the cell `(1, 2)`. -/
theorem additions_agree_within_bounds_witness :
    ((mk0 2 3).sum (ofRows [[1, 2, 3], [4, 5, 6]]) (ofRows [[7, 8, 9], [1, 1, 1]])).item 1 2
      = (ofRows [[1, 2, 3], [4, 5, 6]]).item 1 2 + (ofRows [[7, 8, 9], [1, 1, 1]]).item 1 2 ∧
    ((ofRows [[1, 2, 3], [4, 5, 6]]).plus (ofRows [[7, 8, 9], [1, 1, 1]])).1.item 1 2
      = (ofRows [[1, 2, 3], [4, 5, 6]]).item 1 2 + (ofRows [[7, 8, 9], [1, 1, 1]]).item 1 2 ∧
    ((ofRows [[1, 2, 3], [4, 5, 6]]).plusAssign (ofRows [[7, 8, 9], [1, 1, 1]])).item 1 2
      = (ofRows [[1, 2, 3], [4, 5, 6]]).item 1 2 + (ofRows [[7, 8, 9], [1, 1, 1]]).item 1 2 :=
  (additions_agree_within_bounds 2 3 (by decide) (ofRows [[1, 2, 3], [4, 5, 6]])
    (ofRows [[7, 8, 9], [1, 1, 1]]) (mk0 2 3) rfl rfl rfl rfl).2.2.2.2.2 1 2
    (by decide) (by decide)

/-- Claim C29 fails on an instance.  For the `2 × 1` operands `a` with rows `(1)`, `(2)`
and `b` with rows `(3)`, `(4)`, `a + b` builds its result with `zeroMatrix(2, 1)`, whose
second call `setItem(1, 1, 0)` addresses the column `1` of a row of `1` cell: `a + b`
writes past the end of that row and so does not deliver the matrix of the sums that
`c.sum(a, b)` and `a += b` hold. -/
theorem plus_tall_writes_past_row :
    (ofRows [[1], [2]]).rows = 2 ∧ (ofRows [[1], [2]]).cols = 1 ∧
    (ofRows [[3], [4]]).rows = 2 ∧ (ofRows [[3], [4]]).cols = 1 ∧
    ((ofRows [[1], [2]]).plusAccesses (ofRows [[3], [4]])).1
      = (ofRows [[1], [2]]).plus (ofRows [[3], [4]]) ∧
    ((ofRows [[1], [2]]).plusAccesses (ofRows [[3], [4]])).2 = [(0, 0, 1), (1, 1, 1)] ∧
    ¬ (∀ x ∈ ((ofRows [[1], [2]]).plusAccesses (ofRows [[3], [4]])).2, x.2.1 < x.2.2) ∧
    ((mk0 2 1).sum (ofRows [[1], [2]]) (ofRows [[3], [4]])).item 1 0 = 6 ∧
    ((ofRows [[1], [2]]).plusAssign (ofRows [[3], [4]])).item 1 0 = 6 := by
  obtain ⟨h1, h2⟩ := plusAccesses_spec (ofRows [[1], [2]]) (ofRows [[3], [4]])
  refine ⟨rfl, rfl, rfl, rfl, h1, ?_, ?_, by decide!, by decide!⟩
  · rw [h2]
    rfl
  · rw [h2]
    decide

end Matrix

end SocNetV
